import Mathlib

/-!
Containers of `Data_Structure_Implementations`

Shallow embedding of

* `src/3_HashMap/ChainingMethod/HashTable_Chaining.h`  (class `HashTable`, separate chaining)
* `src/3_HashMap/OpenAddressingMethod/HashTableOpenAddressing.h` (class `HashTableOA`,
  linear probing with tombstones)
* `src/1_Vector/DynamicVector.h` (class `Vector`, growable array)
* `src/2_LinkedList/SinglyLinkedList.h` and `DoublyLinkedList.h`

Conventions of the embedding.

* `std::hash<K>` is a function `hash : K → Nat`; `operator==` on keys is decidable equality.
* `std::vector<T>` is a `List T`; `table[i]` is `List.getD`, an assignment `table[i] = x` is
  `List.set`.
* The load-factor test of `insert` is a comparison of `float` values
  (`static_cast<float>(current_size) / table.size() > 0.75f`, resp. `>= 0.7f`).  Its result is a
  function of the two integers only, so `insert` takes that function as the argument
  `over : Nat → Nat → Bool` (size, capacity), and the results hold for every such function.
  `load_exceeded` and `load_reached` are the exact rational readings `size / capacity > 3/4`
  and `size / capacity ≥ 7/10`; they agree with the `float` tests whenever size and capacity
  are below `2 ^ 21`, where the rounding of the quotient cannot cross the threshold.
* Capacities are natural numbers: `old_capacity * 2` does not wrap, because a vector of
  `2 ^ 63` elements cannot be allocated.
* `size_t` counters are natural numbers: a counter is bounded by the number of nodes or slots,
  which is bounded by the address space, so the increments never wrap.  `current_size--` is
  executed only after a node or an `OCCUPIED` slot was found, when the counter of a table that
  satisfies the representation invariant is positive (`WF.size_remove`, `Inv.size_remove_true`).
* A call that throws is modelled by `Except`; for the calls that change the table the result
  also holds the table as the exception leaves it.
-/

namespace CustomDataStructures

set_option linter.unusedSectionVars false
set_option linter.unusedVariables false

/-- Exact reading of the chained table's test `size / capacity > 0.75f`. -/
def load_exceeded (size capacity : Nat) : Bool :=
  decide (3 * capacity < 4 * size)

/-- Exact reading of the probing table's test `size / capacity >= 0.7f`. -/
def load_reached (size capacity : Nat) : Bool :=
  decide (7 * capacity ≤ 10 * size)

/-! ## Separate chaining: `HashTable` -/

/-- One chain node: `struct Node { K key; V value; Node* next; }`.  The `next` pointer is the
tail of the list that holds the node. -/
structure Node (K V : Type) where
  key : K
  value : V
deriving DecidableEq, Repr

/-- Member variables of `HashTable`: `std::vector<Node*> table` (one chain per bucket) and
`size_t current_size`. -/
structure HashTable (K V : Type) where
  table : List (List (Node K V))
  current_size : Nat
deriving DecidableEq, Repr

/-- One request of a client: `insert(key, value)` or `remove(key)`. -/
inductive Op (K V : Type) where
  | insert (key : K) (value : V)
  | remove (key : K)
deriving DecidableEq, Repr

/-- Key a request is about. -/
def Op.key {K V : Type} : Op K V → K
  | .insert key _ => key
  | .remove key => key

/-- One step of the reference finite map: an insert binds (or rebinds) its key, a remove
unbinds it. -/
def ref_step {K V : Type} [DecidableEq K] (m : K → Option V) : Op K V → K → Option V
  | .insert key value => fun k => if k = key then some value else m k
  | .remove key => fun k => if k = key then none else m k

/-- Reference finite map: the binding of every key after the requests `ops` (oldest first) were
applied to the empty map. -/
def ref_map {K V : Type} [DecidableEq K] (ops : List (Op K V)) : K → Option V :=
  ops.foldl ref_step (fun _ => none)

namespace HashTable

variable {K V : Type} [DecidableEq K]

/-- Constructor `HashTable(size_t initial_capacity = 16)`. -/
def new (initial_capacity : Nat) : HashTable K V :=
  let initial_capacity := if initial_capacity = 0 then 16 else initial_capacity
  { table := List.replicate initial_capacity [], current_size := 0 }

/-- Inner `while (current_node != nullptr)` loop of `resize_and_rehash`: every node of one old
chain is unlinked and prepended to its bucket of `new_table`. -/
def move_chain (hash : K → Nat) (new_capacity : Nat) :
    List (Node K V) → List (List (Node K V)) → List (List (Node K V))
  | [], new_table => new_table
  | node_to_move :: current_node, new_table =>
    let new_index := hash node_to_move.key % new_capacity
    move_chain hash new_capacity current_node
      (new_table.set new_index (node_to_move :: new_table.getD new_index []))

/-- Growth: `HashTable::resize_and_rehash`. -/
def resize_and_rehash (hash : K → Nat) (t : HashTable K V) : HashTable K V :=
  let old_capacity := t.table.length
  let new_capacity := old_capacity * 2
  let new_table : List (List (Node K V)) := List.replicate new_capacity []
  { table := t.table.foldl (fun nt chain => move_chain hash new_capacity chain nt) new_table,
    current_size := t.current_size }

/-- Chain traversal of `insert`: overwrite the value of the first node whose key is `key`;
`none` when the traversal reaches `nullptr`. -/
def chain_update : List (Node K V) → K → V → Option (List (Node K V))
  | [], _, _ => none
  | current :: rest, key, value =>
    if current.key = key then some ({ key := current.key, value := value } :: rest)
    else (chain_update rest key value).map (fun c => current :: c)

/-- Method `HashTable::insert`. -/
def insert (over : Nat → Nat → Bool) (hash : K → Nat) (t : HashTable K V) (key : K) (value : V) :
    HashTable K V :=
  let t := if over t.current_size t.table.length then resize_and_rehash hash t else t
  let index := hash key % t.table.length
  let head := t.table.getD index []
  match chain_update head key value with
  | some chain => { table := t.table.set index chain, current_size := t.current_size }
  | none =>
    { table := t.table.set index ({ key := key, value := value } :: head),
      current_size := t.current_size + 1 }

/-- Chain traversal of `search`. -/
def chain_search : List (Node K V) → K → Option V
  | [], _ => none
  | current :: rest, key => if current.key = key then some current.value else chain_search rest key

/-- Method `HashTable::search`: `some v` is the result `true` with `value_out = v`, `none` is the
result `false`. -/
def search (hash : K → Nat) (t : HashTable K V) (key : K) : Option V :=
  chain_search (t.table.getD (hash key % t.table.length) []) key

/-- Chain traversal of `remove`: unlink the first node whose key is `key`. -/
def chain_remove : List (Node K V) → K → Option (List (Node K V))
  | [], _ => none
  | current :: rest, key =>
    if current.key = key then some rest
    else (chain_remove rest key).map (fun c => current :: c)

/-- Method `HashTable::remove`: the table afterwards and the returned flag. -/
def remove (hash : K → Nat) (t : HashTable K V) (key : K) : HashTable K V × Bool :=
  let index := hash key % t.table.length
  match chain_remove (t.table.getD index []) key with
  | some chain => ({ table := t.table.set index chain, current_size := t.current_size - 1 }, true)
  | none => (t, false)

/-- Method `HashTable::size`. -/
def size (t : HashTable K V) : Nat := t.current_size

/-- Method `HashTable::empty`. -/
def empty (t : HashTable K V) : Bool := decide (t.current_size = 0)

/-- The table after one request. -/
def apply (over : Nat → Nat → Bool) (hash : K → Nat) (t : HashTable K V) : Op K V → HashTable K V
  | .insert k v => insert over hash t k v
  | .remove k => (remove hash t k).1

/-- The table after the requests `ops` (oldest first) on a newly constructed table. -/
def run (over : Nat → Nat → Bool) (hash : K → Nat) (initial_capacity : Nat) (ops : List (Op K V)) :
    HashTable K V :=
  ops.foldl (apply over hash) (new initial_capacity)

/-- Every node of the table, bucket after bucket. -/
def nodes (t : HashTable K V) : List (Node K V) := t.table.flatten

/-- Keys of all nodes. -/
def keys (t : HashTable K V) : List K := (nodes t).map Node.key

/-- Representation invariant of the chained table: at least one bucket, every node lies in the
bucket of its hash, no bucket holds a key twice, and `current_size` counts the nodes. -/
def WF (hash : K → Nat) (t : HashTable K V) : Prop :=
  0 < t.table.length ∧
  (∀ i, i < t.table.length → ∀ n ∈ t.table.getD i [], hash n.key % t.table.length = i) ∧
  (∀ i, i < t.table.length → ((t.table.getD i []).map Node.key).Nodup) ∧
  t.current_size = (nodes t).length

end HashTable

/-! ## Open addressing: `HashTableOA` -/

/-- The enum `SlotState { EMPTY, OCCUPIED, DELETED }`. -/
inductive SlotState where
  | EMPTY
  | OCCUPIED
  | DELETED
deriving DecidableEq, Repr

/-- One slot: `struct Slot { K key; V value; SlotState state = SlotState::EMPTY; }`. -/
structure Slot (K V : Type) where
  key : K
  value : V
  state : SlotState
deriving DecidableEq, Repr

/-- Member variables of `HashTableOA`: `std::vector<Slot> table` and `size_t current_size`. -/
structure HashTableOA (K V : Type) where
  table : List (Slot K V)
  current_size : Nat
deriving DecidableEq, Repr

/-- Ways in which a call on a `HashTableOA` ends without a result.
`table_full` is the `std::runtime_error("Hash table is full, cannot find slot.")` thrown by
`find_slot`.  `bound` says that a bound of this embedding (the number of loop steps of
`find_slot`, or the nesting depth of `insert` and `resize_and_rehash`) was used up; it has no
counterpart in the program and never occurs on a table with at least one slot
(`find_slot_ne_bound`, `insert_ne_bound`). -/
inductive Fault where
  | table_full
  | bound
deriving DecidableEq, Repr

namespace HashTableOA

variable {K V : Type} [DecidableEq K] [Inhabited K] [Inhabited V]

/-- A value-initialised slot `Slot()`: default key and value, state `EMPTY`. -/
def fresh : Slot K V := { key := default, value := default, state := SlotState.EMPTY }

/-- Constructor `HashTableOA(size_t initial_capacity = 16)`. -/
def new (initial_capacity : Nat) : HashTableOA K V :=
  let initial_capacity := if initial_capacity = 0 then 16 else initial_capacity
  { table := List.replicate initial_capacity fresh, current_size := 0 }

/-- The `while` loop of `find_slot`, started at `index` with `steps` iterations left. -/
def find_slot_loop (table : List (Slot K V)) (key : K) (initial_index : Nat) :
    Nat → Nat → Except Fault Nat
  | 0, _ => .error Fault.bound
  | steps + 1, index =>
    if (table.getD index fresh).state ≠ SlotState.EMPTY then
      if (table.getD index fresh).state = SlotState.OCCUPIED ∧ (table.getD index fresh).key = key
      then .ok index
      else
        let index := (index + 1) % table.length
        if index = initial_index then .error Fault.table_full
        else find_slot_loop table key initial_index steps index
    else .ok index

/-- Method `HashTableOA::find_slot`.  The loop advances `index` by one modulo the capacity and
throws when it is back at `initial_index`, so it makes at most `table.size()` iterations. -/
def find_slot (hash : K → Nat) (t : HashTableOA K V) (key : K) : Except Fault Nat :=
  let index := hash key % t.table.length
  let initial_index := index
  find_slot_loop t.table key initial_index t.table.length index

/-- The `for (const auto& slot : old_table)` loop of `resize_and_rehash`, with the `insert`
it calls as an argument.  An exception of `insert` leaves the loop. -/
def rehash_loop (ins : HashTableOA K V → K → V → HashTableOA K V × Except Fault Unit) :
    List (Slot K V) → HashTableOA K V → HashTableOA K V × Except Fault Unit
  | [], t => (t, .ok ())
  | slot :: rest, t =>
    if slot.state = SlotState.OCCUPIED then
      match ins t slot.key slot.value with
      | (t, .ok _) => rehash_loop ins rest t
      | (t, .error e) => (t, .error e)
    else rehash_loop ins rest t

/-- Body of `resize_and_rehash`, with the `insert` it calls as an argument. -/
def resize_and_rehash_with (ins : HashTableOA K V → K → V → HashTableOA K V × Except Fault Unit)
    (t : HashTableOA K V) : HashTableOA K V × Except Fault Unit :=
  let old_capacity := t.table.length
  let new_capacity := old_capacity * 2
  let old_table := t.table
  rehash_loop ins old_table { table := List.replicate new_capacity fresh, current_size := 0 }

/-- Body of `insert`, with the `resize_and_rehash` it calls as an argument.  The result is the
table when the call ends and `.ok ()` for a normal return or the exception thrown. -/
def insert_with (over : Nat → Nat → Bool) (hash : K → Nat)
    (resize : HashTableOA K V → HashTableOA K V × Except Fault Unit)
    (t : HashTableOA K V) (key : K) (value : V) : HashTableOA K V × Except Fault Unit :=
  match (if over t.current_size t.table.length then resize t else (t, .ok ())) with
  | (t, .error e) => (t, .error e)
  | (t, .ok _) =>
    match find_slot hash t key with
    | .error e => (t, .error e)
    | .ok index =>
      let current_size :=
        if (t.table.getD index fresh).state ≠ SlotState.OCCUPIED then t.current_size + 1
        else t.current_size
      ({ table := t.table.set index { key := key, value := value, state := SlotState.OCCUPIED },
         current_size := current_size }, .ok ())

/-- Method `insert` with the mutual recursion `insert → resize_and_rehash → insert` unfolded
`depth` times. -/
def insert_depth (over : Nat → Nat → Bool) (hash : K → Nat) :
    Nat → HashTableOA K V → K → V → HashTableOA K V × Except Fault Unit
  | 0 => fun t _ _ => (t, .error Fault.bound)
  | depth + 1 => insert_with over hash (resize_and_rehash_with (insert_depth over hash depth))

/-- Method `HashTableOA::insert`.  An `insert` called by `resize_and_rehash` finds fewer
entries than half the new capacity and does not grow again, so two levels of the recursion are
all the program uses (`insert_depth_irrelevant`). -/
def insert (over : Nat → Nat → Bool) (hash : K → Nat) (t : HashTableOA K V) (key : K) (value : V) :
    HashTableOA K V × Except Fault Unit :=
  insert_depth over hash 2 t key value

/-- Method `HashTableOA::resize_and_rehash`, as called by `insert`. -/
def resize_and_rehash (over : Nat → Nat → Bool) (hash : K → Nat) (t : HashTableOA K V) :
    HashTableOA K V × Except Fault Unit :=
  resize_and_rehash_with (insert_depth over hash 1) t

/-- Method `HashTableOA::search`: `.ok (some v)` is the value found, `.ok none` is
`std::nullopt`. -/
def search (hash : K → Nat) (t : HashTableOA K V) (key : K) : Except Fault (Option V) :=
  match find_slot hash t key with
  | .error e => .error e
  | .ok index =>
    if (t.table.getD index fresh).state = SlotState.OCCUPIED ∧ (t.table.getD index fresh).key = key
    then .ok (some (t.table.getD index fresh).value)
    else .ok none

/-- Method `HashTableOA::remove`: the table when the call ends, and the flag returned or the
exception thrown. -/
def remove (hash : K → Nat) (t : HashTableOA K V) (key : K) :
    HashTableOA K V × Except Fault Bool :=
  match find_slot hash t key with
  | .error e => (t, .error e)
  | .ok index =>
    if (t.table.getD index fresh).state = SlotState.OCCUPIED ∧ (t.table.getD index fresh).key = key
    then
      ({ table := t.table.set index
            { key := (t.table.getD index fresh).key, value := (t.table.getD index fresh).value,
              state := SlotState.DELETED },
         current_size := t.current_size - 1 }, .ok true)
    else (t, .ok false)

/-- Method `HashTableOA::size`. -/
def size (t : HashTableOA K V) : Nat := t.current_size

/-- Method `HashTableOA::empty`. -/
def empty (t : HashTableOA K V) : Bool := decide (t.current_size = 0)

/-- The table after one request (also when the request threw). -/
def step (over : Nat → Nat → Bool) (hash : K → Nat) (t : HashTableOA K V) :
    Op K V → HashTableOA K V
  | .insert k v => (insert over hash t k v).1
  | .remove k => (remove hash t k).1

/-- Whether a request returns normally. -/
def returns (over : Nat → Nat → Bool) (hash : K → Nat) (t : HashTableOA K V) : Op K V → Bool
  | .insert k v => (insert over hash t k v).2.isOk
  | .remove k => (remove hash t k).2.isOk

/-- The table after the requests `ops` (oldest first) on a newly constructed table; a caller
that catches an exception goes on with the table as the exception left it. -/
def run (over : Nat → Nat → Bool) (hash : K → Nat) (initial_capacity : Nat) (ops : List (Op K V)) :
    HashTableOA K V :=
  ops.foldl (step over hash) (new initial_capacity)

/-- Whether every request of `ops`, applied in turn from `t`, returns normally. -/
def all_return (over : Nat → Nat → Bool) (hash : K → Nat) :
    HashTableOA K V → List (Op K V) → Bool
  | _, [] => true
  | t, op :: ops => returns over hash t op && all_return over hash (step over hash t op) ops

/-- Number of `OCCUPIED` slots. -/
def occupied_count (t : HashTableOA K V) : Nat :=
  t.table.countP (fun s => decide (s.state = SlotState.OCCUPIED))

/-- Keys held in `OCCUPIED` slots, in slot order. -/
def occupied_keys (t : HashTableOA K V) : List K :=
  (t.table.filter (fun s => decide (s.state = SlotState.OCCUPIED))).map Slot.key

/-- Whether some slot is `EMPTY`. -/
def has_empty (t : HashTableOA K V) : Bool :=
  t.table.any (fun s => decide (s.state = SlotState.EMPTY))

/-- The `d`-th index visited by the probe walk that starts at `start`. -/
def probe (capacity start d : Nat) : Nat := (start + d) % capacity

/-- The loop of `find_slot` for `key` ends with a result at slot `s`: the slot is `EMPTY`, or
`OCCUPIED` with an equal key. -/
def stops (key : K) (s : Slot K V) : Prop :=
  s.state = SlotState.EMPTY ∨ (s.state = SlotState.OCCUPIED ∧ s.key = key)

/-- Representation invariant of the probing table: at least one slot, `current_size` counts the
`OCCUPIED` slots, no two `OCCUPIED` slots hold the same key, and no `EMPTY` slot lies on the
probe walk of an `OCCUPIED` slot's key before that slot. -/
def Inv (hash : K → Nat) (t : HashTableOA K V) : Prop :=
  0 < t.table.length ∧
  t.current_size = occupied_count t ∧
  (∀ i j, i < t.table.length → j < t.table.length →
    (t.table.getD i fresh).state = SlotState.OCCUPIED →
    (t.table.getD j fresh).state = SlotState.OCCUPIED →
    (t.table.getD i fresh).key = (t.table.getD j fresh).key → i = j) ∧
  (∀ k d, d < t.table.length →
    (t.table.getD (probe t.table.length (hash k % t.table.length) d) fresh).state
      = SlotState.OCCUPIED →
    (t.table.getD (probe t.table.length (hash k % t.table.length) d) fresh).key = k →
    ∀ e, e < d →
      (t.table.getD (probe t.table.length (hash k % t.table.length) e) fresh).state
        ≠ SlotState.EMPTY)

/-- Value bound to `key` in the table: the value of the first `OCCUPIED` slot (in slot order)
that holds `key`. -/
def lookup (t : HashTableOA K V) (key : K) : Option V :=
  (t.table.find? (fun s => decide (s.state = SlotState.OCCUPIED ∧ s.key = key))).map Slot.value

/-- Steps of `insert` after the growth test: resolve the slot and write the entry. -/
def place (hash : K → Nat) (t : HashTableOA K V) (key : K) (value : V) :
    HashTableOA K V × Except Fault Unit :=
  insert_with (fun _ _ => false) hash (fun t => (t, .ok ())) t key value

/-- Some `OCCUPIED` slot holds `key` with `value`. -/
def holds (t : HashTableOA K V) (key : K) (value : V) : Prop :=
  ∃ j, j < t.table.length ∧ (t.table.getD j fresh).state = SlotState.OCCUPIED ∧
    (t.table.getD j fresh).key = key ∧ (t.table.getD j fresh).value = value

/-- Number of slots that are not `EMPTY`. -/
def used_count (t : HashTableOA K V) : Nat :=
  t.table.countP (fun s => decide (s.state ≠ SlotState.EMPTY))

/-- No slot of the table is `DELETED`. -/
def no_deleted (t : HashTableOA K V) : Prop :=
  ∀ j, j < t.table.length → (t.table.getD j fresh).state ≠ SlotState.DELETED

/-- Property of a load test that the program's test has: a table filled to less than half is
never over the threshold (`size < c` gives `size / (2 * c) < 1/2 < 0.7`). -/
def half_is_light (over : Nat → Nat → Bool) : Prop :=
  ∀ size c, size < c → over size (2 * c) = false

end HashTableOA

/-! ## Dynamic array: `Vector`

`src/1_Vector/DynamicVector.h`.  The class is declared at global scope in the program; here it
lives in the namespace of this file.  `new T[n]` is a list of `n` default values.  There are
two levels.  `push_back`, `pop_back`, `step` and `run` take the argument of `push_back` by
value and the `int` members as natural numbers: they describe the calls whose argument is an
object outside the vector, while no `int` overflows.  `push_back_ref`, `call` and `run_calls`
make the reference parameter `const T& data` and the `int` arithmetic explicit: a read through
a dangling reference and a signed overflow are faults (undefined behaviour). -/

/-- Exceptions thrown by the array and the lists: `std::out_of_range`. -/
inductive Thrown where
  | out_of_range
deriving DecidableEq, Repr

/-- Member variables of `Vector`: `T* arr` (the allocated array), `int current_size`,
`int capacity`. -/
structure Vector (T : Type) where
  arr : List T
  current_size : Nat
  capacity : Nat
deriving DecidableEq, Repr

/-- One request to a `Vector`. -/
inductive VectorOp (T : Type) where
  | push_back (data : T)
  | pop_back
deriving DecidableEq, Repr

/-- Largest value of the type `int` (32 bits): `INT_MAX`. -/
def int_max : Nat := 2147483647

/-- Ways in which a call on a `Vector` ends without a result.  `out_of_range` is the
`std::out_of_range` thrown by `at`.  The other two are undefined behaviour: `use_after_free`
is a read through a reference into an array that `delete[]` has freed, `int_overflow` an `int`
result above `INT_MAX`. -/
inductive VectorFault where
  | out_of_range
  | use_after_free
  | int_overflow
deriving DecidableEq, Repr

/-- The object that the parameter `const T& data` of `push_back` refers to: an object outside
the vector, or the element `arr[index]` of the array that `arr` points to when the call
starts. -/
inductive DataRef (T : Type) where
  | outside (x : T)
  | element (index : Nat)
deriving DecidableEq, Repr

/-- One call of a client on a `Vector`: `v.push_back(x)` with an object `x` outside the vector,
`v.push_back(v.at(index))` with a reference to an element of the vector itself, or
`v.pop_back()`. -/
inductive VectorCall (T : Type) where
  | push_back (data : T)
  | push_back_at (index : Int)
  | pop_back
deriving DecidableEq, Repr

namespace Vector

variable {T : Type} [Inhabited T]

/-- Default constructor `Vector()`: `arr(new T[1]), current_size(0), capacity(1)`. -/
def new : Vector T := { arr := List.replicate 1 default, current_size := 0, capacity := 1 }

/-- The copy loop `for (int i = 0; i < current_size; ++i) new_arr[i] = arr[i];` at index `i`
with `steps` iterations left. -/
def copy_loop (arr : List T) : Nat → Nat → List T → List T
  | 0, _, new_arr => new_arr
  | steps + 1, i, new_arr => copy_loop arr steps (i + 1) (new_arr.set i (arr.getD i default))

/-- Method `Vector::push_back`, for an argument outside the vector and without `int` overflow
(`push_back_ref` is the method with the reference parameter and the overflow). -/
def push_back (v : Vector T) (data : T) : Vector T :=
  let v :=
    if v.current_size = v.capacity then
      let new_capacity := 2 * v.capacity
      let new_arr : List T := List.replicate new_capacity default
      let new_arr := copy_loop v.arr v.current_size 0 new_arr
      { arr := new_arr, current_size := v.current_size, capacity := new_capacity }
    else v
  { arr := v.arr.set v.current_size data, current_size := v.current_size + 1,
    capacity := v.capacity }

/-- Method `Vector::pop_back`. -/
def pop_back (v : Vector T) : Vector T :=
  if v.current_size > 0 then
    { arr := v.arr, current_size := v.current_size - 1, capacity := v.capacity }
  else v

/-- Method `Vector::at`, with the `int` index as an integer. -/
def «at» (v : Vector T) (index : Int) : Except Thrown T :=
  if index < 0 ∨ index ≥ (v.current_size : Int) then .error Thrown.out_of_range
  else .ok (v.arr.getD index.toNat default)

/-- Method `Vector::size`. -/
def size (v : Vector T) : Nat := v.current_size

/-- Method `Vector::empty`. -/
def empty (v : Vector T) : Bool := decide (v.current_size = 0)

/-- The vector after one request. -/
def step (v : Vector T) : VectorOp T → Vector T
  | .push_back data => push_back v data
  | .pop_back => pop_back v

/-- The vector after the requests `ops` (oldest first) on a newly constructed vector. -/
def run (ops : List (VectorOp T)) : Vector T := ops.foldl step new

/-- The elements at the indices `0 .. size() - 1`. -/
def elements (v : Vector T) : List T := v.arr.take v.current_size

/-- One step of the reference sequence: `push_back` appends at the end, `pop_back` drops the
last element (and does nothing on the empty sequence). -/
def ref_step (l : List T) : VectorOp T → List T
  | .push_back data => l ++ [data]
  | .pop_back => l.dropLast

/-- Reference sequence after the requests `ops`. -/
def ref_list (ops : List (VectorOp T)) : List T := ops.foldl ref_step []

/-- Largest size seen while the requests `ops` are applied from `v`, starting from `m`. -/
def peak_from (v : Vector T) (m : Nat) : List (VectorOp T) → Nat
  | [] => m
  | op :: ops => peak_from (step v op) (max m (step v op).current_size) ops

/-- Largest `size()` reached while the requests `ops` are applied to a new vector. -/
def peak_size (ops : List (VectorOp T)) : Nat := peak_from new 0 ops

/-- Representation invariant of the vector: the array has `capacity` cells, `capacity` is
positive and at least `current_size`. -/
def VInv (v : Vector T) : Prop :=
  v.arr.length = v.capacity ∧ 0 < v.capacity ∧ v.current_size ≤ v.capacity

/-- Method `Vector::push_back(const T& data)` with the reference parameter and the `int`
arithmetic made explicit.  When the array is full, `data` is read by
`arr[current_size] = data` after `delete[] arr`: a reference into the old array is dangling
then.  `2 * capacity` and `current_size++` are `int` operations. -/
def push_back_ref (v : Vector T) (data : DataRef T) : Except VectorFault (Vector T) :=
  if v.current_size = v.capacity then
    if 2 * v.capacity > int_max then .error VectorFault.int_overflow
    else
      let new_capacity := 2 * v.capacity
      let new_arr : List T := List.replicate new_capacity default
      let new_arr := copy_loop v.arr v.current_size 0 new_arr
      match data with
      | .element _ => .error VectorFault.use_after_free
      | .outside x =>
        if v.current_size + 1 > int_max then .error VectorFault.int_overflow
        else
          .ok { arr := new_arr.set v.current_size x, current_size := v.current_size + 1,
                capacity := new_capacity }
  else
    let x :=
      match data with
      | .outside x => x
      | .element index => v.arr.getD index default
    if v.current_size + 1 > int_max then .error VectorFault.int_overflow
    else
      .ok { arr := v.arr.set v.current_size x, current_size := v.current_size + 1,
            capacity := v.capacity }

/-- Outcome of one call of a client.  In `v.push_back(v.at(index))` the argument is evaluated
first: `at` throws, or returns the reference `arr[index]`. -/
def call (v : Vector T) : VectorCall T → Except VectorFault (Vector T)
  | .push_back data => push_back_ref v (DataRef.outside data)
  | .push_back_at index =>
    match «at» v index with
    | .error _ => .error VectorFault.out_of_range
    | .ok _ => push_back_ref v (DataRef.element index.toNat)
  | .pop_back => .ok (pop_back v)

/-- The calls `calls` (oldest first) from the vector `v`, up to the first call that does not
return. -/
def run_from (v : Vector T) : List (VectorCall T) → Except VectorFault (Vector T)
  | [] => .ok v
  | c :: rest =>
    match call v c with
    | .error e => .error e
    | .ok v' => run_from v' rest

/-- The calls `calls` on a newly constructed vector. -/
def run_calls (calls : List (VectorCall T)) : Except VectorFault (Vector T) :=
  run_from new calls

/-- A request with its argument by value, as a call. -/
def as_call : VectorOp T → VectorCall T
  | .push_back data => VectorCall.push_back data
  | .pop_back => VectorCall.pop_back

/-- One step of the reference sequence for calls: `push_back(x)` appends `x`,
`push_back(at(index))` appends a copy of element `index` (and changes nothing when `index` is
out of range, where `at` throws), `pop_back` drops the last element. -/
def call_ref_step (l : List T) : VectorCall T → List T
  | .push_back data => l ++ [data]
  | .push_back_at index =>
    if index < 0 ∨ index ≥ (l.length : Int) then l else l ++ [l.getD index.toNat default]
  | .pop_back => l.dropLast

/-- Reference sequence after the calls `calls`. -/
def call_ref (calls : List (VectorCall T)) : List T := calls.foldl call_ref_step []

end Vector

/-! ## Linked lists: `SinglyLinkedList` and `DoublyLinkedList`

`src/2_LinkedList/SinglyLinkedList.h` and `DoublyLinkedList.h`.  The nodes live in a heap: a
list of cells indexed by address, where `new Node` appends a cell and `delete` empties one; a
pointer is `none` for `nullptr` or `some address`.  The `int` member `count` is a natural
number that never exceeds `int_max`: `count++` at `INT_MAX` is a fault (signed overflow), and
`count--` is executed only after `empty()` returned false. -/

/-- Ways in which a list call ends without a result.  `out_of_range` is the
`std::out_of_range` thrown by the program.  The others are undefined behaviour or
non-termination: `wild_pointer` says that a null or deleted pointer is dereferenced or deleted,
`steps` that a traversal loop made more iterations than the heap has cells, so that it would
never end, and `int_overflow` that `count++` was executed at `INT_MAX`. -/
inductive ListFault where
  | out_of_range
  | wild_pointer
  | steps
  | int_overflow
deriving DecidableEq, Repr

/-- One request to a list. -/
inductive ListOp (T : Type) where
  | push_front (value : T)
  | push_back (value : T)
  | pop_front
  | pop_back
deriving DecidableEq, Repr

/-- Node of the singly linked list: `struct Node { T data; Node* next; }`. -/
structure SNode (T : Type) where
  data : T
  next : Option Nat
deriving DecidableEq, Repr

/-- Member variables of `SinglyLinkedList` (`head`, `tail`, `count`) and the heap that holds
its nodes. -/
structure SinglyLinkedList (T : Type) where
  heap : List (Option (SNode T))
  head : Option Nat
  tail : Option Nat
  count : Nat
deriving DecidableEq, Repr

/-- Node of the doubly linked list: `struct Node { T data; Node* next; Node* prev; }`. -/
structure DNode (T : Type) where
  data : T
  next : Option Nat
  prev : Option Nat
deriving DecidableEq, Repr

/-- Member variables of `DoublyLinkedList` (`head`, `tail`, `count`) and the heap that holds
its nodes. -/
structure DoublyLinkedList (T : Type) where
  heap : List (Option (DNode T))
  head : Option Nat
  tail : Option Nat
  count : Nat
deriving DecidableEq, Repr

/-- Dereference of a pointer `p`: the address and the node it points to. -/
def load {N : Type} (heap : List (Option N)) : Option Nat → Except ListFault (Nat × N)
  | none => .error ListFault.wild_pointer
  | some a =>
    match heap.getD a none with
    | none => .error ListFault.wild_pointer
    | some n => .ok (a, n)

/-- The statement `delete p`: nothing for `nullptr`, otherwise the cell is emptied. -/
def free {N : Type} (heap : List (Option N)) : Option Nat → Except ListFault (List (Option N))
  | none => .ok heap
  | some a =>
    match heap.getD a none with
    | none => .error ListFault.wild_pointer
    | some _ => .ok (heap.set a none)

/-- Reference list, one step: `push_front` prepends, `push_back` appends, `pop_front` drops the
first element and `pop_back` the last; a pop of the empty list throws and changes nothing. -/
def list_ref_step {T : Type} (l : List T) : ListOp T → List T
  | .push_front value => value :: l
  | .push_back value => l ++ [value]
  | .pop_front => l.tail
  | .pop_back => l.dropLast

/-- Reference list after the requests `ops` (oldest first). -/
def list_ref {T : Type} (ops : List (ListOp T)) : List T := ops.foldl list_ref_step []

/-- Whether a request throws on the reference list: a pop of the empty list. -/
def list_ref_throws {T : Type} (l : List T) : ListOp T → Bool
  | .push_front _ => false
  | .push_back _ => false
  | .pop_front => l.isEmpty
  | .pop_back => l.isEmpty

/-- Largest length of the reference list while the requests `ops` are applied from `l`. -/
def list_peak {T : Type} (l : List T) : List (ListOp T) → Nat
  | [] => l.length
  | op :: ops => max l.length (list_peak (list_ref_step l op) ops)

/-- Pointer to the first cell of `cells`, or `stop` when there is none. -/
def link {T : Type} (stop : Option Nat) : List (Nat × T) → Option Nat
  | [] => stop
  | c :: _ => some c.1

/-- Pointer to the last cell of `cells`, or `start` when there is none. -/
def last_addr {T : Type} (start : Option Nat) (cells : List (Nat × T)) : Option Nat :=
  match cells.getLast? with
  | none => start
  | some c => some c.1

namespace SinglyLinkedList

variable {T : Type}

/-- Default constructor: `head(nullptr), tail(nullptr), count(0)`. -/
def new : SinglyLinkedList T := { heap := [], head := none, tail := none, count := 0 }

/-- Method `size`. -/
def size (s : SinglyLinkedList T) : Nat := s.count

/-- Method `empty`. -/
def empty (s : SinglyLinkedList T) : Bool := decide (s.count = 0)

/-- Method `push_front`. -/
def push_front (s : SinglyLinkedList T) (value : T) : Except ListFault (SinglyLinkedList T) :=
  let newNode := s.heap.length
  let heap := s.heap ++ [some { data := value, next := none }]
  if s.empty then
    if s.count + 1 > int_max then .error ListFault.int_overflow
    else .ok { heap := heap, head := some newNode, tail := some newNode, count := s.count + 1 }
  else
    if s.count + 1 > int_max then .error ListFault.int_overflow
    else
      .ok { heap := heap.set newNode (some { data := value, next := s.head }),
            head := some newNode, tail := s.tail, count := s.count + 1 }

/-- Method `push_back`. -/
def push_back (s : SinglyLinkedList T) (value : T) : Except ListFault (SinglyLinkedList T) :=
  let newNode := s.heap.length
  let heap := s.heap ++ [some { data := value, next := none }]
  if s.empty then
    if s.count + 1 > int_max then .error ListFault.int_overflow
    else .ok { heap := heap, head := some newNode, tail := some newNode, count := s.count + 1 }
  else
    match load heap s.tail with
    | .error e => .error e
    | .ok (t, n) =>
      if s.count + 1 > int_max then .error ListFault.int_overflow
      else
        .ok { heap := heap.set t (some { data := n.data, next := some newNode }),
              head := s.head, tail := some newNode, count := s.count + 1 }

/-- Method `pop_front`. -/
def pop_front (s : SinglyLinkedList T) : Except ListFault (SinglyLinkedList T) :=
  if s.empty then .error ListFault.out_of_range
  else
    match load s.heap s.head with
    | .error e => .error e
    | .ok (oldHead, n) =>
      match free s.heap (some oldHead) with
      | .error e => .error e
      | .ok heap =>
        let count := s.count - 1
        .ok { heap := heap, head := n.next,
              tail := if count = 0 then none else s.tail, count := count }

/-- The loop `while (current->next != tail) current = current->next;` of `pop_back`, with
`steps` iterations left; the result is the final `current`. -/
def find_before (heap : List (Option (SNode T))) (tail : Option Nat) :
    Nat → Option Nat → Except ListFault Nat
  | 0, _ => .error ListFault.steps
  | steps + 1, current =>
    match load heap current with
    | .error e => .error e
    | .ok (c, n) => if n.next ≠ tail then find_before heap tail steps n.next else .ok c

/-- Method `pop_back`. -/
def pop_back (s : SinglyLinkedList T) : Except ListFault (SinglyLinkedList T) :=
  if s.empty then .error ListFault.out_of_range
  else if s.head = s.tail then
    match free s.heap s.head with
    | .error e => .error e
    | .ok heap => .ok { heap := heap, head := none, tail := none, count := s.count - 1 }
  else
    match find_before s.heap s.tail (s.heap.length + 1) s.head with
    | .error e => .error e
    | .ok current =>
      match free s.heap s.tail with
      | .error e => .error e
      | .ok heap =>
        match load heap (some current) with
        | .error e => .error e
        | .ok (c, n) =>
          .ok { heap := heap.set c (some { data := n.data, next := none }),
                head := s.head, tail := some current, count := s.count - 1 }

/-- Method `front`. -/
def front (s : SinglyLinkedList T) : Except ListFault T :=
  if s.empty then .error ListFault.out_of_range
  else
    match load s.heap s.head with
    | .error e => .error e
    | .ok (_, n) => .ok n.data

/-- Method `back`. -/
def back (s : SinglyLinkedList T) : Except ListFault T :=
  if s.empty then .error ListFault.out_of_range
  else
    match load s.heap s.tail with
    | .error e => .error e
    | .ok (_, n) => .ok n.data

/-- The data that the loop of `print` visits: from `current` along `next` up to `nullptr`,
with `steps` iterations left.  The loop ends only at `nullptr`: a pointer to a deleted cell
is dereferenced (`wild_pointer`), and a chain longer than `steps` is reported (`steps`). -/
def walk (heap : List (Option (SNode T))) : Nat → Option Nat → Except ListFault (List T)
  | _, none => .ok []
  | 0, some _ => .error ListFault.steps
  | steps + 1, some a =>
    match load heap (some a) with
    | .error e => .error e
    | .ok (_, n) =>
      match walk heap steps n.next with
      | .error e => .error e
      | .ok rest => .ok (n.data :: rest)

/-- Node contents from head to tail, read as `print` does.  A chain without a cycle visits at
most as many nodes as the heap has cells. -/
def contents (s : SinglyLinkedList T) : Except ListFault (List T) :=
  walk s.heap s.heap.length s.head

/-- Outcome of one request. -/
def apply (s : SinglyLinkedList T) : ListOp T → Except ListFault (SinglyLinkedList T)
  | .push_front value => push_front s value
  | .push_back value => push_back s value
  | .pop_front => pop_front s
  | .pop_back => pop_back s

/-- The list after one request.  The exception `out_of_range` leaves the list as it was (the
`throw` statements are the first statements of their methods) and the client goes on; after
undefined behaviour there is no list. -/
def step (s : SinglyLinkedList T) (op : ListOp T) : Except ListFault (SinglyLinkedList T) :=
  match apply s op with
  | .ok s' => .ok s'
  | .error ListFault.out_of_range => .ok s
  | .error e => .error e

/-- The requests `ops` (oldest first) from the list `s`, up to the first undefined
behaviour. -/
def run_from (s : SinglyLinkedList T) : List (ListOp T) → Except ListFault (SinglyLinkedList T)
  | [] => .ok s
  | op :: ops =>
    match step s op with
    | .error e => .error e
    | .ok s' => run_from s' ops

/-- The requests `ops` (oldest first) on a new list. -/
def run (ops : List (ListOp T)) : Except ListFault (SinglyLinkedList T) := run_from new ops

/-- Heap cells `cells` (address and data, in order) form a list segment whose last node points
to `stop`. -/
def chain (heap : List (Option (SNode T))) (stop : Option Nat) : List (Nat × T) → Prop
  | [] => True
  | c :: rest =>
    heap.getD c.1 none = some { data := c.2, next := link stop rest } ∧ chain heap stop rest

/-- Representation invariant: the list holds the cells `cells`, in this order, at pairwise
distinct addresses. -/
def Rep (s : SinglyLinkedList T) (cells : List (Nat × T)) : Prop :=
  (cells.map Prod.fst).Nodup ∧ chain s.heap none cells ∧ s.head = link none cells ∧
  s.tail = last_addr none cells ∧ s.count = cells.length ∧ cells.length ≤ s.heap.length

end SinglyLinkedList

namespace DoublyLinkedList

variable {T : Type}

/-- Default constructor: `head(nullptr), tail(nullptr), count(0)`. -/
def new : DoublyLinkedList T := { heap := [], head := none, tail := none, count := 0 }

/-- Method `size`. -/
def size (d : DoublyLinkedList T) : Nat := d.count

/-- Method `empty`. -/
def empty (d : DoublyLinkedList T) : Bool := decide (d.count = 0)

/-- Method `push_front`. -/
def push_front (d : DoublyLinkedList T) (value : T) : Except ListFault (DoublyLinkedList T) :=
  let newNode := d.heap.length
  let heap := d.heap ++ [some { data := value, next := none, prev := none }]
  if d.empty then
    if d.count + 1 > int_max then .error ListFault.int_overflow
    else .ok { heap := heap, head := some newNode, tail := some newNode, count := d.count + 1 }
  else
    let heap := heap.set newNode (some { data := value, next := d.head, prev := none })
    match load heap d.head with
    | .error e => .error e
    | .ok (h, n) =>
      if d.count + 1 > int_max then .error ListFault.int_overflow
      else
        .ok { heap := heap.set h (some { data := n.data, next := n.next, prev := some newNode }),
              head := some newNode, tail := d.tail, count := d.count + 1 }

/-- Method `push_back`. -/
def push_back (d : DoublyLinkedList T) (value : T) : Except ListFault (DoublyLinkedList T) :=
  let newNode := d.heap.length
  let heap := d.heap ++ [some { data := value, next := none, prev := none }]
  if d.empty then
    if d.count + 1 > int_max then .error ListFault.int_overflow
    else .ok { heap := heap, head := some newNode, tail := some newNode, count := d.count + 1 }
  else
    match load heap d.tail with
    | .error e => .error e
    | .ok (t, n) =>
      let heap := heap.set t (some { data := n.data, next := some newNode, prev := n.prev })
      if d.count + 1 > int_max then .error ListFault.int_overflow
      else
        .ok { heap := heap.set newNode (some { data := value, next := none, prev := d.tail }),
              head := d.head, tail := some newNode, count := d.count + 1 }

/-- Method `pop_front`. -/
def pop_front (d : DoublyLinkedList T) : Except ListFault (DoublyLinkedList T) :=
  if d.empty then .error ListFault.out_of_range
  else
    let oldHead := d.head
    if d.head = d.tail then
      match free d.heap oldHead with
      | .error e => .error e
      | .ok heap => .ok { heap := heap, head := none, tail := none, count := d.count - 1 }
    else
      match load d.heap d.head with
      | .error e => .error e
      | .ok (_, n) =>
        match load d.heap n.next with
        | .error e => .error e
        | .ok (h, m) =>
          let heap := d.heap.set h (some { data := m.data, next := m.next, prev := none })
          match free heap oldHead with
          | .error e => .error e
          | .ok heap => .ok { heap := heap, head := n.next, tail := d.tail, count := d.count - 1 }

/-- Method `pop_back`. -/
def pop_back (d : DoublyLinkedList T) : Except ListFault (DoublyLinkedList T) :=
  if d.empty then .error ListFault.out_of_range
  else
    let oldTail := d.tail
    if d.head = d.tail then
      match free d.heap oldTail with
      | .error e => .error e
      | .ok heap => .ok { heap := heap, head := none, tail := none, count := d.count - 1 }
    else
      match load d.heap d.tail with
      | .error e => .error e
      | .ok (_, n) =>
        match load d.heap n.prev with
        | .error e => .error e
        | .ok (t, m) =>
          let heap := d.heap.set t (some { data := m.data, next := none, prev := m.prev })
          match free heap oldTail with
          | .error e => .error e
          | .ok heap => .ok { heap := heap, head := d.head, tail := n.prev, count := d.count - 1 }

/-- Method `front`. -/
def front (d : DoublyLinkedList T) : Except ListFault T :=
  if d.empty then .error ListFault.out_of_range
  else
    match load d.heap d.head with
    | .error e => .error e
    | .ok (_, n) => .ok n.data

/-- Method `back`. -/
def back (d : DoublyLinkedList T) : Except ListFault T :=
  if d.empty then .error ListFault.out_of_range
  else
    match load d.heap d.tail with
    | .error e => .error e
    | .ok (_, n) => .ok n.data

/-- The data that the loop of `print` visits: from `current` along `next` up to `nullptr`,
with `steps` iterations left.  The loop ends only at `nullptr`: a pointer to a deleted cell
is dereferenced (`wild_pointer`), and a chain longer than `steps` is reported (`steps`). -/
def walk (heap : List (Option (DNode T))) : Nat → Option Nat → Except ListFault (List T)
  | _, none => .ok []
  | 0, some _ => .error ListFault.steps
  | steps + 1, some a =>
    match load heap (some a) with
    | .error e => .error e
    | .ok (_, n) =>
      match walk heap steps n.next with
      | .error e => .error e
      | .ok rest => .ok (n.data :: rest)

/-- Node contents from head to tail, read as `print` does. -/
def contents (d : DoublyLinkedList T) : Except ListFault (List T) :=
  walk d.heap d.heap.length d.head

/-- Addresses of the nodes met from `current` along the `next` links up to `nullptr`; every
pointer on the way is dereferenced. -/
def next_walk (heap : List (Option (DNode T))) : Nat → Option Nat → Except ListFault (List Nat)
  | _, none => .ok []
  | 0, some _ => .error ListFault.steps
  | steps + 1, some a =>
    match load heap (some a) with
    | .error e => .error e
    | .ok (_, n) =>
      match next_walk heap steps n.next with
      | .error e => .error e
      | .ok rest => .ok (a :: rest)

/-- Addresses of the nodes met from `current` along the `prev` links up to `nullptr`; every
pointer on the way is dereferenced. -/
def prev_walk (heap : List (Option (DNode T))) : Nat → Option Nat → Except ListFault (List Nat)
  | _, none => .ok []
  | 0, some _ => .error ListFault.steps
  | steps + 1, some a =>
    match load heap (some a) with
    | .error e => .error e
    | .ok (_, n) =>
      match prev_walk heap steps n.prev with
      | .error e => .error e
      | .ok rest => .ok (a :: rest)

/-- Node addresses from `head` along the `next` links up to `nullptr`. -/
def forward (d : DoublyLinkedList T) : Except ListFault (List Nat) :=
  next_walk d.heap d.heap.length d.head

/-- Node addresses from `tail` along the `prev` links up to `nullptr`. -/
def backward (d : DoublyLinkedList T) : Except ListFault (List Nat) :=
  prev_walk d.heap d.heap.length d.tail

/-- Outcome of one request. -/
def apply (d : DoublyLinkedList T) : ListOp T → Except ListFault (DoublyLinkedList T)
  | .push_front value => push_front d value
  | .push_back value => push_back d value
  | .pop_front => pop_front d
  | .pop_back => pop_back d

/-- The list after one request.  The exception `out_of_range` leaves the list as it was (the
`throw` statements are the first statements of their methods) and the client goes on; after
undefined behaviour there is no list. -/
def step (d : DoublyLinkedList T) (op : ListOp T) : Except ListFault (DoublyLinkedList T) :=
  match apply d op with
  | .ok d' => .ok d'
  | .error ListFault.out_of_range => .ok d
  | .error e => .error e

/-- The requests `ops` (oldest first) from the list `d`, up to the first undefined
behaviour. -/
def run_from (d : DoublyLinkedList T) : List (ListOp T) → Except ListFault (DoublyLinkedList T)
  | [] => .ok d
  | op :: ops =>
    match step d op with
    | .error e => .error e
    | .ok d' => run_from d' ops

/-- The requests `ops` (oldest first) on a new list. -/
def run (ops : List (ListOp T)) : Except ListFault (DoublyLinkedList T) := run_from new ops

/-- Heap cells `cells` (address and data, in order) form a doubly linked segment: the first
node's `prev` is `start`, the last node's `next` is `stop`. -/
def chain (heap : List (Option (DNode T))) : Option Nat → Option Nat → List (Nat × T) → Prop
  | _, _, [] => True
  | start, stop, c :: rest =>
    heap.getD c.1 none = some { data := c.2, next := link stop rest, prev := start } ∧
    chain heap (some c.1) stop rest

/-- Representation invariant: the list holds the cells `cells`, in this order, at pairwise
distinct addresses. -/
def Rep (d : DoublyLinkedList T) (cells : List (Nat × T)) : Prop :=
  (cells.map Prod.fst).Nodup ∧ chain d.heap none none cells ∧ d.head = link none cells ∧
  d.tail = last_addr none cells ∧ d.count = cells.length ∧ cells.length ≤ d.heap.length

end DoublyLinkedList

/-- The request sequence that inserts the entries `entries` in order, and nothing else. -/
def inserts {K V : Type} (entries : List (K × V)) : List (Op K V) :=
  entries.map (fun e => Op.insert e.1 e.2)

/-! ## Concrete inputs -/

/-- Four keys, each inserted and then removed: on a table of four slots with the identity hash
every slot is used once and left `DELETED`. -/
def tombstone_requests : List (Op Nat Nat) :=
  [.insert 1 10, .remove 1, .insert 2 20, .remove 2, .insert 3 30, .remove 3,
   .insert 4 40, .remove 4]

/-- Two inserts that fill a table of two slots without reaching the growth test. -/
def filling_requests : List (Op Nat Nat) :=
  [.insert 0 10, .insert 1 11]

/-- Identity hash on natural-number keys. -/
def id_hash (k : Nat) : Nat := k

/-- A hash that sends every key to slot 0. -/
def zero_hash (_ : Nat) : Nat := 0

/-- A table of three slots: key 3 `OCCUPIED` in slot 0, a tombstone in slot 1, slot 2 `EMPTY`. -/
def mixed_table : HashTableOA Nat Nat :=
  { table := [{ key := 3, value := 30, state := SlotState.OCCUPIED },
      { key := 4, value := 40, state := SlotState.DELETED },
      { key := 0, value := 0, state := SlotState.EMPTY }],
    current_size := 1 }

/-! ## Auxiliary facts on lists -/

theorem getD_set_self {α : Type} (l : List α) (i : Nat) (a d : α) (h : i < l.length) :
    (l.set i a).getD i d = a := by
  simp [List.getD_eq_getElem?_getD, List.getElem?_set, h]

theorem getD_set_other {α : Type} (l : List α) (i j : Nat) (a d : α) (h : i ≠ j) :
    (l.set i a).getD j d = l.getD j d := by
  simp [List.getD_eq_getElem?_getD, List.getElem?_set, h]

theorem getD_replicate_same {α : Type} (n i : Nat) (a : α) :
    (List.replicate n a).getD i a = a := by
  by_cases h : i < n
  · rw [List.getD_eq_getElem _ _ (by simpa using h)]; simp
  · exact List.getD_eq_default _ _ (by simpa using h)

theorem getD_mem_of_lt {α : Type} (l : List α) (i : Nat) (d : α) (h : i < l.length) :
    l.getD i d ∈ l := by
  rw [List.getD_eq_getElem _ _ h]; exact List.getElem_mem h

theorem mem_iff_getD {α : Type} (l : List α) (d a : α) :
    a ∈ l ↔ ∃ i, i < l.length ∧ l.getD i d = a := by
  constructor
  · intro h
    obtain ⟨i, hi, rfl⟩ := List.getElem_of_mem h
    exact ⟨i, hi, List.getD_eq_getElem _ _ hi⟩
  · rintro ⟨i, hi, rfl⟩
    exact getD_mem_of_lt l i d hi

/-! ## Reference map -/

section RefMap

variable {K V : Type} [DecidableEq K]

theorem ref_foldl_untouched (ops : List (Op K V)) (m : K → Option V) (k : K)
    (h : ∀ op ∈ ops, op.key ≠ k) : ops.foldl ref_step m k = m k := by
  induction ops generalizing m with
  | nil => rfl
  | cons op ops ih =>
    simp only [List.foldl_cons]
    rw [ih _ (fun o ho => h o (List.mem_cons_of_mem _ ho))]
    have := h op (List.mem_cons_self _ _)
    cases op with
    | insert key value =>
      have hne : ¬ k = key := fun e => this e.symm
      simp [ref_step, hne]
    | remove key =>
      have hne : ¬ k = key := fun e => this e.symm
      simp [ref_step, hne]

theorem ref_foldl_never_inserted (ops : List (Op K V)) (m : K → Option V) (k : K)
    (hm : m k = none) (h : ∀ v, Op.insert k v ∉ ops) : ops.foldl ref_step m k = none := by
  induction ops generalizing m with
  | nil => exact hm
  | cons op ops ih =>
    simp only [List.foldl_cons]
    apply ih
    · cases op with
      | insert key value =>
        have : k ≠ key := by
          intro e; subst e
          exact h value (List.mem_cons_self _ _)
        simp [ref_step, this, hm]
      | remove key =>
        by_cases e : k = key <;> simp [ref_step, e, hm]
    · intro v hv
      exact h v (List.mem_cons_of_mem _ hv)

theorem ref_map_last_insert (pre post : List (Op K V)) (k : K) (v : V)
    (h : ∀ op ∈ post, op.key ≠ k) : ref_map (pre ++ Op.insert k v :: post) k = some v := by
  unfold ref_map
  rw [List.foldl_append, List.foldl_cons, ref_foldl_untouched post _ k h]
  simp [ref_step]

theorem ref_map_last_remove (pre post : List (Op K V)) (k : K)
    (h : ∀ op ∈ post, op.key ≠ k) : ref_map (pre ++ Op.remove k :: post) k = none := by
  unfold ref_map
  rw [List.foldl_append, List.foldl_cons, ref_foldl_untouched post _ k h]
  simp [ref_step]

theorem ref_map_never_inserted (ops : List (Op K V)) (k : K)
    (h : ∀ v, Op.insert k v ∉ ops) : ref_map ops k = none :=
  ref_foldl_never_inserted ops _ k rfl h

end RefMap

namespace HashTable

variable {K V : Type} [DecidableEq K]

/-! ### Chains -/

theorem chain_search_eq_none_iff (c : List (Node K V)) (k : K) :
    chain_search c k = none ↔ k ∉ c.map Node.key := by
  induction c with
  | nil => simp [chain_search]
  | cons n c ih =>
    by_cases h : n.key = k
    · simp [chain_search, h]
    · simp only [chain_search, h, if_false, ih, List.map_cons, List.mem_cons]
      constructor
      · rintro h1 (h2 | h2)
        · exact h h2.symm
        · exact h1 h2
      · intro h1 h2; exact h1 (Or.inr h2)

theorem chain_search_eq_some_iff (c : List (Node K V)) (k : K) (v : V)
    (hc : (c.map Node.key).Nodup) :
    chain_search c k = some v ↔ ({ key := k, value := v } : Node K V) ∈ c := by
  induction c with
  | nil => simp [chain_search]
  | cons n c ih =>
    simp only [List.map_cons, List.nodup_cons] at hc
    by_cases h : n.key = k
    · simp only [chain_search, h, if_true, List.mem_cons, Option.some.injEq]
      constructor
      · intro hv; left; cases n; simp_all
      · rintro (h1 | h1)
        · rw [← h1]
        · exfalso; apply hc.1; rw [h]
          exact List.mem_map.mpr ⟨_, h1, rfl⟩
    · simp only [chain_search, h, if_false, ih hc.2, List.mem_cons]
      constructor
      · intro h1; exact Or.inr h1
      · rintro (h1 | h1)
        · exfalso; apply h; rw [← h1]
        · exact h1

theorem chain_update_eq_none_iff (c : List (Node K V)) (k : K) (v : V) :
    chain_update c k v = none ↔ k ∉ c.map Node.key := by
  induction c with
  | nil => simp [chain_update]
  | cons n c ih =>
    by_cases h : n.key = k
    · simp [chain_update, h]
    · simp only [chain_update, h, if_false, Option.map_eq_none', ih, List.map_cons, List.mem_cons]
      constructor
      · rintro h1 (h2 | h2)
        · exact h h2.symm
        · exact h1 h2
      · intro h1 h2; exact h1 (Or.inr h2)

theorem chain_update_keys (c c' : List (Node K V)) (k : K) (v : V)
    (h : chain_update c k v = some c') : c'.map Node.key = c.map Node.key := by
  induction c generalizing c' with
  | nil => simp [chain_update] at h
  | cons n c ih =>
    by_cases hk : n.key = k
    · simp only [chain_update, hk, if_true, Option.some.injEq] at h
      subst h; simp [hk]
    · simp only [chain_update, hk, if_false, Option.map_eq_some'] at h
      obtain ⟨c1, h1, rfl⟩ := h
      simp [ih c1 h1]

theorem chain_update_length (c c' : List (Node K V)) (k : K) (v : V)
    (h : chain_update c k v = some c') : c'.length = c.length := by
  have := congrArg List.length (chain_update_keys c c' k v h)
  simpa using this

theorem chain_search_update_self (c c' : List (Node K V)) (k : K) (v : V)
    (h : chain_update c k v = some c') : chain_search c' k = some v := by
  induction c generalizing c' with
  | nil => simp [chain_update] at h
  | cons n c ih =>
    by_cases hk : n.key = k
    · simp only [chain_update, hk, if_true, Option.some.injEq] at h
      subst h; simp [chain_search]
    · simp only [chain_update, hk, if_false, Option.map_eq_some'] at h
      obtain ⟨c1, h1, rfl⟩ := h
      simp [chain_search, hk, ih c1 h1]

theorem chain_search_update_other (c c' : List (Node K V)) (k k' : K) (v : V)
    (h : chain_update c k v = some c') (hne : k' ≠ k) :
    chain_search c' k' = chain_search c k' := by
  induction c generalizing c' with
  | nil => simp [chain_update] at h
  | cons n c ih =>
    by_cases hk : n.key = k
    · simp only [chain_update, hk, if_true, Option.some.injEq] at h
      subst h
      have : ¬ k = k' := fun e => hne e.symm
      simp [chain_search, hk, this]
    · simp only [chain_update, hk, if_false, Option.map_eq_some'] at h
      obtain ⟨c1, h1, rfl⟩ := h
      simp [chain_search, ih c1 h1]

theorem chain_remove_eq_none_iff (c : List (Node K V)) (k : K) :
    chain_remove c k = none ↔ k ∉ c.map Node.key := by
  induction c with
  | nil => simp [chain_remove]
  | cons n c ih =>
    by_cases h : n.key = k
    · simp [chain_remove, h]
    · simp only [chain_remove, h, if_false, Option.map_eq_none', ih, List.map_cons, List.mem_cons]
      constructor
      · rintro h1 (h2 | h2)
        · exact h h2.symm
        · exact h1 h2
      · intro h1 h2; exact h1 (Or.inr h2)

theorem chain_remove_keys (c c' : List (Node K V)) (k : K)
    (h : chain_remove c k = some c') : c'.map Node.key = (c.map Node.key).erase k := by
  induction c generalizing c' with
  | nil => simp [chain_remove] at h
  | cons n c ih =>
    by_cases hk : n.key = k
    · simp only [chain_remove, hk, if_true, Option.some.injEq] at h
      subst h; simp [hk]
    · simp only [chain_remove, hk, if_false, Option.map_eq_some'] at h
      obtain ⟨c1, h1, rfl⟩ := h
      simp [ih c1 h1, List.erase_cons_tail, hk]

theorem chain_remove_length (c c' : List (Node K V)) (k : K)
    (h : chain_remove c k = some c') : c'.length + 1 = c.length := by
  induction c generalizing c' with
  | nil => simp [chain_remove] at h
  | cons n c ih =>
    by_cases hk : n.key = k
    · simp only [chain_remove, hk, if_true, Option.some.injEq] at h
      subst h; simp
    · simp only [chain_remove, hk, if_false, Option.map_eq_some'] at h
      obtain ⟨c1, h1, rfl⟩ := h
      simp [ih c1 h1]

theorem chain_remove_mem (c c' : List (Node K V)) (k : K)
    (h : chain_remove c k = some c') : ∀ n ∈ c', n ∈ c := by
  induction c generalizing c' with
  | nil => simp [chain_remove] at h
  | cons n c ih =>
    by_cases hk : n.key = k
    · simp only [chain_remove, hk, if_true, Option.some.injEq] at h
      subst h; intro m hm; exact List.mem_cons_of_mem _ hm
    · simp only [chain_remove, hk, if_false, Option.map_eq_some'] at h
      obtain ⟨c1, h1, rfl⟩ := h
      intro m hm
      rcases List.mem_cons.mp hm with h2 | h2
      · rw [h2]; exact List.mem_cons_self _ _
      · exact List.mem_cons_of_mem _ (ih c1 h1 m h2)

theorem chain_search_remove_self (c c' : List (Node K V)) (k : K)
    (hc : (c.map Node.key).Nodup) (h : chain_remove c k = some c') :
    chain_search c' k = none := by
  rw [chain_search_eq_none_iff, chain_remove_keys c c' k h]
  exact fun hm => (List.Nodup.mem_erase_iff hc).mp hm |>.1 rfl

theorem chain_search_remove_other (c c' : List (Node K V)) (k k' : K)
    (h : chain_remove c k = some c') (hne : k' ≠ k) :
    chain_search c' k' = chain_search c k' := by
  induction c generalizing c' with
  | nil => simp [chain_remove] at h
  | cons n c ih =>
    by_cases hk : n.key = k
    · simp only [chain_remove, hk, if_true, Option.some.injEq] at h
      subst h
      have : ¬ n.key = k' := fun e => hne (e.symm.trans hk)
      simp [chain_search, this]
    · simp only [chain_remove, hk, if_false, Option.map_eq_some'] at h
      obtain ⟨c1, h1, rfl⟩ := h
      simp [chain_search, ih c1 h1]

/-! ### Buckets -/

theorem sum_length_set (l : List (List (Node K V))) (i : Nat) (c : List (Node K V))
    (h : i < l.length) :
    (l.set i c).flatten.length + (l.getD i []).length = l.flatten.length + c.length := by
  induction l generalizing i with
  | nil => simp at h
  | cons a l ih =>
    cases i with
    | zero => simp; omega
    | succ i =>
      have := ih i (by simpa using h)
      simp only [List.set_cons_succ, List.flatten_cons, List.length_append, List.getD_cons_succ]
      omega

theorem mem_nodes_iff (t : HashTable K V) (n : Node K V) :
    n ∈ nodes t ↔ ∃ i, i < t.table.length ∧ n ∈ t.table.getD i [] := by
  unfold nodes
  rw [List.mem_flatten]
  constructor
  · rintro ⟨c, hc, hn⟩
    obtain ⟨i, hi, rfl⟩ := (mem_iff_getD t.table [] c).mp hc
    exact ⟨i, hi, hn⟩
  · rintro ⟨i, hi, hn⟩
    exact ⟨_, getD_mem_of_lt t.table i [] hi, hn⟩

theorem WF.search_eq_some_iff {hash : K → Nat} {t : HashTable K V} (h : WF hash t) (k : K) (v : V) :
    search hash t k = some v ↔ ({ key := k, value := v } : Node K V) ∈ nodes t := by
  obtain ⟨hpos, hplace, hnd, _⟩ := h
  have hlt : hash k % t.table.length < t.table.length := Nat.mod_lt _ hpos
  unfold search
  rw [chain_search_eq_some_iff _ _ _ (hnd _ hlt), mem_nodes_iff]
  constructor
  · intro hm; exact ⟨_, hlt, hm⟩
  · rintro ⟨i, hi, hm⟩
    have := hplace i hi _ hm
    simp only at this
    rw [this]; exact hm

theorem WF.search_eq_none_iff {hash : K → Nat} {t : HashTable K V} (h : WF hash t) (k : K) :
    search hash t k = none ↔ k ∉ keys t := by
  obtain ⟨hpos, hplace, _, _⟩ := h
  have hlt : hash k % t.table.length < t.table.length := Nat.mod_lt _ hpos
  unfold search keys
  rw [chain_search_eq_none_iff]
  simp only [List.mem_map, not_exists, not_and]
  constructor
  · intro hn n hmem hk
    obtain ⟨i, hi, hm⟩ := (mem_nodes_iff t n).mp hmem
    have := hplace i hi _ hm
    rw [hk] at this
    rw [this] at hn
    exact hn n hm hk
  · intro hn n hmem hk
    exact hn n ((mem_nodes_iff t n).mpr ⟨_, hlt, hmem⟩) hk

theorem WF.keys_nodup {hash : K → Nat} {t : HashTable K V} (h : WF hash t) : (keys t).Nodup := by
  obtain ⟨_, hplace, hnd, _⟩ := h
  unfold keys nodes
  rw [List.map_flatten, List.nodup_flatten]
  constructor
  · intro l hl
    obtain ⟨c, hc, rfl⟩ := List.mem_map.mp hl
    obtain ⟨i, hi, rfl⟩ := (mem_iff_getD t.table [] c).mp hc
    exact hnd i hi
  · rw [List.pairwise_iff_getElem]
    intro i j hi hj hij
    simp only [List.length_map] at hi hj
    simp only [List.getElem_map]
    intro k hk1 hk2
    obtain ⟨n1, hn1, rfl⟩ := List.mem_map.mp hk1
    obtain ⟨n2, hn2, he⟩ := List.mem_map.mp hk2
    have h1 := hplace i hi n1 (by rw [List.getD_eq_getElem _ _ hi]; exact hn1)
    have h2 := hplace j hj n2 (by rw [List.getD_eq_getElem _ _ hj]; exact hn2)
    rw [he] at h2
    omega

theorem WF_new (hash : K → Nat) (initial_capacity : Nat) :
    WF hash (new initial_capacity : HashTable K V) := by
  unfold new WF nodes
  refine ⟨?_, ?_, ?_, ?_⟩
  · simp only [List.length_replicate]; split <;> omega
  · intro i _ n hn
    rw [getD_replicate_same] at hn
    simp at hn
  · intro i _
    rw [getD_replicate_same]
    simp
  · simp only
    generalize (if initial_capacity = 0 then 16 else initial_capacity) = c
    induction c with
    | zero => simp
    | succ c ih => simp [List.replicate_succ, ← ih]

theorem search_new (hash : K → Nat) (initial_capacity : Nat) (k : K) :
    search hash (new initial_capacity : HashTable K V) k = none := by
  unfold search new
  simp only
  rw [getD_replicate_same]
  rfl

/-! ### Growth -/

theorem move_chain_length (hash : K → Nat) (cap : Nat) (chain : List (Node K V))
    (nt : List (List (Node K V))) : (move_chain hash cap chain nt).length = nt.length := by
  induction chain generalizing nt with
  | nil => rfl
  | cons n chain ih => simp [move_chain, ih]

theorem move_chain_getD (hash : K → Nat) (cap : Nat) (chain : List (Node K V))
    (nt : List (List (Node K V))) (hlen : nt.length = cap) (j : Nat) (hj : j < cap) :
    (move_chain hash cap chain nt).getD j [] =
      (chain.filter (fun n => decide (hash n.key % cap = j))).reverse ++ nt.getD j [] := by
  induction chain generalizing nt with
  | nil => simp [move_chain]
  | cons n chain ih =>
    simp only [move_chain]
    rw [ih _ (by simpa using hlen)]
    have hlt : hash n.key % cap < nt.length := by rw [hlen]; exact Nat.mod_lt _ (by omega)
    by_cases h : hash n.key % cap = j
    · subst h
      rw [getD_set_self _ _ _ _ hlt]
      simp [List.filter_cons]
    · rw [getD_set_other _ _ _ _ _ h]
      simp [List.filter_cons, h]

theorem move_chain_count (hash : K → Nat) (cap : Nat) (chain : List (Node K V))
    (nt : List (List (Node K V))) (hlen : nt.length = cap) (hcap : 0 < cap) :
    (move_chain hash cap chain nt).flatten.length = nt.flatten.length + chain.length := by
  induction chain generalizing nt with
  | nil => simp [move_chain]
  | cons n chain ih =>
    simp only [move_chain]
    rw [ih _ (by simpa using hlen)]
    have hlt : hash n.key % cap < nt.length := by rw [hlen]; exact Nat.mod_lt _ hcap
    have := sum_length_set nt _ (n :: nt.getD (hash n.key % cap) []) hlt
    simp only [List.length_cons] at this ⊢
    omega

theorem rehash_length (hash : K → Nat) (cap : Nat) (old nt : List (List (Node K V))) :
    (old.foldl (fun nt chain => move_chain hash cap chain nt) nt).length = nt.length := by
  induction old generalizing nt with
  | nil => rfl
  | cons c old ih => simp [ih, move_chain_length]

theorem rehash_getD (hash : K → Nat) (cap : Nat) (old nt : List (List (Node K V)))
    (hlen : nt.length = cap) (j : Nat) (hj : j < cap) :
    (old.foldl (fun nt chain => move_chain hash cap chain nt) nt).getD j [] =
      (old.flatten.filter (fun n => decide (hash n.key % cap = j))).reverse ++ nt.getD j [] := by
  induction old generalizing nt with
  | nil => simp
  | cons c old ih =>
    simp only [List.foldl_cons]
    rw [ih _ (by rw [move_chain_length]; exact hlen), move_chain_getD hash cap c nt hlen j hj]
    simp [List.filter_append]

theorem rehash_count (hash : K → Nat) (cap : Nat) (old nt : List (List (Node K V)))
    (hlen : nt.length = cap) (hcap : 0 < cap) :
    (old.foldl (fun nt chain => move_chain hash cap chain nt) nt).flatten.length =
      nt.flatten.length + old.flatten.length := by
  induction old generalizing nt with
  | nil => simp
  | cons c old ih =>
    simp only [List.foldl_cons]
    rw [ih _ (by rw [move_chain_length]; exact hlen), move_chain_count hash cap c nt hlen hcap]
    simp only [List.flatten_cons, List.length_append]
    omega

theorem flatten_replicate_nil (n : Nat) :
    (List.replicate n ([] : List (Node K V))).flatten = [] := by
  induction n with
  | zero => rfl
  | succ n ih => simp [List.replicate_succ, ih]

theorem resize_length (hash : K → Nat) (t : HashTable K V) :
    (resize_and_rehash hash t).table.length = 2 * t.table.length := by
  unfold resize_and_rehash
  simp only [rehash_length, List.length_replicate]
  omega

theorem resize_getD (hash : K → Nat) (t : HashTable K V) (j : Nat)
    (hj : j < 2 * t.table.length) :
    (resize_and_rehash hash t).table.getD j [] =
      ((nodes t).filter (fun n => decide (hash n.key % (2 * t.table.length) = j))).reverse := by
  unfold resize_and_rehash nodes
  simp only
  rw [rehash_getD hash _ _ _ (by simp) j (by omega), getD_replicate_same]
  simp [Nat.mul_comm]

theorem resize_mem_nodes (hash : K → Nat) (t : HashTable K V) (n : Node K V) :
    n ∈ nodes (resize_and_rehash hash t) ↔ n ∈ nodes t := by
  rw [mem_nodes_iff, resize_length]
  constructor
  · rintro ⟨i, hi, hm⟩
    rw [resize_getD hash t i hi] at hm
    simp only [List.mem_reverse, List.mem_filter] at hm
    exact hm.1
  · intro hm
    have hpos : 0 < t.table.length := by
      obtain ⟨i, hi, _⟩ := (mem_nodes_iff t n).mp hm
      omega
    have hlt : hash n.key % (2 * t.table.length) < 2 * t.table.length := Nat.mod_lt _ (by omega)
    refine ⟨_, hlt, ?_⟩
    rw [resize_getD hash t _ hlt]
    simp [hm]

theorem resize_nodes_length (hash : K → Nat) (t : HashTable K V) :
    (nodes (resize_and_rehash hash t)).length = (nodes t).length := by
  by_cases hpos : 0 < t.table.length
  · unfold resize_and_rehash nodes
    simp only
    rw [rehash_count hash _ _ _ (by simp) (by omega), flatten_replicate_nil]
    simp
  · have h0 : t.table = [] := by
      cases h : t.table with
      | nil => rfl
      | cons a l => rw [h] at hpos; simp at hpos
    unfold resize_and_rehash nodes
    simp [h0]

theorem resize_WF (hash : K → Nat) (t : HashTable K V) (hpos : 0 < t.table.length)
    (hnd : (keys t).Nodup) (hsize : t.current_size = (nodes t).length) :
    WF hash (resize_and_rehash hash t) := by
  refine ⟨?_, ?_, ?_, ?_⟩
  · rw [resize_length]; omega
  · intro i hi n hn
    rw [resize_length] at hi ⊢
    rw [resize_getD hash t i hi] at hn
    simp only [List.mem_reverse, List.mem_filter, decide_eq_true_eq] at hn
    exact hn.2
  · intro i hi
    rw [resize_length] at hi
    rw [resize_getD hash t i hi, List.map_reverse, List.nodup_reverse]
    exact List.Nodup.sublist ((List.filter_sublist _).map _) hnd
  · rw [resize_nodes_length]
    exact hsize

theorem WF.wf_resize {hash : K → Nat} {t : HashTable K V} (h : WF hash t) :
    WF hash (resize_and_rehash hash t) :=
  resize_WF hash t h.1 h.keys_nodup h.2.2.2

theorem WF.search_resize {hash : K → Nat} {t : HashTable K V} (h : WF hash t) (k : K) :
    search hash (resize_and_rehash hash t) k = search hash t k := by
  cases hs : search hash t k with
  | none =>
    rw [h.search_eq_none_iff] at hs
    rw [h.wf_resize.search_eq_none_iff]
    intro hm
    apply hs
    unfold keys at hm ⊢
    obtain ⟨n, hn, rfl⟩ := List.mem_map.mp hm
    exact List.mem_map.mpr ⟨n, (resize_mem_nodes hash t n).mp hn, rfl⟩
  | some v =>
    rw [h.search_eq_some_iff] at hs
    rw [h.wf_resize.search_eq_some_iff]
    exact (resize_mem_nodes hash t _).mpr hs

/-! ### Single requests -/

theorem WF_set {hash : K → Nat} {t : HashTable K V} (h : WF hash t) (i : Nat)
    (hi : i < t.table.length) (c : List (Node K V))
    (hplace : ∀ n ∈ c, hash n.key % t.table.length = i) (hnd : (c.map Node.key).Nodup)
    (sz : Nat) (hsz : sz + (t.table.getD i []).length = t.current_size + c.length) :
    WF hash { table := t.table.set i c, current_size := sz } := by
  obtain ⟨hpos, hpl, hn, hs⟩ := h
  refine ⟨?_, ?_, ?_, ?_⟩
  · simpa using hpos
  · intro j hj n hm
    simp only [List.length_set] at hj ⊢
    by_cases hij : i = j
    · subst hij
      rw [getD_set_self _ _ _ _ hi] at hm
      exact hplace n hm
    · rw [getD_set_other _ _ _ _ _ hij] at hm
      exact hpl j hj n hm
  · intro j hj
    simp only [List.length_set] at hj
    by_cases hij : i = j
    · subst hij
      rw [getD_set_self _ _ _ _ hi]
      exact hnd
    · rw [getD_set_other _ _ _ _ _ hij]
      exact hn j hj
  · have := sum_length_set t.table i c hi
    unfold nodes at hs ⊢
    simp only at hs ⊢
    omega

theorem search_set (hash : K → Nat) (t : HashTable K V) (i : Nat) (hi : i < t.table.length)
    (c : List (Node K V)) (sz : Nat) (k : K) :
    search hash { table := t.table.set i c, current_size := sz } k =
      if hash k % t.table.length = i then chain_search c k else search hash t k := by
  unfold search
  simp only [List.length_set]
  by_cases h : hash k % t.table.length = i
  · rw [if_pos h, h, getD_set_self _ _ _ _ hi]
  · rw [if_neg h, getD_set_other _ _ _ _ _ (fun e => h e.symm)]

theorem insert_eq (over : Nat → Nat → Bool) (hash : K → Nat) (t : HashTable K V) (k : K) (v : V) :
    insert over hash t k v =
      insert (fun _ _ => false) hash
        (if over t.current_size t.table.length then resize_and_rehash hash t else t) k v := by
  simp [insert]

theorem WF.grow {hash : K → Nat} {t : HashTable K V} (h : WF hash t) (b : Bool) :
    WF hash (if b then resize_and_rehash hash t else t) := by
  cases b
  · exact h
  · exact h.wf_resize

theorem WF.search_grow {hash : K → Nat} {t : HashTable K V} (h : WF hash t) (b : Bool) (k : K) :
    search hash (if b then resize_and_rehash hash t else t) k = search hash t k := by
  cases b
  · rfl
  · exact h.search_resize k

theorem size_grow (hash : K → Nat) (t : HashTable K V) (b : Bool) :
    (if b then resize_and_rehash hash t else t).current_size = t.current_size := by
  cases b <;> rfl

theorem place_WF {hash : K → Nat} {t : HashTable K V} (h : WF hash t) (k : K) (v : V) :
    WF hash (insert (fun _ _ => false) hash t k v) := by
  have hlt : hash k % t.table.length < t.table.length := Nat.mod_lt _ h.1
  unfold insert
  simp only [Bool.false_eq_true, if_false]
  cases hu : chain_update (t.table.getD (hash k % t.table.length) []) k v with
  | some c =>
    simp only
    refine WF_set h _ hlt c ?_ ?_ _ ?_
    · intro n hn
      have hk := chain_update_keys _ _ _ _ hu
      have : n.key ∈ (t.table.getD (hash k % t.table.length) []).map Node.key := by
        rw [← hk]; exact List.mem_map.mpr ⟨n, hn, rfl⟩
      obtain ⟨m, hm, hme⟩ := List.mem_map.mp this
      rw [← hme]
      exact h.2.1 _ hlt m hm
    · rw [chain_update_keys _ _ _ _ hu]
      exact h.2.2.1 _ hlt
    · rw [chain_update_length _ _ _ _ hu]
  | none =>
    simp only
    refine WF_set h _ hlt _ ?_ ?_ _ ?_
    · intro n hn
      rcases List.mem_cons.mp hn with rfl | hn
      · rfl
      · exact h.2.1 _ hlt n hn
    · simp only [List.map_cons, List.nodup_cons]
      exact ⟨(chain_update_eq_none_iff _ _ _).mp hu, h.2.2.1 _ hlt⟩
    · simp only [List.length_cons]; omega

theorem place_search_self {hash : K → Nat} {t : HashTable K V} (h : WF hash t) (k : K) (v : V) :
    search hash (insert (fun _ _ => false) hash t k v) k = some v := by
  have hlt : hash k % t.table.length < t.table.length := Nat.mod_lt _ h.1
  unfold insert
  simp only [Bool.false_eq_true, if_false]
  cases hu : chain_update (t.table.getD (hash k % t.table.length) []) k v with
  | some c =>
    simp only
    rw [search_set hash t _ hlt, if_pos rfl]
    exact chain_search_update_self _ _ _ _ hu
  | none =>
    simp only
    rw [search_set hash t _ hlt, if_pos rfl]
    simp [chain_search]

theorem place_search_other {hash : K → Nat} {t : HashTable K V} (h : WF hash t) (k k' : K) (v : V)
    (hne : k' ≠ k) :
    search hash (insert (fun _ _ => false) hash t k v) k' = search hash t k' := by
  have hlt : hash k % t.table.length < t.table.length := Nat.mod_lt _ h.1
  unfold insert
  simp only [Bool.false_eq_true, if_false]
  cases hu : chain_update (t.table.getD (hash k % t.table.length) []) k v with
  | some c =>
    simp only
    rw [search_set hash t _ hlt]
    split
    · rename_i he
      rw [chain_search_update_other _ _ _ _ _ hu hne]
      unfold search; rw [he]
    · rfl
  | none =>
    simp only
    rw [search_set hash t _ hlt]
    split
    · rename_i he
      have : ¬ k = k' := fun e => hne e.symm
      simp only [chain_search, this, if_false]
      unfold search; rw [he]
    · rfl

theorem place_size {hash : K → Nat} {t : HashTable K V} (k : K) (v : V) :
    (insert (fun _ _ => false) hash t k v).current_size =
      if (search hash t k).isSome then t.current_size else t.current_size + 1 := by
  unfold insert
  simp only [Bool.false_eq_true, if_false]
  cases hu : chain_update (t.table.getD (hash k % t.table.length) []) k v with
  | some c =>
    have : search hash t k ≠ none := by
      unfold search
      rw [Ne, chain_search_eq_none_iff, ← chain_update_eq_none_iff _ _ v, hu]
      simp
    cases hs : search hash t k with
    | none => exact absurd hs this
    | some w => simp
  | none =>
    have : search hash t k = none := by
      unfold search
      rw [chain_search_eq_none_iff, ← chain_update_eq_none_iff _ _ v, hu]
    simp [this]

theorem WF.wf_insert {hash : K → Nat} {t : HashTable K V} (h : WF hash t) (over : Nat → Nat → Bool)
    (k : K) (v : V) : WF hash (insert over hash t k v) := by
  rw [insert_eq]
  exact place_WF (h.grow _) k v

theorem WF.search_insert_self {hash : K → Nat} {t : HashTable K V} (h : WF hash t)
    (over : Nat → Nat → Bool) (k : K) (v : V) :
    search hash (HashTable.insert over hash t k v) k = some v := by
  rw [insert_eq]
  exact place_search_self (h.grow _) k v

theorem WF.search_insert_other {hash : K → Nat} {t : HashTable K V} (h : WF hash t)
    (over : Nat → Nat → Bool) (k k' : K) (v : V) (hne : k' ≠ k) :
    search hash (HashTable.insert over hash t k v) k' = search hash t k' := by
  rw [insert_eq, place_search_other (h.grow _) k k' v hne, h.search_grow]

theorem WF.size_insert {hash : K → Nat} {t : HashTable K V} (h : WF hash t)
    (over : Nat → Nat → Bool) (k : K) (v : V) :
    (HashTable.insert over hash t k v).current_size =
      if (search hash t k).isSome then t.current_size else t.current_size + 1 := by
  rw [insert_eq, place_size, h.search_grow, size_grow]

theorem remove_snd (hash : K → Nat) (t : HashTable K V) (k : K) :
    (remove hash t k).2 = (search hash t k).isSome := by
  unfold remove
  simp only
  cases hr : chain_remove (t.table.getD (hash k % t.table.length) []) k with
  | some c =>
    have : search hash t k ≠ none := by
      unfold search
      rw [Ne, chain_search_eq_none_iff, ← chain_remove_eq_none_iff, hr]
      simp
    cases hs : search hash t k with
    | none => exact absurd hs this
    | some w => simp
  | none =>
    have : search hash t k = none := by
      unfold search
      rw [chain_search_eq_none_iff, ← chain_remove_eq_none_iff, hr]
    simp [this]

theorem remove_false (hash : K → Nat) (t : HashTable K V) (k : K)
    (h : (remove hash t k).2 = false) : (remove hash t k).1 = t := by
  unfold remove at h ⊢
  simp only at h ⊢
  cases hr : chain_remove (t.table.getD (hash k % t.table.length) []) k with
  | some c => rw [hr] at h; simp at h
  | none => rfl

theorem WF.wf_remove {hash : K → Nat} {t : HashTable K V} (h : WF hash t) (k : K) :
    WF hash (remove hash t k).1 := by
  have hlt : hash k % t.table.length < t.table.length := Nat.mod_lt _ h.1
  unfold HashTable.remove
  simp only
  cases hr : chain_remove (t.table.getD (hash k % t.table.length) []) k with
  | some c =>
    simp only
    refine WF_set h _ hlt c ?_ ?_ _ ?_
    · intro n hn
      exact h.2.1 _ hlt n (chain_remove_mem _ _ _ hr n hn)
    · rw [chain_remove_keys _ _ _ hr]
      exact (h.2.2.1 _ hlt).erase k
    · have h1 := chain_remove_length _ _ _ hr
      have h2 : (t.table.getD (hash k % t.table.length) []).length ≤ (nodes t).length := by
        unfold nodes
        exact (List.sublist_flatten_of_mem (getD_mem_of_lt _ _ _ hlt)).length_le
      have h3 := h.2.2.2
      omega
  | none => exact h

theorem WF.search_remove_self {hash : K → Nat} {t : HashTable K V} (h : WF hash t) (k : K) :
    search hash (HashTable.remove hash t k).1 k = none := by
  have hlt : hash k % t.table.length < t.table.length := Nat.mod_lt _ h.1
  unfold HashTable.remove
  simp only
  cases hr : chain_remove (t.table.getD (hash k % t.table.length) []) k with
  | some c =>
    simp only
    rw [search_set hash t _ hlt, if_pos rfl]
    exact chain_search_remove_self _ _ _ (h.2.2.1 _ hlt) hr
  | none =>
    simp only
    unfold search
    rw [chain_search_eq_none_iff, ← chain_remove_eq_none_iff, hr]

theorem WF.search_remove_frame {hash : K → Nat} {t : HashTable K V} (h : WF hash t) (k k' : K)
    (hne : k' ≠ k) :
    search hash (HashTable.remove hash t k).1 k' = search hash t k' := by
  have hlt : hash k % t.table.length < t.table.length := Nat.mod_lt _ h.1
  unfold HashTable.remove
  simp only
  cases hr : chain_remove (t.table.getD (hash k % t.table.length) []) k with
  | some c =>
    simp only
    rw [search_set hash t _ hlt]
    split
    · rename_i he
      rw [chain_search_remove_other _ _ _ _ hr hne]
      unfold search; rw [he]
    · rfl
  | none => rfl

theorem WF.size_pos_of_search {hash : K → Nat} {t : HashTable K V} (h : WF hash t) (k : K)
    (hs : (search hash t k).isSome = true) : 0 < t.current_size := by
  obtain ⟨v, hv⟩ := Option.isSome_iff_exists.mp hs
  have hm := (h.search_eq_some_iff k v).mp hv
  rw [h.2.2.2]
  exact List.length_pos_of_mem hm

theorem WF.size_remove {hash : K → Nat} {t : HashTable K V} (h : WF hash t) (k : K) :
    (HashTable.remove hash t k).1.current_size + (if (HashTable.remove hash t k).2 then 1 else 0) =
      t.current_size := by
  have hpos := h.size_pos_of_search k
  have hsnd := remove_snd hash t k
  cases hr : chain_remove (t.table.getD (hash k % t.table.length) []) k with
  | some c =>
    have e : HashTable.remove hash t k =
        ({ table := t.table.set (hash k % t.table.length) c,
           current_size := t.current_size - 1 }, true) := by
      unfold HashTable.remove; simp only [hr]
    rw [e] at hsnd ⊢
    have := hpos hsnd.symm
    simp only [if_true]
    omega
  | none =>
    have e : HashTable.remove hash t k = (t, false) := by
      unfold HashTable.remove; simp only [hr]
    rw [e]
    simp

/-! ### Request sequences -/

theorem WF.apply {hash : K → Nat} {t : HashTable K V} (h : WF hash t) (over : Nat → Nat → Bool)
    (op : Op K V) : WF hash (apply over hash t op) := by
  cases op with
  | insert k v => exact h.wf_insert over k v
  | remove k => exact h.wf_remove k

theorem WF_foldl (over : Nat → Nat → Bool) (hash : K → Nat) (ops : List (Op K V))
    (t : HashTable K V) (h : WF hash t) : WF hash (ops.foldl (apply over hash) t) := by
  induction ops generalizing t with
  | nil => exact h
  | cons op ops ih => exact ih _ (h.apply over op)

theorem WF_run (over : Nat → Nat → Bool) (hash : K → Nat) (initial_capacity : Nat)
    (ops : List (Op K V)) : WF hash (run over hash initial_capacity ops) :=
  WF_foldl over hash ops _ (WF_new hash initial_capacity)

theorem search_apply {hash : K → Nat} {t : HashTable K V} (h : WF hash t)
    (over : Nat → Nat → Bool) (op : Op K V) (m : K → Option V)
    (hm : ∀ k, search hash t k = m k) (k : K) :
    search hash (apply over hash t op) k = ref_step m op k := by
  cases op with
  | insert key value =>
    simp only [HashTable.apply, ref_step]
    by_cases hk : k = key
    · rw [if_pos hk, hk]; exact h.search_insert_self over key value
    · rw [if_neg hk, h.search_insert_other over key k value hk]; exact hm k
  | remove key =>
    simp only [HashTable.apply, ref_step]
    by_cases hk : k = key
    · rw [if_pos hk, hk]; exact h.search_remove_self key
    · rw [if_neg hk, h.search_remove_frame key k hk]; exact hm k

theorem search_foldl (over : Nat → Nat → Bool) (hash : K → Nat) (ops : List (Op K V))
    (t : HashTable K V) (h : WF hash t) (m : K → Option V)
    (hm : ∀ k, search hash t k = m k) (k : K) :
    search hash (ops.foldl (apply over hash) t) k = ops.foldl ref_step m k := by
  induction ops generalizing t m with
  | nil => exact hm k
  | cons op ops ih =>
    exact ih _ (h.apply over op) _ (fun k => search_apply h over op m hm k)

theorem search_run (over : Nat → Nat → Bool) (hash : K → Nat) (initial_capacity : Nat)
    (ops : List (Op K V)) (k : K) :
    search hash (run over hash initial_capacity ops) k = ref_map ops k :=
  search_foldl over hash ops _ (WF_new hash initial_capacity) _
    (fun k => search_new hash initial_capacity k) k

theorem WF.mem_keys_iff {hash : K → Nat} {t : HashTable K V} (h : WF hash t) (k : K) :
    k ∈ keys t ↔ (search hash t k).isSome = true := by
  have := h.search_eq_none_iff k
  cases hs : search hash t k with
  | none => rw [hs] at this; simpa using this.mp rfl
  | some v =>
    rw [hs] at this
    simp only [Option.isSome_some, iff_true]
    by_contra hk
    exact absurd (this.mpr hk) (by simp)

theorem chain_search_mem (c : List (Node K V)) (k : K) (v : V) (h : chain_search c k = some v) :
    ({ key := k, value := v } : Node K V) ∈ c := by
  induction c with
  | nil => simp [chain_search] at h
  | cons n c ih =>
    by_cases hk : n.key = k
    · simp only [chain_search, hk, if_true, Option.some.injEq] at h
      cases n; simp_all
    · simp only [chain_search, hk, if_false] at h
      exact List.mem_cons_of_mem _ (ih h)

theorem search_mem_nodes (hash : K → Nat) (t : HashTable K V) (k : K) (v : V)
    (h : search hash t k = some v) : ({ key := k, value := v } : Node K V) ∈ nodes t := by
  unfold search at h
  have hm := chain_search_mem _ _ _ h
  have hlt : hash k % t.table.length < t.table.length := by
    by_contra hge
    rw [List.getD_eq_default _ _ (by omega)] at hm
    simp at hm
  exact (mem_nodes_iff t _).mpr ⟨_, hlt, hm⟩

theorem resize_search_of_nodup (hash : K → Nat) (t : HashTable K V) (hnd : (keys t).Nodup) :
    (∀ k v, ({ key := k, value := v } : Node K V) ∈ nodes t →
        search hash (resize_and_rehash hash t) k = some v) ∧
    (∀ k, k ∉ keys t → search hash (resize_and_rehash hash t) k = none) ∧
    (∀ i, i < (resize_and_rehash hash t).table.length →
        ∀ n ∈ (resize_and_rehash hash t).table.getD i [],
          hash n.key % (resize_and_rehash hash t).table.length = i) := by
  by_cases hpos : 0 < t.table.length
  · have hwf : WF hash (resize_and_rehash hash { table := t.table, current_size := (nodes t).length }) :=
      resize_WF hash _ hpos hnd rfl
    refine ⟨?_, ?_, ?_⟩
    · intro k v hm
      exact (hwf.search_eq_some_iff k v).mpr ((resize_mem_nodes hash _ _).mpr hm)
    · intro k hk
      refine (hwf.search_eq_none_iff k).mpr ?_
      intro hm
      apply hk
      unfold keys at hm ⊢
      obtain ⟨n, hn, rfl⟩ := List.mem_map.mp hm
      exact List.mem_map.mpr ⟨n, (resize_mem_nodes hash _ n).mp hn, rfl⟩
    · exact hwf.2.1
  · have h0 : t.table = [] := by
      cases h : t.table with
      | nil => rfl
      | cons a l => rw [h] at hpos; simp at hpos
    refine ⟨?_, ?_, ?_⟩
    · intro k v hm
      unfold nodes at hm
      simp [h0] at hm
    · intro k _
      simp [search, resize_and_rehash, h0, chain_search]
    · intro i hi
      simp [resize_and_rehash, h0] at hi

/-! ### Capacity and load -/

theorem place_table_length (hash : K → Nat) (t : HashTable K V) (k : K) (v : V) :
    (insert (fun _ _ => false) hash t k v).table.length = t.table.length := by
  unfold insert
  simp only [Bool.false_eq_true, if_false]
  cases chain_update (t.table.getD (hash k % t.table.length) []) k v <;> simp

theorem insert_length (over : Nat → Nat → Bool) (hash : K → Nat) (t : HashTable K V) (k : K)
    (v : V) :
    (insert over hash t k v).table.length =
      if over t.current_size t.table.length then 2 * t.table.length else t.table.length := by
  rw [insert_eq, place_table_length]
  cases over t.current_size t.table.length
  · rfl
  · exact resize_length hash t

theorem remove_table_length (hash : K → Nat) (t : HashTable K V) (k : K) :
    (remove hash t k).1.table.length = t.table.length := by
  unfold remove
  simp only
  cases chain_remove (t.table.getD (hash k % t.table.length) []) k <;> simp

theorem WF.size_insert_le {hash : K → Nat} {t : HashTable K V} (h : WF hash t)
    (over : Nat → Nat → Bool) (k : K) (v : V) :
    (HashTable.insert over hash t k v).current_size ≤ t.current_size + 1 := by
  rw [h.size_insert over k v]
  split <;> omega

theorem WF.size_remove_le {hash : K → Nat} {t : HashTable K V} (h : WF hash t) (k : K) :
    (HashTable.remove hash t k).1.current_size ≤ t.current_size := by
  have := h.size_remove k
  omega

/-- With the exact load test, `4 * size ≤ 3 * capacity + 4` is kept by every request. -/
theorem load_bound_apply {hash : K → Nat} {t : HashTable K V} (h : WF hash t) (op : Op K V)
    (hb : 4 * t.current_size ≤ 3 * t.table.length + 4) :
    4 * (apply load_exceeded hash t op).current_size ≤
      3 * (apply load_exceeded hash t op).table.length + 4 := by
  have hpos := h.1
  cases op with
  | insert k v =>
    simp only [HashTable.apply]
    have h1 := h.size_insert_le load_exceeded k v
    rw [insert_length]
    by_cases ho : 3 * t.table.length < 4 * t.current_size
    · have : load_exceeded t.current_size t.table.length = true := by simp [load_exceeded, ho]
      rw [this, if_pos rfl]
      omega
    · have : load_exceeded t.current_size t.table.length = false := by simp [load_exceeded, ho]
      rw [this]
      simp only [Bool.false_eq_true, if_false]
      omega
  | remove k =>
    simp only [HashTable.apply]
    have h1 := h.size_remove_le k
    rw [remove_table_length]
    omega

theorem load_bound_foldl (hash : K → Nat) (ops : List (Op K V)) (t : HashTable K V)
    (h : WF hash t) (hb : 4 * t.current_size ≤ 3 * t.table.length + 4) :
    4 * (ops.foldl (apply load_exceeded hash) t).current_size ≤
      3 * (ops.foldl (apply load_exceeded hash) t).table.length + 4 := by
  induction ops generalizing t with
  | nil => exact hb
  | cons op ops ih => exact ih _ (h.apply load_exceeded op) (load_bound_apply h op hb)

theorem load_bound_run (hash : K → Nat) (initial_capacity : Nat) (ops : List (Op K V)) :
    4 * (run load_exceeded hash initial_capacity ops).current_size ≤
      3 * (run load_exceeded hash initial_capacity ops).table.length + 4 :=
  load_bound_foldl hash ops _ (WF_new hash initial_capacity) (by simp [new])

/-- An `insert` of a key that is not found, on a table whose load test is negative: the number
of buckets stays and the size grows by one. -/
theorem WF.insert_fresh_light {hash : K → Nat} {t : HashTable K V} (h : WF hash t)
    (over : Nat → Nat → Bool) (k : K) (v : V) (hk : search hash t k = none)
    (ho : over t.current_size t.table.length = false) :
    (HashTable.insert over hash t k v).table.length = t.table.length ∧
    (HashTable.insert over hash t k v).current_size = t.current_size + 1 := by
  constructor
  · rw [insert_length, ho]; simp
  · rw [h.size_insert over k v, hk]; simp

theorem new_length (initial_capacity : Nat) :
    (new initial_capacity : HashTable K V).table.length =
      if initial_capacity = 0 then 16 else initial_capacity := by
  simp [new]

/-- Three distinct keys inserted into a new table of capacity 4, with the exact load test: no
insert grows the table. -/
theorem three_inserts_capacity_four (hash : K → Nat) (k1 k2 k3 : K) (v1 v2 v3 : V)
    (h12 : k1 ≠ k2) (h13 : k1 ≠ k3) (h23 : k2 ≠ k3) :
    (run load_exceeded hash 4 [.insert k1 v1, .insert k2 v2, .insert k3 v3]).table.length = 4 ∧
    (run load_exceeded hash 4 [.insert k1 v1, .insert k2 v2, .insert k3 v3]).current_size = 3 ∧
    search hash (run load_exceeded hash 4 [.insert k1 v1, .insert k2 v2, .insert k3 v3]) k1
      = some v1 ∧
    search hash (run load_exceeded hash 4 [.insert k1 v1, .insert k2 v2, .insert k3 v3]) k2
      = some v2 ∧
    search hash (run load_exceeded hash 4 [.insert k1 v1, .insert k2 v2, .insert k3 v3]) k3
      = some v3 := by
  have hs := search_run load_exceeded hash 4 [.insert k1 v1, .insert k2 v2, .insert k3 v3]
  have w0 : WF hash (new 4 : HashTable K V) := WF_new hash 4
  have l0 : (new 4 : HashTable K V).table.length = 4 := by simp [new]
  have s0 : (new 4 : HashTable K V).current_size = 0 := by simp [new]
  have a1 := w0.insert_fresh_light load_exceeded k1 v1 (search_new hash 4 k1)
    (by rw [l0, s0]; decide)
  have w1 := w0.wf_insert load_exceeded k1 v1
  rw [l0, s0] at a1
  have a2 := w1.insert_fresh_light load_exceeded k2 v2
    (by rw [w0.search_insert_other load_exceeded k1 k2 v1 (Ne.symm h12)]; exact search_new hash 4 k2)
    (by rw [a1.1, a1.2]; decide)
  have w2 := w1.wf_insert load_exceeded k2 v2
  rw [a1.1, a1.2] at a2
  have a3 := w2.insert_fresh_light load_exceeded k3 v3
    (by rw [w1.search_insert_other load_exceeded k2 k3 v2 (Ne.symm h23),
          w0.search_insert_other load_exceeded k1 k3 v1 (Ne.symm h13)]
        exact search_new hash 4 k3)
    (by rw [a2.1, a2.2]; decide)
  rw [a2.1, a2.2] at a3
  have hrun : run load_exceeded hash 4 [.insert k1 v1, .insert k2 v2, .insert k3 v3] =
      HashTable.insert load_exceeded hash (HashTable.insert load_exceeded hash
        (HashTable.insert load_exceeded hash (new 4) k1 v1) k2 v2) k3 v3 := by
    simp only [run, List.foldl_cons, List.foldl_nil, HashTable.apply]
  refine ⟨?_, ?_, ?_, ?_, ?_⟩
  · rw [hrun]; exact a3.1
  · rw [hrun]; exact a3.2
  · rw [hs]; simp [ref_map, ref_step, h12, h13]
  · rw [hs]; simp [ref_map, ref_step, h23]
  · rw [hs]; simp [ref_map, ref_step]

end HashTable

namespace HashTableOA

variable {K V : Type} [DecidableEq K] [Inhabited K] [Inhabited V]

/-! ### The probe walk -/

theorem probe_lt (cap start d : Nat) (h : 0 < cap) : probe cap start d < cap :=
  Nat.mod_lt _ h

theorem probe_zero (cap start : Nat) (h : start < cap) : probe cap start 0 = start := by
  simp [probe, Nat.mod_eq_of_lt h]

theorem probe_succ (cap start d : Nat) : (probe cap start d + 1) % cap = probe cap start (d + 1) := by
  unfold probe
  rw [Nat.mod_add_mod]
  rfl

theorem probe_val (cap start d : Nat) (hs : start < cap) (hd : d < cap) :
    probe cap start d = if start + d < cap then start + d else start + d - cap := by
  unfold probe
  split
  · rename_i h; exact Nat.mod_eq_of_lt h
  · rename_i h
    rw [Nat.mod_eq_sub_mod (by omega)]
    exact Nat.mod_eq_of_lt (by omega)

theorem probe_cap (cap start : Nat) (hs : start < cap) : probe cap start cap = start := by
  unfold probe
  rw [Nat.add_mod_right]
  exact Nat.mod_eq_of_lt hs

theorem probe_ne_start (cap start d : Nat) (hs : start < cap) (h0 : 0 < d) (hd : d < cap) :
    probe cap start d ≠ start := by
  rw [probe_val cap start d hs hd]
  split <;> omega

theorem probe_inj (cap start d e : Nat) (hs : start < cap) (hd : d < cap) (he : e < cap)
    (h : probe cap start d = probe cap start e) : d = e := by
  rw [probe_val cap start d hs hd, probe_val cap start e hs he] at h
  split at h <;> split at h <;> omega

theorem probe_surj (cap start j : Nat) (hs : start < cap) (hj : j < cap) :
    ∃ d, d < cap ∧ probe cap start d = j := by
  by_cases h : start ≤ j
  · refine ⟨j - start, by omega, ?_⟩
    rw [probe_val cap start _ hs (by omega)]
    split <;> omega
  · refine ⟨j + cap - start, by omega, ?_⟩
    rw [probe_val cap start _ hs (by omega)]
    split <;> omega

/-! ### `find_slot` -/

theorem find_slot_loop_step_stop (table : List (Slot K V)) (key : K) (start steps index : Nat)
    (h : stops key (table.getD index fresh)) :
    find_slot_loop table key start (steps + 1) index = .ok index := by
  unfold find_slot_loop
  rcases h with h | h
  · simp only [h, ne_eq, not_true_eq_false, if_false]
  · have hne : SlotState.OCCUPIED ≠ SlotState.EMPTY := by decide
    simp only [h.1, h.2, ne_eq, hne, not_false_eq_true, and_self, if_true]

theorem find_slot_loop_step_go (table : List (Slot K V)) (key : K) (start steps index : Nat)
    (h : ¬ stops key (table.getD index fresh)) :
    find_slot_loop table key start (steps + 1) index =
      if (index + 1) % table.length = start then .error Fault.table_full
      else find_slot_loop table key start steps ((index + 1) % table.length) := by
  conv => lhs; unfold find_slot_loop
  have h1 : (table.getD index fresh).state ≠ SlotState.EMPTY := fun e => h (Or.inl e)
  have h2 : ¬ ((table.getD index fresh).state = SlotState.OCCUPIED ∧
      (table.getD index fresh).key = key) := fun e => h (Or.inr e)
  simp only [h1, ne_eq, not_false_eq_true, if_true, h2, if_false]

theorem find_slot_loop_ok (table : List (Slot K V)) (key : K) (start : Nat)
    (hs : start < table.length) (n d : Nat) (hd' : d + n < table.length)
    (hstop : stops key (table.getD (probe table.length start (d + n)) fresh))
    (hbefore : ∀ e, d ≤ e → e < d + n →
      ¬ stops key (table.getD (probe table.length start e) fresh)) :
    find_slot_loop table key start (table.length - d) (probe table.length start d) =
      .ok (probe table.length start (d + n)) := by
  induction n generalizing d with
  | zero =>
    obtain ⟨m, hm⟩ : ∃ m, table.length - d = m + 1 := ⟨table.length - d - 1, by omega⟩
    rw [hm]
    exact find_slot_loop_step_stop table key start m _ hstop
  | succ n ih =>
    obtain ⟨m, hm⟩ : ∃ m, table.length - d = m + 1 := ⟨table.length - d - 1, by omega⟩
    rw [hm, find_slot_loop_step_go table key start m _ (hbefore d (le_refl _) (by omega)),
      probe_succ, if_neg (probe_ne_start _ _ _ hs (by omega) (by omega))]
    have hm' : m = table.length - (d + 1) := by omega
    rw [hm']
    have := ih (d + 1) (by omega) (by rw [show d + 1 + n = d + (n + 1) by omega]; exact hstop)
      (fun e h1 h2 => hbefore e (by omega) (by omega))
    rw [this]
    congr 2
    omega

theorem find_slot_loop_full (table : List (Slot K V)) (key : K) (start : Nat)
    (hs : start < table.length) (n d : Nat) (hn : d + n + 1 = table.length)
    (hnone : ∀ e, d ≤ e → e < table.length →
      ¬ stops key (table.getD (probe table.length start e) fresh)) :
    find_slot_loop table key start (table.length - d) (probe table.length start d) =
      .error Fault.table_full := by
  induction n generalizing d with
  | zero =>
    have hm : table.length - d = 0 + 1 := by omega
    rw [hm, find_slot_loop_step_go table key start 0 _ (hnone d (le_refl _) (by omega)),
      probe_succ]
    have : d + 1 = table.length := by omega
    rw [this, probe_cap _ _ hs, if_pos rfl]
  | succ n ih =>
    obtain ⟨m, hm⟩ : ∃ m, table.length - d = m + 1 := ⟨table.length - d - 1, by omega⟩
    rw [hm, find_slot_loop_step_go table key start m _ (hnone d (le_refl _) (by omega)),
      probe_succ, if_neg (probe_ne_start _ _ _ hs (by omega) (by omega))]
    have hm' : m = table.length - (d + 1) := by omega
    rw [hm']
    exact ih (d + 1) (by omega) (fun e h1 h2 => hnone e (by omega) h2)

theorem find_slot_of_first (hash : K → Nat) (t : HashTableOA K V) (key : K) (d : Nat)
    (hd : d < t.table.length)
    (hstop : stops key
      (t.table.getD (probe t.table.length (hash key % t.table.length) d) fresh))
    (hbefore : ∀ e, e < d →
      ¬ stops key (t.table.getD (probe t.table.length (hash key % t.table.length) e) fresh)) :
    find_slot hash t key = .ok (probe t.table.length (hash key % t.table.length) d) := by
  have hs : hash key % t.table.length < t.table.length := Nat.mod_lt _ (by omega)
  have := find_slot_loop_ok t.table key _ hs d 0 (by omega) (by simpa using hstop)
    (fun e _ h2 => hbefore e (by omega))
  unfold find_slot
  simp only
  rw [probe_zero _ _ hs] at this
  simpa using this

theorem find_slot_of_none (hash : K → Nat) (t : HashTableOA K V) (key : K)
    (hpos : 0 < t.table.length)
    (hnone : ∀ e, e < t.table.length →
      ¬ stops key (t.table.getD (probe t.table.length (hash key % t.table.length) e) fresh)) :
    find_slot hash t key = .error Fault.table_full := by
  have hs : hash key % t.table.length < t.table.length := Nat.mod_lt _ hpos
  have := find_slot_loop_full t.table key _ hs (t.table.length - 1) 0 (by omega)
    (fun e _ h2 => hnone e h2)
  unfold find_slot
  simp only
  rw [probe_zero _ _ hs] at this
  simpa using this

/-- The two ways `find_slot` ends on a table with at least one slot. -/
theorem find_slot_cases (hash : K → Nat) (t : HashTableOA K V) (key : K)
    (hpos : 0 < t.table.length) :
    (∃ d, d < t.table.length ∧
      find_slot hash t key = .ok (probe t.table.length (hash key % t.table.length) d) ∧
      stops key (t.table.getD (probe t.table.length (hash key % t.table.length) d) fresh) ∧
      ∀ e, e < d →
        ¬ stops key (t.table.getD (probe t.table.length (hash key % t.table.length) e) fresh)) ∨
    (find_slot hash t key = .error Fault.table_full ∧
      ∀ j, j < t.table.length → ¬ stops key (t.table.getD j fresh)) := by
  classical
  by_cases hex : ∃ d, d < t.table.length ∧
      stops key (t.table.getD (probe t.table.length (hash key % t.table.length) d) fresh)
  · left
    refine ⟨Nat.find hex, (Nat.find_spec hex).1, ?_, (Nat.find_spec hex).2, ?_⟩
    · apply find_slot_of_first hash t key _ (Nat.find_spec hex).1 (Nat.find_spec hex).2
      intro e he hst
      exact Nat.find_min hex he ⟨by have := (Nat.find_spec hex).1; omega, hst⟩
    · intro e he hst
      exact Nat.find_min hex he ⟨by have := (Nat.find_spec hex).1; omega, hst⟩
  · right
    have hnone : ∀ e, e < t.table.length →
        ¬ stops key (t.table.getD (probe t.table.length (hash key % t.table.length) e) fresh) :=
      fun e he hst => hex ⟨e, he, hst⟩
    refine ⟨find_slot_of_none hash t key hpos hnone, ?_⟩
    intro j hj
    obtain ⟨d, hd, rfl⟩ := probe_surj _ (hash key % t.table.length) j (Nat.mod_lt _ hpos) hj
    exact hnone d hd

theorem find_slot_ne_bound (hash : K → Nat) (t : HashTableOA K V) (key : K)
    (hpos : 0 < t.table.length) : find_slot hash t key ≠ .error Fault.bound := by
  rcases find_slot_cases hash t key hpos with ⟨d, _, h, _⟩ | ⟨h, _⟩ <;> rw [h] <;> simp

theorem find_slot_ok_spec (hash : K → Nat) (t : HashTableOA K V) (key : K) (i : Nat)
    (hpos : 0 < t.table.length) (h : find_slot hash t key = .ok i) :
    ∃ d, d < t.table.length ∧ i = probe t.table.length (hash key % t.table.length) d ∧
      stops key (t.table.getD i fresh) ∧
      ∀ e, e < d →
        ¬ stops key (t.table.getD (probe t.table.length (hash key % t.table.length) e) fresh) := by
  rcases find_slot_cases hash t key hpos with ⟨d, hd, h1, h2, h3⟩ | ⟨h1, _⟩
  · rw [h1] at h
    injection h with h
    subst h
    exact ⟨d, hd, rfl, h2, h3⟩
  · rw [h1] at h; cases h

theorem find_slot_ok_lt (hash : K → Nat) (t : HashTableOA K V) (key : K) (i : Nat)
    (hpos : 0 < t.table.length) (h : find_slot hash t key = .ok i) : i < t.table.length := by
  obtain ⟨d, _, rfl, _⟩ := find_slot_ok_spec hash t key i hpos h
  exact probe_lt _ _ _ hpos

theorem find_slot_error_spec (hash : K → Nat) (t : HashTableOA K V) (key : K) (e : Fault)
    (hpos : 0 < t.table.length) (h : find_slot hash t key = .error e) :
    e = Fault.table_full ∧ ∀ j, j < t.table.length → ¬ stops key (t.table.getD j fresh) := by
  rcases find_slot_cases hash t key hpos with ⟨d, hd, h1, h2, h3⟩ | ⟨h1, h2⟩
  · rw [h1] at h; cases h
  · rw [h1] at h
    injection h with h
    exact ⟨h.symm, h2⟩

theorem find_slot_of_empty (hash : K → Nat) (t : HashTableOA K V) (key : K) (j : Nat)
    (hj : j < t.table.length) (he : (t.table.getD j fresh).state = SlotState.EMPTY) :
    ∃ i, find_slot hash t key = .ok i := by
  rcases find_slot_cases hash t key (by omega) with ⟨d, hd, h1, h2, h3⟩ | ⟨h1, h2⟩
  · exact ⟨_, h1⟩
  · exact absurd (Or.inl he) (h2 j hj)

theorem Inv.find_slot_found {hash : K → Nat} {t : HashTableOA K V} (h : Inv hash t) (j : Nat)
    (k : K) (hj : j < t.table.length)
    (ho : (t.table.getD j fresh).state = SlotState.OCCUPIED)
    (hk : (t.table.getD j fresh).key = k) :
    find_slot hash t k = .ok j := by
  obtain ⟨hpos, _, hdist, hchain⟩ := h
  obtain ⟨d, hd, hp⟩ := probe_surj _ (hash k % t.table.length) j (Nat.mod_lt _ hpos) hj
  subst hp
  apply find_slot_of_first hash t k d hd (Or.inr ⟨ho, hk⟩)
  intro e he hst
  rcases hst with hst | hst
  · exact hchain k d hd ho hk e he hst
  · have hij := hdist _ _ (probe_lt _ _ e hpos) hj hst.1 ho (hst.2.trans hk.symm)
    have := probe_inj _ _ _ _ (Nat.mod_lt _ hpos) (by omega) hd hij
    omega

/-! ### Bindings -/

theorem countP_set {α : Type} (p : α → Bool) (l : List α) (i : Nat) (a d : α)
    (h : i < l.length) :
    (l.set i a).countP p + (if p (l.getD i d) then 1 else 0) =
      l.countP p + (if p a then 1 else 0) := by
  induction l generalizing i with
  | nil => simp at h
  | cons b l ih =>
    cases i with
    | zero =>
      simp only [List.set_cons_zero, List.countP_cons, List.getD_cons_zero]
      omega
    | succ i =>
      have := ih i (by simpa using h)
      simp only [List.set_cons_succ, List.countP_cons, List.getD_cons_succ]
      omega

theorem lookup_eq_none_iff (t : HashTableOA K V) (k : K) :
    lookup t k = none ↔ ∀ v, ¬ holds t k v := by
  unfold lookup holds
  simp only [Option.map_eq_none', List.find?_eq_none, decide_eq_true_eq, not_and, not_exists]
  constructor
  · intro h v j hj ho hk _
    exact h _ (getD_mem_of_lt _ _ _ hj) ho hk
  · intro h s hs ho hk
    obtain ⟨j, hj, rfl⟩ := (mem_iff_getD t.table fresh s).mp hs
    exact h _ j hj ho hk rfl

theorem lookup_holds (t : HashTableOA K V) (k : K) (v : V) (h : lookup t k = some v) :
    holds t k v := by
  unfold lookup at h
  obtain ⟨s, hs, hv⟩ := Option.map_eq_some'.mp h
  have hm := List.mem_of_find?_eq_some hs
  have hp := List.find?_some hs
  simp only [decide_eq_true_eq] at hp
  obtain ⟨j, hj, rfl⟩ := (mem_iff_getD t.table fresh s).mp hm
  exact ⟨j, hj, hp.1, hp.2, hv⟩

theorem Inv.holds_unique {hash : K → Nat} {t : HashTableOA K V} (h : Inv hash t) (k : K)
    (v w : V) (hv : holds t k v) (hw : holds t k w) : v = w := by
  obtain ⟨i, hi, hio, hik, hiv⟩ := hv
  obtain ⟨j, hj, hjo, hjk, hjv⟩ := hw
  have := h.2.2.1 i j hi hj hio hjo (hik.trans hjk.symm)
  subst this
  exact hiv.symm.trans hjv

theorem Inv.lookup_eq_some_iff {hash : K → Nat} {t : HashTableOA K V} (h : Inv hash t) (k : K)
    (v : V) : lookup t k = some v ↔ holds t k v := by
  constructor
  · exact lookup_holds t k v
  · intro hv
    cases hl : lookup t k with
    | none => exact absurd hv ((lookup_eq_none_iff t k).mp hl v)
    | some w => rw [h.holds_unique k w v (lookup_holds t k w hl) hv]

theorem mem_occupied_keys_iff (t : HashTableOA K V) (k : K) :
    k ∈ occupied_keys t ↔ ∃ v, holds t k v := by
  unfold occupied_keys holds
  simp only [List.mem_map, List.mem_filter, decide_eq_true_eq]
  constructor
  · rintro ⟨s, ⟨hs, ho⟩, hk⟩
    obtain ⟨j, hj, rfl⟩ := (mem_iff_getD t.table fresh s).mp hs
    exact ⟨_, j, hj, ho, hk, rfl⟩
  · rintro ⟨v, j, hj, ho, hk, _⟩
    exact ⟨_, ⟨getD_mem_of_lt _ _ _ hj, ho⟩, hk⟩

theorem mem_occupied_keys_iff_lookup (t : HashTableOA K V) (k : K) :
    k ∈ occupied_keys t ↔ (lookup t k).isSome = true := by
  rw [mem_occupied_keys_iff]
  constructor
  · rintro ⟨v, hv⟩
    cases hl : lookup t k with
    | none => exact absurd hv ((lookup_eq_none_iff t k).mp hl v)
    | some w => rfl
  · intro hs
    obtain ⟨v, hv⟩ := Option.isSome_iff_exists.mp hs
    exact ⟨v, lookup_holds t k v hv⟩

theorem nodup_filter_map_of_index {α β : Type} (l : List α) (d : α) (p : α → Bool) (f : α → β)
    (h : ∀ i j, i < l.length → j < l.length → p (l.getD i d) = true → p (l.getD j d) = true →
      f (l.getD i d) = f (l.getD j d) → i = j) :
    ((l.filter p).map f).Nodup := by
  induction l with
  | nil => simp
  | cons a l ih =>
    have hl : ((l.filter p).map f).Nodup := by
      apply ih
      intro i j hi hj hpi hpj hf
      have := h (i + 1) (j + 1) (by simpa using hi) (by simpa using hj)
        (by simpa using hpi) (by simpa using hpj) (by simpa using hf)
      omega
    by_cases hp : p a = true
    · rw [List.filter_cons_of_pos hp, List.map_cons, List.nodup_cons]
      refine ⟨?_, hl⟩
      intro hm
      obtain ⟨b, hb, hfb⟩ := List.mem_map.mp hm
      obtain ⟨hb1, hb2⟩ := List.mem_filter.mp hb
      obtain ⟨j, hj, rfl⟩ := (mem_iff_getD l d b).mp hb1
      have := h 0 (j + 1) (by simp) (by simpa using hj) (by simpa using hp)
        (by simpa using hb2) (by simpa using hfb.symm)
      omega
    · rw [List.filter_cons_of_neg hp]
      exact hl

theorem Inv.occupied_keys_nodup {hash : K → Nat} {t : HashTableOA K V} (h : Inv hash t) :
    (occupied_keys t).Nodup := by
  unfold occupied_keys
  apply nodup_filter_map_of_index t.table fresh
  intro i j hi hj hpi hpj hf
  simp only [decide_eq_true_eq] at hpi hpj
  exact h.2.2.1 i j hi hj hpi hpj hf

theorem occupied_count_eq_length (t : HashTableOA K V) :
    occupied_count t = (occupied_keys t).length := by
  unfold occupied_count occupied_keys
  rw [List.countP_eq_length_filter, List.length_map]

/-! ### Writing one slot -/

theorem getD_set_ite {α : Type} (l : List α) (i j : Nat) (a d : α) (h : i < l.length) :
    (l.set i a).getD j d = if j = i then a else l.getD j d := by
  by_cases hij : j = i
  · subst hij; rw [if_pos rfl]; exact getD_set_self l j a d h
  · rw [if_neg hij]; exact getD_set_other l i j a d (fun e => hij e.symm)

theorem Inv_set {hash : K → Nat} {t : HashTableOA K V} (h : Inv hash t) (i : Nat)
    (hi : i < t.table.length) (s : Slot K V) (sz : Nat)
    (hne : s.state ≠ SlotState.EMPTY)
    (hocc : s.state = SlotState.OCCUPIED →
      (∀ j, j < t.table.length → j ≠ i →
        (t.table.getD j fresh).state = SlotState.OCCUPIED → (t.table.getD j fresh).key ≠ s.key) ∧
      (∀ d, d < t.table.length → probe t.table.length (hash s.key % t.table.length) d = i →
        ∀ e, e < d →
          (t.table.getD (probe t.table.length (hash s.key % t.table.length) e) fresh).state
            ≠ SlotState.EMPTY))
    (hsz : sz + (if (t.table.getD i fresh).state = SlotState.OCCUPIED then 1 else 0) =
      t.current_size + (if s.state = SlotState.OCCUPIED then 1 else 0)) :
    Inv hash { table := t.table.set i s, current_size := sz } := by
  obtain ⟨hpos, hcount, hdist, hchain⟩ := h
  refine ⟨?_, ?_, ?_, ?_⟩
  · simpa using hpos
  · have := countP_set (fun s : Slot K V => decide (s.state = SlotState.OCCUPIED)) t.table i s
      fresh hi
    unfold occupied_count at hcount ⊢
    simp only [decide_eq_true_eq] at this
    simp only
    omega
  · intro a b ha hb hao hbo hk
    simp only [List.length_set] at ha hb
    simp only [getD_set_ite _ _ _ _ _ hi] at hao hbo hk
    by_cases hai : a = i
    · by_cases hbi : b = i
      · rw [hai, hbi]
      · rw [if_pos hai] at hao hk
        rw [if_neg hbi] at hbo hk
        exact absurd hk.symm ((hocc hao).1 b hb hbi hbo)
    · by_cases hbi : b = i
      · rw [if_neg hai] at hao hk
        rw [if_pos hbi] at hbo hk
        exact absurd hk ((hocc hbo).1 a ha hai hao)
      · rw [if_neg hai] at hao hk
        rw [if_neg hbi] at hbo hk
        exact hdist a b ha hb hao hbo hk
  · intro k d hd ho hk e he
    simp only [List.length_set] at hd ho hk ⊢
    simp only [getD_set_ite _ _ _ _ _ hi] at ho hk ⊢
    have hold : (t.table.getD (probe t.table.length (hash k % t.table.length) e) fresh).state
        ≠ SlotState.EMPTY := by
      by_cases hdi : probe t.table.length (hash k % t.table.length) d = i
      · rw [if_pos hdi] at ho hk
        subst hk
        exact (hocc ho).2 d hd hdi e he
      · rw [if_neg hdi] at ho hk
        exact hchain k d hd ho hk e he
    split
    · exact hne
    · exact hold

/-! ### `place`: the steps of `insert` after the growth test -/

theorem place_eq (hash : K → Nat) (t : HashTableOA K V) (k : K) (v : V) :
    place hash t k v =
      match find_slot hash t k with
      | .error e => (t, .error e)
      | .ok index =>
        ({ table := t.table.set index { key := k, value := v, state := SlotState.OCCUPIED },
           current_size :=
             if (t.table.getD index fresh).state ≠ SlotState.OCCUPIED then t.current_size + 1
             else t.current_size }, .ok ()) := by
  simp only [place, insert_with, Bool.false_eq_true, if_false]

theorem insert_with_eq (over : Nat → Nat → Bool) (hash : K → Nat)
    (resize : HashTableOA K V → HashTableOA K V × Except Fault Unit)
    (t : HashTableOA K V) (k : K) (v : V) :
    insert_with over hash resize t k v =
      if over t.current_size t.table.length then
        match resize t with
        | (t1, .error e) => (t1, .error e)
        | (t1, .ok _) => place hash t1 k v
      else place hash t k v := by
  unfold place
  by_cases ho : over t.current_size t.table.length = true
  · simp only [insert_with, ho, if_true, Bool.false_eq_true, if_false]
  · simp only [insert_with, ho, if_false, Bool.false_eq_true]

theorem place_error (hash : K → Nat) (t : HashTableOA K V) (k : K) (v : V) (e : Fault)
    (h : find_slot hash t k = .error e) : place hash t k v = (t, .error e) := by
  rw [place_eq, h]

theorem place_ok (hash : K → Nat) (t : HashTableOA K V) (k : K) (v : V) (i : Nat)
    (h : find_slot hash t k = .ok i) :
    place hash t k v =
      ({ table := t.table.set i { key := k, value := v, state := SlotState.OCCUPIED },
         current_size :=
           if (t.table.getD i fresh).state ≠ SlotState.OCCUPIED then t.current_size + 1
           else t.current_size }, .ok ()) := by
  rw [place_eq, h]

theorem place_length (hash : K → Nat) (t : HashTableOA K V) (k : K) (v : V) :
    (place hash t k v).1.table.length = t.table.length := by
  cases hf : find_slot hash t k with
  | error e => rw [place_error hash t k v e hf]
  | ok i => rw [place_ok hash t k v i hf]; simp

theorem Inv.place {hash : K → Nat} {t : HashTableOA K V} (h : Inv hash t) (k : K) (v : V) :
    Inv hash (place hash t k v).1 := by
  cases hf : find_slot hash t k with
  | error e => rw [place_error hash t k v e hf]; exact h
  | ok i =>
    rw [place_ok hash t k v i hf]
    obtain ⟨d, hd, hid, hstop, hbefore⟩ := find_slot_ok_spec hash t k i h.1 hf
    have hi : i < t.table.length := find_slot_ok_lt hash t k i h.1 hf
    refine Inv_set h i hi _ _ (by simp) ?_ ?_
    · intro _
      refine ⟨?_, ?_⟩
      · intro j hj hji hjo hjk
        have := h.find_slot_found j k hj hjo hjk
        rw [hf] at this
        injection this with this
        exact hji this.symm
      · intro d' hd' hp e he hem
        simp only at hp
        rw [hid] at hp
        have := probe_inj _ _ _ _ (Nat.mod_lt _ h.1) hd' hd hp
        subst this
        exact hbefore e he (Or.inl hem)
    · simp only [if_true]
      split <;> simp_all

theorem Inv.holds_place {hash : K → Nat} {t : HashTableOA K V} (h : Inv hash t) (k : K) (v : V)
    (hok : (HashTableOA.place hash t k v).2 = .ok ()) (k' : K) (w : V) :
    holds (HashTableOA.place hash t k v).1 k' w ↔
      (k' = k ∧ w = v) ∨ (k' ≠ k ∧ holds t k' w) := by
  cases hf : find_slot hash t k with
  | error e => rw [place_error hash t k v e hf] at hok; cases hok
  | ok i =>
    rw [place_ok hash t k v i hf]
    obtain ⟨d, hd, hid, hstop, hbefore⟩ := find_slot_ok_spec hash t k i h.1 hf
    have hi : i < t.table.length := find_slot_ok_lt hash t k i h.1 hf
    unfold holds
    simp only [List.length_set, getD_set_ite _ _ _ _ _ hi]
    constructor
    · rintro ⟨j, hj, hjo, hjk, hjv⟩
      by_cases hji : j = i
      · rw [if_pos hji] at hjk hjv
        exact Or.inl ⟨hjk.symm, hjv.symm⟩
      · rw [if_neg hji] at hjo hjk hjv
        right
        refine ⟨?_, j, hj, hjo, hjk, hjv⟩
        intro hk
        have := h.find_slot_found j k hj hjo (hjk.trans hk)
        rw [hf] at this
        injection this with this
        exact hji this.symm
    · rintro (⟨hk, hw⟩ | ⟨hk, j, hj, hjo, hjk, hjv⟩)
      · exact ⟨i, hi, by simp, by simp [hk], by simp [hw]⟩
      · have hji : j ≠ i := by
          intro e
          subst e
          rcases hstop with hs | hs
          · rw [hs] at hjo; cases hjo
          · exact hk (hjk.symm.trans hs.2)
        exact ⟨j, hj, by rw [if_neg hji]; exact hjo, by rw [if_neg hji]; exact hjk,
          by rw [if_neg hji]; exact hjv⟩

/-! ### `search` and `remove` -/

theorem search_error_of (hash : K → Nat) (t : HashTableOA K V) (k : K) (e : Fault)
    (h : find_slot hash t k = .error e) : search hash t k = .error e := by
  simp only [search, h]

theorem search_ok_of (hash : K → Nat) (t : HashTableOA K V) (k : K) (i : Nat)
    (h : find_slot hash t k = .ok i) :
    search hash t k =
      if (t.table.getD i fresh).state = SlotState.OCCUPIED ∧ (t.table.getD i fresh).key = k
      then .ok (some (t.table.getD i fresh).value) else .ok none := by
  simp only [search, h]

theorem Inv.search_of_holds {hash : K → Nat} {t : HashTableOA K V} (h : Inv hash t) (k : K)
    (v : V) (hv : holds t k v) : search hash t k = .ok (some v) := by
  obtain ⟨j, hj, hjo, hjk, hjv⟩ := hv
  rw [search_ok_of hash t k j (h.find_slot_found j k hj hjo hjk), if_pos ⟨hjo, hjk⟩, hjv]

theorem search_some_holds (hash : K → Nat) (t : HashTableOA K V) (k : K) (v : V)
    (hpos : 0 < t.table.length) (h : search hash t k = .ok (some v)) : holds t k v := by
  cases hf : find_slot hash t k with
  | error e => rw [search_error_of hash t k e hf] at h; cases h
  | ok i =>
    rw [search_ok_of hash t k i hf] at h
    split at h
    · rename_i hc
      injection h with h
      injection h with h
      exact ⟨i, find_slot_ok_lt hash t k i hpos hf, hc.1, hc.2, h⟩
    · injection h with h
      cases h

theorem Inv.search_none {hash : K → Nat} {t : HashTableOA K V} (h : Inv hash t) (k : K)
    (hs : search hash t k = .ok none) : ∀ v, ¬ holds t k v := by
  intro v hv
  rw [h.search_of_holds k v hv] at hs
  injection hs with hs
  cases hs

theorem search_error_spec (hash : K → Nat) (t : HashTableOA K V) (k : K) (e : Fault)
    (hpos : 0 < t.table.length) (h : search hash t k = .error e) :
    e = Fault.table_full ∧ (∀ j, j < t.table.length → ¬ stops k (t.table.getD j fresh)) := by
  cases hf : find_slot hash t k with
  | error e' =>
    rw [search_error_of hash t k e' hf] at h
    injection h with h
    subst h
    exact find_slot_error_spec hash t k e' hpos hf
  | ok i =>
    rw [search_ok_of hash t k i hf] at h
    split at h <;> cases h

theorem not_holds_of_not_stops (t : HashTableOA K V) (k : K)
    (h : ∀ j, j < t.table.length → ¬ stops k (t.table.getD j fresh)) : ∀ v, ¬ holds t k v := by
  rintro v ⟨j, hj, hjo, hjk, _⟩
  exact h j hj (Or.inr ⟨hjo, hjk⟩)

theorem not_empty_of_not_stops (t : HashTableOA K V) (k : K)
    (h : ∀ j, j < t.table.length → ¬ stops k (t.table.getD j fresh)) : has_empty t = false := by
  unfold has_empty
  rw [Bool.eq_false_iff]
  intro hany
  obtain ⟨s, hs, he⟩ := List.any_eq_true.mp hany
  obtain ⟨j, hj, rfl⟩ := (mem_iff_getD t.table fresh s).mp hs
  exact h j hj (Or.inl (by simpa using he))

theorem has_empty_iff (t : HashTableOA K V) :
    has_empty t = true ↔
      ∃ j, j < t.table.length ∧ (t.table.getD j fresh).state = SlotState.EMPTY := by
  unfold has_empty
  rw [List.any_eq_true]
  constructor
  · rintro ⟨s, hs, he⟩
    obtain ⟨j, hj, rfl⟩ := (mem_iff_getD t.table fresh s).mp hs
    exact ⟨j, hj, by simpa using he⟩
  · rintro ⟨j, hj, he⟩
    exact ⟨_, getD_mem_of_lt _ _ _ hj, by simpa using he⟩

theorem remove_error_of (hash : K → Nat) (t : HashTableOA K V) (k : K) (e : Fault)
    (h : find_slot hash t k = .error e) : remove hash t k = (t, .error e) := by
  simp only [remove, h]

theorem remove_hit_of (hash : K → Nat) (t : HashTableOA K V) (k : K) (i : Nat)
    (h : find_slot hash t k = .ok i)
    (hc : (t.table.getD i fresh).state = SlotState.OCCUPIED ∧ (t.table.getD i fresh).key = k) :
    remove hash t k =
      ({ table := t.table.set i
            { key := (t.table.getD i fresh).key, value := (t.table.getD i fresh).value,
              state := SlotState.DELETED },
         current_size := t.current_size - 1 }, .ok true) := by
  simp only [remove, h, hc, and_self, if_true]

theorem remove_miss_of (hash : K → Nat) (t : HashTableOA K V) (k : K) (i : Nat)
    (h : find_slot hash t k = .ok i)
    (hc : ¬ ((t.table.getD i fresh).state = SlotState.OCCUPIED ∧ (t.table.getD i fresh).key = k)) :
    remove hash t k = (t, .ok false) := by
  simp only [remove, h, hc, if_false]

theorem remove_length (hash : K → Nat) (t : HashTableOA K V) (k : K) :
    (remove hash t k).1.table.length = t.table.length := by
  cases hf : find_slot hash t k with
  | error e => rw [remove_error_of hash t k e hf]
  | ok i =>
    by_cases hc : (t.table.getD i fresh).state = SlotState.OCCUPIED ∧
        (t.table.getD i fresh).key = k
    · rw [remove_hit_of hash t k i hf hc]; simp
    · rw [remove_miss_of hash t k i hf hc]

theorem remove_unchanged (hash : K → Nat) (t : HashTableOA K V) (k : K)
    (h : (remove hash t k).2 ≠ .ok true) : (remove hash t k).1 = t := by
  cases hf : find_slot hash t k with
  | error e => rw [remove_error_of hash t k e hf]
  | ok i =>
    by_cases hc : (t.table.getD i fresh).state = SlotState.OCCUPIED ∧
        (t.table.getD i fresh).key = k
    · rw [remove_hit_of hash t k i hf hc] at h; exact absurd rfl h
    · rw [remove_miss_of hash t k i hf hc]

theorem occupied_count_pos (t : HashTableOA K V) (i : Nat) (hi : i < t.table.length)
    (ho : (t.table.getD i fresh).state = SlotState.OCCUPIED) : 0 < occupied_count t := by
  unfold occupied_count
  rw [List.countP_pos_iff]
  exact ⟨_, getD_mem_of_lt _ _ _ hi, by simpa using ho⟩

theorem Inv.inv_remove {hash : K → Nat} {t : HashTableOA K V} (h : Inv hash t) (k : K) :
    Inv hash (remove hash t k).1 := by
  cases hf : find_slot hash t k with
  | error e => rw [remove_error_of hash t k e hf]; exact h
  | ok i =>
    by_cases hc : (t.table.getD i fresh).state = SlotState.OCCUPIED ∧
        (t.table.getD i fresh).key = k
    · rw [remove_hit_of hash t k i hf hc]
      have hi : i < t.table.length := find_slot_ok_lt hash t k i h.1 hf
      refine Inv_set h i hi _ _ (by simp) (by simp) ?_
      have := occupied_count_pos t i hi hc.1
      have h2 := h.2.1
      simp only [hc.1, if_true]
      simp only [reduceCtorEq, if_false]
      omega
    · rw [remove_miss_of hash t k i hf hc]; exact h

theorem Inv.remove_of_holds {hash : K → Nat} {t : HashTableOA K V} (h : Inv hash t) (k : K)
    (v : V) (hv : holds t k v) : (HashTableOA.remove hash t k).2 = .ok true := by
  obtain ⟨j, hj, hjo, hjk, hjv⟩ := hv
  rw [remove_hit_of hash t k j (h.find_slot_found j k hj hjo hjk) ⟨hjo, hjk⟩]

theorem remove_true_holds (hash : K → Nat) (t : HashTableOA K V) (k : K)
    (hpos : 0 < t.table.length) (h : (remove hash t k).2 = .ok true) : ∃ v, holds t k v := by
  cases hf : find_slot hash t k with
  | error e => rw [remove_error_of hash t k e hf] at h; cases h
  | ok i =>
    by_cases hc : (t.table.getD i fresh).state = SlotState.OCCUPIED ∧
        (t.table.getD i fresh).key = k
    · exact ⟨_, i, find_slot_ok_lt hash t k i hpos hf, hc.1, hc.2, rfl⟩
    · rw [remove_miss_of hash t k i hf hc] at h
      injection h with h
      cases h

theorem remove_error_spec (hash : K → Nat) (t : HashTableOA K V) (k : K) (e : Fault)
    (hpos : 0 < t.table.length) (h : (remove hash t k).2 = .error e) :
    e = Fault.table_full ∧ (∀ j, j < t.table.length → ¬ stops k (t.table.getD j fresh)) := by
  cases hf : find_slot hash t k with
  | error e' =>
    rw [remove_error_of hash t k e' hf] at h
    injection h with h
    subst h
    exact find_slot_error_spec hash t k e' hpos hf
  | ok i =>
    by_cases hc : (t.table.getD i fresh).state = SlotState.OCCUPIED ∧
        (t.table.getD i fresh).key = k
    · rw [remove_hit_of hash t k i hf hc] at h; cases h
    · rw [remove_miss_of hash t k i hf hc] at h; cases h

theorem Inv.holds_remove {hash : K → Nat} {t : HashTableOA K V} (h : Inv hash t) (k : K)
    (hok : (HashTableOA.remove hash t k).2 = .ok true) (k' : K) (w : V) :
    holds (HashTableOA.remove hash t k).1 k' w ↔ k' ≠ k ∧ holds t k' w := by
  cases hf : find_slot hash t k with
  | error e => rw [remove_error_of hash t k e hf] at hok; cases hok
  | ok i =>
    by_cases hc : (t.table.getD i fresh).state = SlotState.OCCUPIED ∧
        (t.table.getD i fresh).key = k
    · rw [remove_hit_of hash t k i hf hc]
      have hi : i < t.table.length := find_slot_ok_lt hash t k i h.1 hf
      unfold holds
      simp only [List.length_set, getD_set_ite _ _ _ _ _ hi]
      constructor
      · rintro ⟨j, hj, hjo, hjk, hjv⟩
        by_cases hji : j = i
        · rw [if_pos hji] at hjo; cases hjo
        · rw [if_neg hji] at hjo hjk hjv
          refine ⟨?_, j, hj, hjo, hjk, hjv⟩
          intro hk
          exact hji (h.2.2.1 j i hj hi hjo hc.1 (hjk.trans (hk.trans hc.2.symm)))
      · rintro ⟨hk, j, hj, hjo, hjk, hjv⟩
        have hji : j ≠ i := by
          intro e
          subst e
          exact hk (hjk.symm.trans hc.2)
        exact ⟨j, hj, by rw [if_neg hji]; exact hjo, by rw [if_neg hji]; exact hjk,
          by rw [if_neg hji]; exact hjv⟩
    · rw [remove_miss_of hash t k i hf hc] at hok
      injection hok with hok
      cases hok

/-! ### Growth and `insert` -/

theorem getD_replicate_fresh (n i : Nat) :
    (List.replicate n (fresh : Slot K V)).getD i fresh = fresh :=
  getD_replicate_same n i fresh

theorem Inv_fresh (hash : K → Nat) (n : Nat) (hn : 0 < n) :
    Inv hash ({ table := List.replicate n fresh, current_size := 0 } : HashTableOA K V) := by
  refine ⟨by simpa using hn, ?_, ?_, ?_⟩
  · unfold occupied_count
    simp only
    symm
    rw [List.countP_eq_zero]
    intro s hs
    rw [List.eq_of_mem_replicate hs]
    simp [fresh]
  · intro i j _ _ hio
    simp only [getD_replicate_fresh] at hio
    simp [fresh] at hio
  · intro k d _ ho
    simp only [getD_replicate_fresh] at ho
    simp [fresh] at ho

theorem not_holds_fresh (n : Nat) (k : K) (v : V) :
    ¬ holds ({ table := List.replicate n fresh, current_size := 0 } : HashTableOA K V) k v := by
  rintro ⟨j, _, hjo, _⟩
  simp only [getD_replicate_fresh] at hjo
  simp [fresh] at hjo

theorem Inv_new (hash : K → Nat) (initial_capacity : Nat) :
    Inv hash (new initial_capacity : HashTableOA K V) := by
  unfold new
  exact Inv_fresh hash _ (by split <;> omega)

theorem rehash_loop_nil (ins : HashTableOA K V → K → V → HashTableOA K V × Except Fault Unit)
    (t : HashTableOA K V) : rehash_loop ins [] t = (t, .ok ()) := rfl

theorem rehash_loop_skip (ins : HashTableOA K V → K → V → HashTableOA K V × Except Fault Unit)
    (s : Slot K V) (rest : List (Slot K V)) (t : HashTableOA K V)
    (hs : s.state ≠ SlotState.OCCUPIED) :
    rehash_loop ins (s :: rest) t = rehash_loop ins rest t := by
  simp only [rehash_loop, hs, if_false]

theorem rehash_loop_ok (ins : HashTableOA K V → K → V → HashTableOA K V × Except Fault Unit)
    (s : Slot K V) (rest : List (Slot K V)) (t : HashTableOA K V)
    (hs : s.state = SlotState.OCCUPIED) (hr : (ins t s.key s.value).2 = .ok ()) :
    rehash_loop ins (s :: rest) t = rehash_loop ins rest (ins t s.key s.value).1 := by
  rcases hi : ins t s.key s.value with ⟨t1, r⟩
  rw [hi] at hr
  simp only at hr
  subst hr
  simp only [rehash_loop, hs, if_true, hi]

theorem rehash_loop_error (ins : HashTableOA K V → K → V → HashTableOA K V × Except Fault Unit)
    (s : Slot K V) (rest : List (Slot K V)) (t : HashTableOA K V)
    (hs : s.state = SlotState.OCCUPIED) (e : Fault) (hr : (ins t s.key s.value).2 = .error e) :
    rehash_loop ins (s :: rest) t = ((ins t s.key s.value).1, .error e) := by
  rcases hi : ins t s.key s.value with ⟨t1, r⟩
  rw [hi] at hr
  simp only at hr
  subst hr
  simp only [rehash_loop, hs, if_true, hi]

theorem result_cases (r : Except Fault Unit) : r = .ok () ∨ ∃ e, r = .error e := by
  cases r with
  | ok u => left; rfl
  | error e => right; exact ⟨e, rfl⟩

theorem rehash_loop_Inv {hash : K → Nat}
    (ins : HashTableOA K V → K → V → HashTableOA K V × Except Fault Unit)
    (hins : ∀ t k v, Inv hash t → Inv hash (ins t k v).1)
    (slots : List (Slot K V)) (t : HashTableOA K V) (h : Inv hash t) :
    Inv hash (rehash_loop ins slots t).1 := by
  induction slots generalizing t with
  | nil => exact h
  | cons s rest ih =>
    by_cases hs : s.state = SlotState.OCCUPIED
    · rcases result_cases (ins t s.key s.value).2 with hr | ⟨e, hr⟩
      · rw [rehash_loop_ok ins s rest t hs hr]
        exact ih _ (hins t _ _ h)
      · rw [rehash_loop_error ins s rest t hs e hr]
        exact hins t _ _ h
    · rw [rehash_loop_skip ins s rest t hs]
      exact ih t h

theorem resize_with_Inv {hash : K → Nat}
    (ins : HashTableOA K V → K → V → HashTableOA K V × Except Fault Unit)
    (hins : ∀ t k v, Inv hash t → Inv hash (ins t k v).1)
    (t : HashTableOA K V) (h : Inv hash t) :
    Inv hash (resize_and_rehash_with ins t).1 := by
  unfold resize_and_rehash_with
  exact rehash_loop_Inv ins hins _ _ (Inv_fresh hash _ (by have := h.1; omega))

theorem insert_with_Inv {hash : K → Nat} (over : Nat → Nat → Bool)
    (resize : HashTableOA K V → HashTableOA K V × Except Fault Unit)
    (hres : ∀ t, Inv hash t → Inv hash (resize t).1)
    (t : HashTableOA K V) (k : K) (v : V) (h : Inv hash t) :
    Inv hash (insert_with over hash resize t k v).1 := by
  rw [insert_with_eq]
  split
  · have := hres t h
    rcases hr : resize t with ⟨t1, r⟩
    rw [hr] at this
    cases r with
    | error e => exact this
    | ok u => exact Inv.place this k v
  · exact h.place k v

theorem insert_depth_Inv {hash : K → Nat} (over : Nat → Nat → Bool) (depth : Nat)
    (t : HashTableOA K V) (k : K) (v : V) (h : Inv hash t) :
    Inv hash (insert_depth over hash depth t k v).1 := by
  induction depth generalizing t k v with
  | zero => exact h
  | succ n ih =>
    exact insert_with_Inv over _ (fun t ht => resize_with_Inv _ (fun t k v ht => ih t k v ht) t ht)
      t k v h

theorem Inv.inv_insert {hash : K → Nat} {t : HashTableOA K V} (h : Inv hash t)
    (over : Nat → Nat → Bool) (k : K) (v : V) : Inv hash (insert over hash t k v).1 :=
  insert_depth_Inv over 2 t k v h

theorem rehash_loop_holds {hash : K → Nat}
    (ins : HashTableOA K V → K → V → HashTableOA K V × Except Fault Unit)
    (hinv : ∀ t k v, Inv hash t → Inv hash (ins t k v).1)
    (hins : ∀ t k v, Inv hash t → (ins t k v).2 = .ok () → ∀ k' w,
      (holds (ins t k v).1 k' w ↔ (k' = k ∧ w = v) ∨ (k' ≠ k ∧ holds t k' w)))
    (slots : List (Slot K V))
    (hnd : ((slots.filter (fun s => decide (s.state = SlotState.OCCUPIED))).map Slot.key).Nodup)
    (t : HashTableOA K V) (h : Inv hash t) (hok : (rehash_loop ins slots t).2 = .ok ())
    (k' : K) (w : V) :
    holds (rehash_loop ins slots t).1 k' w ↔
      (∃ s ∈ slots, s.state = SlotState.OCCUPIED ∧ s.key = k' ∧ s.value = w) ∨
      ((∀ s ∈ slots, s.state = SlotState.OCCUPIED → s.key ≠ k') ∧ holds t k' w) := by
  induction slots generalizing t with
  | nil => simp [rehash_loop_nil]
  | cons s rest ih =>
    by_cases hs : s.state = SlotState.OCCUPIED
    · rw [List.filter_cons_of_pos (by simpa using hs), List.map_cons, List.nodup_cons] at hnd
      rcases result_cases (ins t s.key s.value).2 with hr | ⟨e, hr⟩
      · rw [rehash_loop_ok ins s rest t hs hr] at hok ⊢
        rw [ih hnd.2 _ (hinv t _ _ h) hok, hins t _ _ h hr]
        have hfresh : ∀ s' ∈ rest, s'.state = SlotState.OCCUPIED → s'.key ≠ s.key := by
          intro s' hs' ho he
          apply hnd.1
          rw [← he]
          exact List.mem_map.mpr ⟨s', List.mem_filter.mpr ⟨hs', by simpa using ho⟩, rfl⟩
        constructor
        · rintro (⟨s', hs', h1⟩ | ⟨hno, (⟨hk, hw⟩ | ⟨hk, hh⟩)⟩)
          · exact Or.inl ⟨s', List.mem_cons_of_mem _ hs', h1⟩
          · exact Or.inl ⟨s, List.mem_cons_self _ _, hs, hk.symm, hw.symm⟩
          · right
            refine ⟨?_, hh⟩
            intro s' hs' ho
            rcases List.mem_cons.mp hs' with rfl | hs'
            · exact fun e => hk e.symm
            · exact hno s' hs' ho
        · rintro (⟨s', hs', h1⟩ | ⟨hno, hh⟩)
          · rcases List.mem_cons.mp hs' with rfl | hs'
            · by_cases hex : ∃ s'' ∈ rest, s''.state = SlotState.OCCUPIED ∧ s''.key = k' ∧
                  s''.value = w
              · exact Or.inl hex
              · right
                refine ⟨?_, Or.inl ⟨h1.2.1.symm, h1.2.2.symm⟩⟩
                intro s'' hs'' ho he
                exact hfresh s'' hs'' ho (he.trans h1.2.1.symm)
            · exact Or.inl ⟨s', hs', h1⟩
          · right
            refine ⟨fun s' hs' => hno s' (List.mem_cons_of_mem _ hs'), Or.inr ⟨?_, hh⟩⟩
            exact fun e => hno s (List.mem_cons_self _ _) hs e.symm
      · rw [rehash_loop_error ins s rest t hs e hr] at hok
        cases hok
    · rw [List.filter_cons_of_neg (by simpa using hs)] at hnd
      rw [rehash_loop_skip ins s rest t hs] at hok ⊢
      rw [ih hnd t h hok]
      constructor
      · rintro (⟨s', hs', h1⟩ | ⟨hno, hh⟩)
        · exact Or.inl ⟨s', List.mem_cons_of_mem _ hs', h1⟩
        · right
          refine ⟨?_, hh⟩
          intro s' hs' ho
          rcases List.mem_cons.mp hs' with rfl | hs'
          · exact absurd ho hs
          · exact hno s' hs' ho
      · rintro (⟨s', hs', h1⟩ | ⟨hno, hh⟩)
        · rcases List.mem_cons.mp hs' with rfl | hs'
          · exact absurd h1.1 hs
          · exact Or.inl ⟨s', hs', h1⟩
        · exact Or.inr ⟨fun s' hs' => hno s' (List.mem_cons_of_mem _ hs'), hh⟩

theorem holds_iff_mem (t : HashTableOA K V) (k : K) (v : V) :
    holds t k v ↔ ∃ s ∈ t.table, s.state = SlotState.OCCUPIED ∧ s.key = k ∧ s.value = v := by
  unfold holds
  constructor
  · rintro ⟨j, hj, h⟩
    exact ⟨_, getD_mem_of_lt _ _ _ hj, h⟩
  · rintro ⟨s, hs, h⟩
    obtain ⟨j, hj, rfl⟩ := (mem_iff_getD t.table fresh s).mp hs
    exact ⟨j, hj, h⟩

theorem resize_with_holds {hash : K → Nat}
    (ins : HashTableOA K V → K → V → HashTableOA K V × Except Fault Unit)
    (hinv : ∀ t k v, Inv hash t → Inv hash (ins t k v).1)
    (hins : ∀ t k v, Inv hash t → (ins t k v).2 = .ok () → ∀ k' w,
      (holds (ins t k v).1 k' w ↔ (k' = k ∧ w = v) ∨ (k' ≠ k ∧ holds t k' w)))
    (t : HashTableOA K V) (h : Inv hash t) (hok : (resize_and_rehash_with ins t).2 = .ok ())
    (k' : K) (w : V) :
    holds (resize_and_rehash_with ins t).1 k' w ↔ holds t k' w := by
  unfold resize_and_rehash_with at hok ⊢
  simp only at hok ⊢
  rw [rehash_loop_holds ins hinv hins t.table h.occupied_keys_nodup _
    (Inv_fresh hash _ (by have := h.1; omega)) hok, holds_iff_mem t k' w]
  constructor
  · rintro (h1 | ⟨_, h2⟩)
    · exact h1
    · exact absurd h2 (not_holds_fresh _ _ _)
  · intro h1; exact Or.inl h1

theorem insert_depth_holds {hash : K → Nat} (over : Nat → Nat → Bool) (depth : Nat)
    (t : HashTableOA K V) (k : K) (v : V) (h : Inv hash t)
    (hok : (insert_depth over hash depth t k v).2 = .ok ()) (k' : K) (w : V) :
    holds (insert_depth over hash depth t k v).1 k' w ↔
      (k' = k ∧ w = v) ∨ (k' ≠ k ∧ holds t k' w) := by
  induction depth generalizing t k v k' w with
  | zero => simp [insert_depth] at hok
  | succ n ih =>
    simp only [insert_depth] at hok ⊢
    rw [insert_with_eq] at hok ⊢
    split at hok
    · rename_i hov
      rw [if_pos hov]
      have hI := resize_with_Inv (insert_depth over hash n)
        (fun t k v ht => insert_depth_Inv over n t k v ht) t h
      have hH := resize_with_holds (insert_depth over hash n)
        (fun t k v ht => insert_depth_Inv over n t k v ht)
        (fun t k v ht hok k' w => ih t k v ht hok k' w) t h
      rcases hr : resize_and_rehash_with (insert_depth over hash n) t with ⟨t1, r⟩
      rw [hr] at hok hI hH
      cases r with
      | error e => cases hok
      | ok u =>
        simp only at hok hI hH ⊢
        rw [hI.holds_place k v hok, hH trivial]
    · rename_i hov
      rw [if_neg hov]
      exact h.holds_place k v hok k' w

theorem Inv.holds_insert {hash : K → Nat} {t : HashTableOA K V} (h : Inv hash t)
    (over : Nat → Nat → Bool) (k : K) (v : V)
    (hok : (HashTableOA.insert over hash t k v).2 = .ok ()) (k' : K) (w : V) :
    holds (HashTableOA.insert over hash t k v).1 k' w ↔
      (k' = k ∧ w = v) ∨ (k' ≠ k ∧ holds t k' w) :=
  insert_depth_holds over 2 t k v h hok k' w

/-! ### Growth never fails -/

theorem load_reached_half_is_light : half_is_light load_reached := by
  intro s c h
  simp only [load_reached, decide_eq_false_iff_not]
  omega

theorem exists_empty_of_used_lt (t : HashTableOA K V) (h : used_count t < t.table.length) :
    ∃ j, j < t.table.length ∧ (t.table.getD j fresh).state = SlotState.EMPTY := by
  unfold used_count at h
  have hne : ¬ ∀ s ∈ t.table, decide (s.state ≠ SlotState.EMPTY) = true := by
    intro hall
    have := List.countP_eq_length.mpr hall
    omega
  push_neg at hne
  obtain ⟨s, hs, hp⟩ := hne
  obtain ⟨j, hj, rfl⟩ := (mem_iff_getD t.table fresh s).mp hs
  exact ⟨j, hj, by simpa using hp⟩

theorem place_ok_of_used_lt (hash : K → Nat) (t : HashTableOA K V) (k : K) (v : V)
    (h : used_count t < t.table.length) : (place hash t k v).2 = .ok () := by
  obtain ⟨j, hj, he⟩ := exists_empty_of_used_lt t h
  obtain ⟨i, hi⟩ := find_slot_of_empty hash t k j hj he
  rw [place_ok hash t k v i hi]

theorem place_used_le (hash : K → Nat) (t : HashTableOA K V) (k : K) (v : V)
    (hpos : 0 < t.table.length) :
    used_count (place hash t k v).1 ≤ used_count t + 1 := by
  cases hf : find_slot hash t k with
  | error e => rw [place_error hash t k v e hf]; exact Nat.le_succ _
  | ok i =>
    rw [place_ok hash t k v i hf]
    have hi := find_slot_ok_lt hash t k i hpos hf
    have := countP_set (fun s : Slot K V => decide (s.state ≠ SlotState.EMPTY)) t.table i
      { key := k, value := v, state := SlotState.OCCUPIED } fresh hi
    have key : ∀ a b x y : Nat, a + x = b + y → y ≤ 1 → a ≤ b + 1 := by omega
    exact key _ _ _ _ this (by split <;> omega)

theorem place_size_le (hash : K → Nat) (t : HashTableOA K V) (k : K) (v : V) :
    (place hash t k v).1.current_size ≤ t.current_size + 1 := by
  cases hf : find_slot hash t k with
  | error e => rw [place_error hash t k v e hf]; exact Nat.le_succ _
  | ok i =>
    rw [place_ok hash t k v i hf]
    simp only
    split <;> omega

theorem insert_depth_light (over : Nat → Nat → Bool) (hash : K → Nat) (n : Nat)
    (t : HashTableOA K V) (k : K) (v : V) (h : over t.current_size t.table.length = false) :
    insert_depth over hash (n + 1) t k v = place hash t k v := by
  simp only [insert_depth]
  rw [insert_with_eq, h]
  simp

theorem rehash_loop_eq_place (over : Nat → Nat → Bool) (hash : K → Nat)
    (hover : half_is_light over) (n c : Nat) (slots : List (Slot K V)) (t : HashTableOA K V)
    (hlen : t.table.length = 2 * c) (hsz : t.current_size + slots.length ≤ c) :
    rehash_loop (insert_depth over hash (n + 1)) slots t = rehash_loop (place hash) slots t := by
  induction slots generalizing t with
  | nil => rfl
  | cons s rest ih =>
    by_cases hs : s.state = SlotState.OCCUPIED
    · have hlight : over t.current_size t.table.length = false := by
        rw [hlen]
        apply hover
        simp only [List.length_cons] at hsz
        omega
      have he := insert_depth_light over hash n t s.key s.value hlight
      rcases result_cases (place hash t s.key s.value).2 with hr | ⟨e, hr⟩
      · rw [rehash_loop_ok _ s rest t hs (by rw [he]; exact hr),
          rehash_loop_ok _ s rest t hs hr, he]
        apply ih
        · rw [place_length]; exact hlen
        · have := place_size_le hash t s.key s.value
          simp only [List.length_cons] at hsz
          omega
      · rw [rehash_loop_error _ s rest t hs e (by rw [he]; exact hr),
          rehash_loop_error _ s rest t hs e hr, he]
    · rw [rehash_loop_skip _ s rest t hs, rehash_loop_skip _ s rest t hs]
      apply ih _ hlen
      simp only [List.length_cons] at hsz
      omega

theorem rehash_loop_place (hash : K → Nat) (slots : List (Slot K V)) (t : HashTableOA K V)
    (h : used_count t + slots.length < t.table.length) :
    (rehash_loop (place hash) slots t).2 = .ok () ∧
    (rehash_loop (place hash) slots t).1.table.length = t.table.length ∧
    used_count (rehash_loop (place hash) slots t).1 ≤ used_count t + slots.length := by
  induction slots generalizing t with
  | nil => simp [rehash_loop_nil]
  | cons s rest ih =>
    simp only [List.length_cons] at h ⊢
    by_cases hs : s.state = SlotState.OCCUPIED
    · have hr := place_ok_of_used_lt hash t s.key s.value (by omega)
      have hu := place_used_le hash t s.key s.value (by omega)
      have hl := place_length hash t s.key s.value
      rw [rehash_loop_ok _ s rest t hs hr]
      obtain ⟨h1, h2, h3⟩ := ih (place hash t s.key s.value).1 (by rw [hl]; omega)
      exact ⟨h1, by rw [h2, hl], by omega⟩
    · rw [rehash_loop_skip _ s rest t hs]
      obtain ⟨h1, h2, h3⟩ := ih t (by omega)
      exact ⟨h1, h2, by omega⟩

theorem used_count_fresh (n : Nat) :
    used_count ({ table := List.replicate n fresh, current_size := 0 } : HashTableOA K V) = 0 := by
  unfold used_count
  simp only
  rw [List.countP_eq_zero]
  intro s hs
  rw [List.eq_of_mem_replicate hs]
  simp [fresh]

theorem resize_with_eq_place (over : Nat → Nat → Bool) (hash : K → Nat)
    (hover : half_is_light over) (n : Nat) (t : HashTableOA K V) :
    resize_and_rehash_with (insert_depth over hash (n + 1)) t =
      resize_and_rehash_with (place hash) t := by
  unfold resize_and_rehash_with
  exact rehash_loop_eq_place over hash hover n t.table.length _ _
    (by simp [Nat.mul_comm]) (by simp)

theorem resize_with_place (hash : K → Nat) (t : HashTableOA K V) :
    (resize_and_rehash_with (place hash) t).2 = .ok () ∧
    (resize_and_rehash_with (place hash) t).1.table.length = 2 * t.table.length ∧
    used_count (resize_and_rehash_with (place hash) t).1 ≤ t.table.length := by
  unfold resize_and_rehash_with
  simp only
  by_cases hpos : 0 < t.table.length
  · obtain ⟨h1, h2, h3⟩ := rehash_loop_place hash t.table
      ({ table := List.replicate (t.table.length * 2) fresh, current_size := 0 })
      (by rw [used_count_fresh]; simp; omega)
    rw [used_count_fresh] at h3
    refine ⟨h1, ?_, by omega⟩
    rw [h2]; simp; omega
  · have h0 : t.table = [] := by
      cases h : t.table with
      | nil => rfl
      | cons a l => rw [h] at hpos; simp at hpos
    rw [h0]
    simp [rehash_loop_nil, used_count]

theorem insert_depth_eq_place (over : Nat → Nat → Bool) (hash : K → Nat)
    (hover : half_is_light over) (n : Nat) (t : HashTableOA K V) (k : K) (v : V) :
    insert_depth over hash (n + 2) t k v =
      if over t.current_size t.table.length then
        place hash (resize_and_rehash_with (place hash) t).1 k v
      else place hash t k v := by
  show insert_with over hash (resize_and_rehash_with (insert_depth over hash (n + 1))) t k v = _
  rw [insert_with_eq, resize_with_eq_place over hash hover n]
  split
  · have := (resize_with_place hash t).1
    rcases hr : resize_and_rehash_with (place hash) t with ⟨t1, r⟩
    rw [hr] at this
    simp only at this
    subst this
    rfl
  · rfl

theorem insert_eq_place (over : Nat → Nat → Bool) (hash : K → Nat)
    (hover : half_is_light over) (t : HashTableOA K V) (k : K) (v : V) :
    insert over hash t k v =
      if over t.current_size t.table.length then
        place hash (resize_and_rehash_with (place hash) t).1 k v
      else place hash t k v :=
  insert_depth_eq_place over hash hover 0 t k v

/-- The nesting depth given to `insert` is immaterial from two on. -/
theorem insert_depth_irrelevant (over : Nat → Nat → Bool) (hash : K → Nat)
    (hover : half_is_light over) (n : Nat) (t : HashTableOA K V) (k : K) (v : V) :
    insert_depth over hash (n + 2) t k v = insert over hash t k v := by
  rw [insert_depth_eq_place over hash hover n, insert_eq_place over hash hover]

theorem resize_eq_place (over : Nat → Nat → Bool) (hash : K → Nat)
    (hover : half_is_light over) (t : HashTableOA K V) :
    resize_and_rehash over hash t = resize_and_rehash_with (place hash) t :=
  resize_with_eq_place over hash hover 0 t

/-- An `insert` that throws: the fault is `table_full`, no growth took place, the table is
unchanged, and it has neither an `EMPTY` slot nor an `OCCUPIED` slot with the key. -/
theorem insert_error_spec (over : Nat → Nat → Bool) (hash : K → Nat)
    (hover : half_is_light over) (t : HashTableOA K V) (k : K) (v : V) (e : Fault)
    (hpos : 0 < t.table.length) (h : (insert over hash t k v).2 = .error e) :
    e = Fault.table_full ∧ (insert over hash t k v).1 = t ∧
      over t.current_size t.table.length = false ∧
      ∀ j, j < t.table.length → ¬ stops k (t.table.getD j fresh) := by
  rw [insert_eq_place over hash hover] at h ⊢
  split at h
  · obtain ⟨_, h2, h3⟩ := resize_with_place hash t
    rw [place_ok_of_used_lt hash _ k v (by omega)] at h
    cases h
  · rename_i hov
    rw [if_neg hov]
    cases hf : find_slot hash t k with
    | error e' =>
      rw [place_error hash t k v e' hf] at h ⊢
      injection h with h
      subst h
      obtain ⟨h1, h2⟩ := find_slot_error_spec hash t k e' hpos hf
      exact ⟨h1, rfl, by simpa using hov, h2⟩
    | ok i => rw [place_ok hash t k v i hf] at h; cases h

theorem insert_ne_bound (over : Nat → Nat → Bool) (hash : K → Nat)
    (hover : half_is_light over) (t : HashTableOA K V) (k : K) (v : V)
    (hpos : 0 < t.table.length) : (insert over hash t k v).2 ≠ .error Fault.bound := by
  intro h
  have := (insert_error_spec over hash hover t k v _ hpos h).1
  cases this

/-! ### Sizes -/

theorem Inv.size_eq_length {hash : K → Nat} {t : HashTableOA K V} (h : Inv hash t) :
    t.current_size = (occupied_keys t).length := by
  rw [h.2.1, occupied_count_eq_length]

theorem Inv.size_eq_of_keys {hash : K → Nat} {t t' : HashTableOA K V} (h : Inv hash t)
    (h' : Inv hash t') (hk : ∀ x, x ∈ occupied_keys t' ↔ x ∈ occupied_keys t) :
    t'.current_size = t.current_size := by
  rw [h.size_eq_length, h'.size_eq_length]
  exact ((List.perm_ext_iff_of_nodup h'.occupied_keys_nodup h.occupied_keys_nodup).mpr hk).length_eq

theorem Inv.size_succ_of_keys {hash : K → Nat} {t t' : HashTableOA K V} (h : Inv hash t)
    (h' : Inv hash t') (k : K) (hk : k ∉ occupied_keys t)
    (hk' : ∀ x, x ∈ occupied_keys t' ↔ x = k ∨ x ∈ occupied_keys t) :
    t'.current_size = t.current_size + 1 := by
  rw [h.size_eq_length, h'.size_eq_length]
  have hnd : (k :: occupied_keys t).Nodup := List.nodup_cons.mpr ⟨hk, h.occupied_keys_nodup⟩
  have := ((List.perm_ext_iff_of_nodup h'.occupied_keys_nodup hnd).mpr
    (fun x => by rw [hk' x, List.mem_cons])).length_eq
  simpa using this

theorem Inv.keys_insert {hash : K → Nat} {t : HashTableOA K V} (h : Inv hash t)
    (over : Nat → Nat → Bool) (k : K) (v : V)
    (hok : (HashTableOA.insert over hash t k v).2 = .ok ()) (x : K) :
    x ∈ occupied_keys (HashTableOA.insert over hash t k v).1 ↔ x = k ∨ x ∈ occupied_keys t := by
  rw [mem_occupied_keys_iff, mem_occupied_keys_iff]
  simp only [h.holds_insert over k v hok]
  constructor
  · rintro ⟨w, (⟨h1, _⟩ | ⟨_, h2⟩)⟩
    · exact Or.inl h1
    · exact Or.inr ⟨w, h2⟩
  · rintro (h1 | ⟨w, h2⟩)
    · exact ⟨v, Or.inl ⟨h1, rfl⟩⟩
    · by_cases hx : x = k
      · exact ⟨v, Or.inl ⟨hx, rfl⟩⟩
      · exact ⟨w, Or.inr ⟨hx, h2⟩⟩

theorem Inv.keys_remove {hash : K → Nat} {t : HashTableOA K V} (h : Inv hash t) (k : K)
    (hok : (HashTableOA.remove hash t k).2 = .ok true) (x : K) :
    x ∈ occupied_keys (HashTableOA.remove hash t k).1 ↔ x ≠ k ∧ x ∈ occupied_keys t := by
  rw [mem_occupied_keys_iff, mem_occupied_keys_iff]
  simp only [h.holds_remove k hok]
  constructor
  · rintro ⟨w, h1, h2⟩
    exact ⟨h1, w, h2⟩
  · rintro ⟨h1, w, h2⟩
    exact ⟨w, h1, h2⟩

theorem Inv.size_insert_new {hash : K → Nat} {t : HashTableOA K V} (h : Inv hash t)
    (over : Nat → Nat → Bool) (k : K) (v : V) (hk : k ∉ occupied_keys t)
    (hok : (HashTableOA.insert over hash t k v).2 = .ok ()) :
    (HashTableOA.insert over hash t k v).1.current_size = t.current_size + 1 :=
  h.size_succ_of_keys (h.inv_insert over k v) k hk (h.keys_insert over k v hok)

theorem Inv.size_insert_old {hash : K → Nat} {t : HashTableOA K V} (h : Inv hash t)
    (over : Nat → Nat → Bool) (k : K) (v : V) (hk : k ∈ occupied_keys t)
    (hok : (HashTableOA.insert over hash t k v).2 = .ok ()) :
    (HashTableOA.insert over hash t k v).1.current_size = t.current_size := by
  apply h.size_eq_of_keys (h.inv_insert over k v)
  intro x
  rw [h.keys_insert over k v hok]
  constructor
  · rintro (h1 | h1)
    · rw [h1]; exact hk
    · exact h1
  · exact Or.inr

theorem Inv.size_remove_true {hash : K → Nat} {t : HashTableOA K V} (h : Inv hash t) (k : K)
    (hok : (HashTableOA.remove hash t k).2 = .ok true) :
    (HashTableOA.remove hash t k).1.current_size + 1 = t.current_size := by
  have hk : k ∈ occupied_keys t :=
    (mem_occupied_keys_iff t k).mpr (remove_true_holds hash t k h.1 hok)
  have hk' : k ∉ occupied_keys (HashTableOA.remove hash t k).1 := by
    rw [h.keys_remove k hok]
    exact fun hh => hh.1 rfl
  symm
  apply (h.inv_remove k).size_succ_of_keys h k hk'
  intro x
  rw [h.keys_remove k hok]
  constructor
  · intro hx
    by_cases hxk : x = k
    · exact Or.inl hxk
    · exact Or.inr ⟨hxk, hx⟩
  · rintro (h1 | h1)
    · rw [h1]; exact hk
    · exact h1.2

/-! ### Request sequences -/

theorem Inv.step {hash : K → Nat} {t : HashTableOA K V} (h : Inv hash t)
    (over : Nat → Nat → Bool) (op : Op K V) : Inv hash (step over hash t op) := by
  cases op with
  | insert k v => exact h.inv_insert over k v
  | remove k => exact h.inv_remove k

theorem Inv_foldl (over : Nat → Nat → Bool) (hash : K → Nat) (ops : List (Op K V))
    (t : HashTableOA K V) (h : Inv hash t) : Inv hash (ops.foldl (step over hash) t) := by
  induction ops generalizing t with
  | nil => exact h
  | cons op ops ih => exact ih _ (h.step over op)

theorem Inv_run (over : Nat → Nat → Bool) (hash : K → Nat) (initial_capacity : Nat)
    (ops : List (Op K V)) : Inv hash (run over hash initial_capacity ops) :=
  Inv_foldl over hash ops _ (Inv_new hash initial_capacity)

theorem Inv.lookup_eq_of_holds {hash : K → Nat} {t : HashTableOA K V} (h : Inv hash t) (k : K)
    (o : Option V) (ho : ∀ w, holds t k w ↔ o = some w) : lookup t k = o := by
  cases o with
  | none =>
    rw [lookup_eq_none_iff]
    intro w hw
    exact absurd ((ho w).mp hw) (by simp)
  | some v =>
    rw [h.lookup_eq_some_iff]
    exact (ho v).mpr rfl

theorem Inv.holds_iff_lookup {hash : K → Nat} {t : HashTableOA K V} (h : Inv hash t) (k : K)
    (w : V) : holds t k w ↔ lookup t k = some w :=
  (h.lookup_eq_some_iff k w).symm

theorem isOk_unit (r : Except Fault Unit) (h : r.isOk = true) : r = .ok () := by
  cases r with
  | ok u => rfl
  | error e => simp [Except.isOk, Except.toBool] at h

theorem isOk_flag (r : Except Fault Bool) (h : r.isOk = true) : r = .ok true ∨ r = .ok false := by
  cases r with
  | ok b => cases b <;> simp
  | error e => simp [Except.isOk, Except.toBool] at h

theorem Inv.remove_false_absent {hash : K → Nat} {t : HashTableOA K V} (h : Inv hash t) (k : K)
    (hr : (HashTableOA.remove hash t k).2 = .ok false) : ∀ v, ¬ holds t k v := by
  intro v hv
  rw [h.remove_of_holds k v hv] at hr
  injection hr with hr
  cases hr

theorem lookup_step {hash : K → Nat} {t : HashTableOA K V} (h : Inv hash t)
    (over : Nat → Nat → Bool) (op : Op K V) (hret : returns over hash t op = true)
    (m : K → Option V) (hm : ∀ k, lookup t k = m k) (k : K) :
    lookup (step over hash t op) k = ref_step m op k := by
  cases op with
  | insert key value =>
    simp only [returns] at hret
    have hok := isOk_unit _ hret
    simp only [HashTableOA.step, ref_step]
    apply (h.inv_insert over key value).lookup_eq_of_holds
    intro w
    rw [h.holds_insert over key value hok, h.holds_iff_lookup, hm]
    by_cases hk : k = key
    · simp [hk, eq_comm]
    · simp [hk]
  | remove key =>
    simp only [returns] at hret
    simp only [HashTableOA.step, ref_step]
    rcases isOk_flag _ hret with hr | hr
    · apply (h.inv_remove key).lookup_eq_of_holds
      intro w
      rw [h.holds_remove key hr, h.holds_iff_lookup, hm]
      by_cases hk : k = key
      · simp [hk]
      · simp [hk]
    · rw [remove_unchanged hash t key (by rw [hr]; simp)]
      by_cases hk : k = key
      · rw [if_pos hk, hk, lookup_eq_none_iff]
        exact h.remove_false_absent key hr
      · rw [if_neg hk]; exact hm k

theorem lookup_foldl (over : Nat → Nat → Bool) (hash : K → Nat) (ops : List (Op K V))
    (t : HashTableOA K V) (h : Inv hash t) (hret : all_return over hash t ops = true)
    (m : K → Option V) (hm : ∀ k, lookup t k = m k) (k : K) :
    lookup (ops.foldl (step over hash) t) k = ops.foldl ref_step m k := by
  induction ops generalizing t m with
  | nil => exact hm k
  | cons op ops ih =>
    simp only [all_return, Bool.and_eq_true] at hret
    exact ih _ (h.step over op) hret.2 _ (fun k => lookup_step h over op hret.1 m hm k)

theorem lookup_new (initial_capacity : Nat) (k : K) :
    lookup (new initial_capacity : HashTableOA K V) k = none := by
  rw [lookup_eq_none_iff]
  intro v
  unfold new
  exact not_holds_fresh _ k v

theorem lookup_run (over : Nat → Nat → Bool) (hash : K → Nat) (initial_capacity : Nat)
    (ops : List (Op K V)) (hret : all_return over hash (new initial_capacity) ops = true)
    (k : K) : lookup (run over hash initial_capacity ops) k = ref_map ops k :=
  lookup_foldl over hash ops _ (Inv_new hash initial_capacity) hret _
    (fun k => lookup_new initial_capacity k) k

/-! ### Frame property of `remove`, and misses -/

theorem search_remove_other (hash : K → Nat) (t : HashTableOA K V) (a c : K) (v : V)
    (hpos : 0 < t.table.length) (hac : a ≠ c) (hs : search hash t c = .ok (some v)) :
    search hash (remove hash t a).1 c = .ok (some v) := by
  cases hfa : find_slot hash t a with
  | error e => rw [remove_error_of hash t a e hfa]; exact hs
  | ok j =>
    by_cases hc : (t.table.getD j fresh).state = SlotState.OCCUPIED ∧
        (t.table.getD j fresh).key = a
    swap
    · rw [remove_miss_of hash t a j hfa hc]; exact hs
    rw [remove_hit_of hash t a j hfa hc]
    have hj : j < t.table.length := find_slot_ok_lt hash t a j hpos hfa
    cases hfc : find_slot hash t c with
    | error e => rw [search_error_of hash t c e hfc] at hs; cases hs
    | ok i =>
      rw [search_ok_of hash t c i hfc] at hs
      split at hs
      swap
      · injection hs with hs; cases hs
      rename_i hic
      obtain ⟨d, hd, hid, hstop, hbefore⟩ := find_slot_ok_spec hash t c i hpos hfc
      have hij : i ≠ j := by
        intro e
        subst e
        exact hac (hc.2.symm.trans hic.2)
      have hfind : find_slot hash
          ({ table := t.table.set j
              { key := (t.table.getD j fresh).key, value := (t.table.getD j fresh).value,
                state := SlotState.DELETED },
             current_size := t.current_size - 1 } : HashTableOA K V) c = .ok i := by
        rw [hid]
        have := find_slot_of_first hash
          ({ table := t.table.set j
              { key := (t.table.getD j fresh).key, value := (t.table.getD j fresh).value,
                state := SlotState.DELETED },
             current_size := t.current_size - 1 } : HashTableOA K V) c d
          (by simpa using hd) ?_ ?_
        · simpa using this
        · simp only [List.length_set, getD_set_ite _ _ _ _ _ hj]
          rw [← hid, if_neg hij]
          exact hstop
        · intro e he
          simp only [List.length_set, getD_set_ite _ _ _ _ _ hj]
          split
          · rintro (h1 | h1)
            · cases h1
            · cases h1.1
          · exact hbefore e he
      rw [search_ok_of hash _ c i hfind]
      simp only [getD_set_ite _ _ _ _ _ hj, if_neg hij]
      rw [if_pos hic]
      exact hs

theorem search_absent (hash : K → Nat) (t : HashTableOA K V) (k : K)
    (hused : used_count t < t.table.length) (hk : ∀ v, ¬ holds t k v) :
    search hash t k = .ok none := by
  obtain ⟨j, hj, he⟩ := exists_empty_of_used_lt t hused
  obtain ⟨i, hi⟩ := find_slot_of_empty hash t k j hj he
  rw [search_ok_of hash t k i hi]
  split
  · rename_i hc
    exact absurd ⟨i, find_slot_ok_lt hash t k i (by omega) hi, hc.1, hc.2, rfl⟩ (hk _)
  · rfl

theorem find_slot_not_deleted (hash : K → Nat) (t : HashTableOA K V) (k : K) (i : Nat)
    (hpos : 0 < t.table.length) (h : find_slot hash t k = .ok i) :
    (t.table.getD i fresh).state ≠ SlotState.DELETED := by
  obtain ⟨d, _, _, hstop, _⟩ := find_slot_ok_spec hash t k i hpos h
  rcases hstop with h1 | h1
  · rw [h1]; decide
  · rw [h1.1]; decide

/-! ### Growth of a table that satisfies the invariant -/

theorem Inv.inv_resize {hash : K → Nat} {t : HashTableOA K V} (h : Inv hash t)
    (over : Nat → Nat → Bool) (hover : half_is_light over) :
    (resize_and_rehash over hash t).2 = .ok () ∧
    Inv hash (resize_and_rehash over hash t).1 ∧
    (resize_and_rehash over hash t).1.table.length = 2 * t.table.length ∧
    used_count (resize_and_rehash over hash t).1 < (resize_and_rehash over hash t).1.table.length ∧
    (∀ k w, holds (resize_and_rehash over hash t).1 k w ↔ holds t k w) ∧
    (resize_and_rehash over hash t).1.current_size = t.current_size := by
  rw [resize_eq_place over hash hover]
  obtain ⟨h1, h2, h3⟩ := resize_with_place hash t
  have hI : Inv hash (resize_and_rehash_with (HashTableOA.place hash) t).1 :=
    resize_with_Inv _ (fun t k v ht => ht.place k v) t h
  have hH : ∀ k w, holds (resize_and_rehash_with (HashTableOA.place hash) t).1 k w ↔ holds t k w :=
    resize_with_holds _ (fun t k v ht => ht.place k v)
      (fun t k v ht hok k' w => ht.holds_place k v hok k' w) t h h1
  refine ⟨h1, hI, h2, by have := h.1; omega, hH, ?_⟩
  apply h.size_eq_of_keys hI
  intro x
  rw [mem_occupied_keys_iff, mem_occupied_keys_iff]
  simp only [hH]

/-! ### Inserts below the growth threshold -/

/-- An `insert` of a key not present, on a table with an `EMPTY` slot whose load test is
negative: it returns normally, the number of slots stays and the size grows by one. -/
theorem Inv.insert_absent_light {hash : K → Nat} {t : HashTableOA K V} (h : Inv hash t)
    (over : Nat → Nat → Bool) (k : K) (v : V) (hk : k ∉ occupied_keys t)
    (ho : over t.current_size t.table.length = false) (hu : used_count t < t.table.length) :
    (HashTableOA.insert over hash t k v).2 = .ok () ∧
    (HashTableOA.insert over hash t k v).1.table.length = t.table.length ∧
    (HashTableOA.insert over hash t k v).1.current_size = t.current_size + 1 ∧
    used_count (HashTableOA.insert over hash t k v).1 ≤ used_count t + 1 := by
  have he : HashTableOA.insert over hash t k v = HashTableOA.place hash t k v :=
    insert_depth_light over hash 1 t k v ho
  have hok : (HashTableOA.insert over hash t k v).2 = .ok () := by
    rw [he]; exact place_ok_of_used_lt hash t k v hu
  refine ⟨hok, ?_, h.size_insert_new over k v hk hok, ?_⟩
  · rw [he]; exact place_length hash t k v
  · rw [he]; exact place_used_le hash t k v h.1

theorem not_mem_occupied_keys_new (initial_capacity : Nat) (k : K) :
    k ∉ occupied_keys (new initial_capacity : HashTableOA K V) := by
  rw [mem_occupied_keys_iff_lookup, lookup_new]
  simp

/-- Four distinct keys inserted into a new table of capacity 5, with the exact load test: every
insert returns normally and none grows the table. -/
theorem four_inserts_capacity_five (hash : K → Nat) (k1 k2 k3 k4 : K) (v1 v2 v3 v4 : V)
    (h12 : k1 ≠ k2) (h13 : k1 ≠ k3) (h14 : k1 ≠ k4) (h23 : k2 ≠ k3) (h24 : k2 ≠ k4)
    (h34 : k3 ≠ k4) :
    all_return load_reached hash (new 5)
      [.insert k1 v1, .insert k2 v2, .insert k3 v3, .insert k4 v4] = true ∧
    (run load_reached hash 5 [.insert k1 v1, .insert k2 v2, .insert k3 v3]).table.length = 5 ∧
    (run load_reached hash 5 [.insert k1 v1, .insert k2 v2, .insert k3 v3]).current_size = 3 ∧
    (run load_reached hash 5
      [.insert k1 v1, .insert k2 v2, .insert k3 v3, .insert k4 v4]).table.length = 5 ∧
    (run load_reached hash 5
      [.insert k1 v1, .insert k2 v2, .insert k3 v3, .insert k4 v4]).current_size = 4 := by
  have w0 : Inv hash (new 5 : HashTableOA K V) := Inv_new hash 5
  have l0 : (new 5 : HashTableOA K V).table.length = 5 := by simp [new]
  have s0 : (new 5 : HashTableOA K V).current_size = 0 := by simp [new]
  have u0 : used_count (new 5 : HashTableOA K V) = 0 := used_count_fresh _
  have a1 := w0.insert_absent_light load_reached k1 v1 (not_mem_occupied_keys_new 5 k1)
    (by rw [l0, s0]; decide) (by rw [l0, u0]; decide)
  have w1 := w0.inv_insert load_reached k1 v1
  have m1 := w0.keys_insert load_reached k1 v1 a1.1
  rw [l0, s0, u0] at a1
  have a2 := w1.insert_absent_light load_reached k2 v2
    (by rw [m1]; rintro (e | e)
        · exact h12 e.symm
        · exact not_mem_occupied_keys_new 5 k2 e)
    (by rw [a1.2.1, a1.2.2.1]; decide) (by rw [a1.2.1]; have := a1.2.2.2; omega)
  have w2 := w1.inv_insert load_reached k2 v2
  have m2 := w1.keys_insert load_reached k2 v2 a2.1
  rw [a1.2.1, a1.2.2.1] at a2
  have a3 := w2.insert_absent_light load_reached k3 v3
    (by rw [m2, m1]; rintro (e | e | e)
        · exact h23 e.symm
        · exact h13 e.symm
        · exact not_mem_occupied_keys_new 5 k3 e)
    (by rw [a2.2.1, a2.2.2.1]; decide)
    (by rw [a2.2.1]; have := a1.2.2.2; have := a2.2.2.2; omega)
  have w3 := w2.inv_insert load_reached k3 v3
  have m3 := w2.keys_insert load_reached k3 v3 a3.1
  rw [a2.2.1, a2.2.2.1] at a3
  have a4 := w3.insert_absent_light load_reached k4 v4
    (by rw [m3, m2, m1]; rintro (e | e | e | e)
        · exact h34 e.symm
        · exact h24 e.symm
        · exact h14 e.symm
        · exact not_mem_occupied_keys_new 5 k4 e)
    (by rw [a3.2.1, a3.2.2.1]; decide)
    (by rw [a3.2.1]; have := a1.2.2.2; have := a2.2.2.2; have := a3.2.2.2; omega)
  rw [a3.2.1, a3.2.2.1] at a4
  have hrun3 : run load_reached hash 5 [.insert k1 v1, .insert k2 v2, .insert k3 v3] =
      (HashTableOA.insert load_reached hash (HashTableOA.insert load_reached hash
        (HashTableOA.insert load_reached hash (new 5) k1 v1).1 k2 v2).1 k3 v3).1 := by
    simp only [run, List.foldl_cons, List.foldl_nil, HashTableOA.step]
  have hrun4 : run load_reached hash 5
      [.insert k1 v1, .insert k2 v2, .insert k3 v3, .insert k4 v4] =
      (HashTableOA.insert load_reached hash (HashTableOA.insert load_reached hash
        (HashTableOA.insert load_reached hash (HashTableOA.insert load_reached hash
          (new 5) k1 v1).1 k2 v2).1 k3 v3).1 k4 v4).1 := by
    simp only [run, List.foldl_cons, List.foldl_nil, HashTableOA.step]
  refine ⟨?_, ?_, ?_, ?_, ?_⟩
  · simp only [all_return, returns, HashTableOA.step, a1.1, a2.1, a3.1, a4.1, Except.isOk,
      Except.toBool, Bool.and_self]
  · rw [hrun3]; exact a3.2.1
  · rw [hrun3]; exact a3.2.2.1
  · rw [hrun4]; exact a4.2.1
  · rw [hrun4]; exact a4.2.2.1

theorem used_eq_occupied_of_no_deleted (t : HashTableOA K V) (h : no_deleted t) :
    used_count t = occupied_count t := by
  unfold used_count occupied_count
  apply List.countP_congr
  intro s hs
  obtain ⟨j, hj, rfl⟩ := (mem_iff_getD t.table fresh s).mp hs
  have hd := h j hj
  simp only [decide_eq_true_eq]
  constructor
  · intro hne
    cases hst : (t.table.getD j fresh).state with
    | EMPTY => exact absurd hst hne
    | OCCUPIED => rfl
    | DELETED => exact absurd hst hd
  · intro ho
    rw [ho]
    decide

theorem no_deleted_fresh (n : Nat) :
    no_deleted ({ table := List.replicate n fresh, current_size := 0 } : HashTableOA K V) := by
  intro j _
  simp only
  rw [getD_replicate_fresh]
  simp [fresh]

theorem no_deleted_new (initial_capacity : Nat) :
    no_deleted (new initial_capacity : HashTableOA K V) :=
  no_deleted_fresh _

theorem place_no_deleted (hash : K → Nat) (t : HashTableOA K V) (k : K) (v : V)
    (h : no_deleted t) : no_deleted (place hash t k v).1 := by
  cases hf : find_slot hash t k with
  | error e => rw [place_error hash t k v e hf]; exact h
  | ok i =>
    rw [place_ok hash t k v i hf]
    intro j hj
    simp only [List.length_set] at hj
    simp only
    by_cases hji : j = i
    · subst hji
      rw [getD_set_self _ _ _ _ hj]
      simp
    · rw [getD_set_other _ _ _ _ _ (fun e => hji e.symm)]
      exact h j hj

theorem rehash_loop_place_no_deleted (hash : K → Nat) (slots : List (Slot K V))
    (t : HashTableOA K V) (h : no_deleted t) :
    no_deleted (rehash_loop (place hash) slots t).1 := by
  induction slots generalizing t with
  | nil => exact h
  | cons s rest ih =>
    by_cases hs : s.state = SlotState.OCCUPIED
    · rcases result_cases (place hash t s.key s.value).2 with hr | ⟨e, hr⟩
      · rw [rehash_loop_ok _ s rest t hs hr]
        exact ih _ (place_no_deleted hash t s.key s.value h)
      · rw [rehash_loop_error _ s rest t hs e hr]
        exact place_no_deleted hash t s.key s.value h
    · rw [rehash_loop_skip _ s rest t hs]
      exact ih t h

theorem resize_with_place_no_deleted (hash : K → Nat) (t : HashTableOA K V) :
    no_deleted (resize_and_rehash_with (place hash) t).1 :=
  rehash_loop_place_no_deleted hash _ _ (no_deleted_fresh _)

/-- A slot that is not `EMPTY` stays so when an entry is placed without growth. -/
theorem place_keeps_used (hash : K → Nat) (t : HashTableOA K V) (k : K) (v : V) (j : Nat)
    (hj : j < t.table.length) (hu : (t.table.getD j fresh).state ≠ SlotState.EMPTY) :
    ((place hash t k v).1.table.getD j fresh).state ≠ SlotState.EMPTY := by
  cases hf : find_slot hash t k with
  | error e => rw [place_error hash t k v e hf]; exact hu
  | ok i =>
    rw [place_ok hash t k v i hf]
    simp only
    by_cases hji : j = i
    · subst hji
      rw [getD_set_self _ _ _ _ hj]
      simp
    · rw [getD_set_other _ _ _ _ _ (fun e => hji e.symm)]
      exact hu

/-- A slot that is not `EMPTY` stays so under `remove`. -/
theorem remove_keeps_used (hash : K → Nat) (t : HashTableOA K V) (k : K) (j : Nat)
    (hj : j < t.table.length) (hu : (t.table.getD j fresh).state ≠ SlotState.EMPTY) :
    ((remove hash t k).1.table.getD j fresh).state ≠ SlotState.EMPTY := by
  cases hf : find_slot hash t k with
  | error e => rw [remove_error_of hash t k e hf]; exact hu
  | ok i =>
    by_cases hc : (t.table.getD i fresh).state = SlotState.OCCUPIED ∧ (t.table.getD i fresh).key = k
    · rw [remove_hit_of hash t k i hf hc]
      simp only
      by_cases hji : j = i
      · subst hji
        rw [getD_set_self _ _ _ _ hj]
        simp
      · rw [getD_set_other _ _ _ _ _ (fun e => hji e.symm)]
        exact hu
    · rw [remove_miss_of hash t k i hf hc]
      exact hu

/-- Capacity after `insert`: doubled when the load test holds, unchanged otherwise. -/
theorem insert_capacity (over : Nat → Nat → Bool) (hash : K → Nat) (hover : half_is_light over)
    (t : HashTableOA K V) (k : K) (v : V) :
    (insert over hash t k v).1.table.length =
      if over t.current_size t.table.length then 2 * t.table.length else t.table.length := by
  rw [insert_eq_place over hash hover]
  by_cases ho : over t.current_size t.table.length = true
  · rw [if_pos ho, if_pos ho, place_length, (resize_with_place hash t).2.1]
  · rw [if_neg ho, if_neg ho, place_length]

/-- One `insert` with the exact load test on a table without tombstones, of capacity at least 4
and not full: it returns normally and these facts hold again. -/
theorem insert_only_step {hash : K → Nat} {t : HashTableOA K V} (hinv : Inv hash t)
    (hnd : no_deleted t) (h4 : 4 ≤ t.table.length) (hs : t.current_size < t.table.length)
    (k : K) (v : V) :
    (insert load_reached hash t k v).2 = .ok () ∧
    Inv hash (insert load_reached hash t k v).1 ∧
    no_deleted (insert load_reached hash t k v).1 ∧
    4 ≤ (insert load_reached hash t k v).1.table.length ∧
    (insert load_reached hash t k v).1.current_size <
      (insert load_reached hash t k v).1.table.length := by
  have hover := load_reached_half_is_light
  rw [insert_eq_place load_reached hash hover]
  by_cases ho : load_reached t.current_size t.table.length = true
  · rw [if_pos ho]
    obtain ⟨_, hinv1, hlen1, hused1, _, hsize1⟩ := hinv.inv_resize load_reached hover
    rw [resize_eq_place load_reached hash hover] at hinv1 hlen1 hused1 hsize1
    have hnd1 := resize_with_place_no_deleted hash t
    refine ⟨place_ok_of_used_lt hash _ k v hused1, hinv1.place k v,
      place_no_deleted hash _ k v hnd1, ?_, ?_⟩
    · rw [place_length, hlen1]; omega
    · have := place_size_le hash (resize_and_rehash_with (place hash) t).1 k v
      rw [place_length, hlen1]
      omega
  · rw [if_neg ho]
    have hused : used_count t < t.table.length := by
      rw [used_eq_occupied_of_no_deleted t hnd, ← hinv.2.1]; exact hs
    refine ⟨place_ok_of_used_lt hash t k v hused, hinv.place k v,
      place_no_deleted hash t k v hnd, by rw [place_length]; exact h4, ?_⟩
    have := place_size_le hash t k v
    have hlt : ¬ (7 * t.table.length ≤ 10 * t.current_size) := by
      simpa [load_reached] using ho
    rw [place_length]
    omega

/-- Any number of inserts with the exact load test, from a table without tombstones, of
capacity at least 4 and not full: every insert returns normally and these facts hold at the
end. -/
theorem insert_only_foldl (hash : K → Nat) (entries : List (K × V)) (t : HashTableOA K V)
    (hinv : Inv hash t) (hnd : no_deleted t) (h4 : 4 ≤ t.table.length)
    (hs : t.current_size < t.table.length) :
    all_return load_reached hash t (inserts entries) = true ∧
    Inv hash ((inserts entries).foldl (step load_reached hash) t) ∧
    no_deleted ((inserts entries).foldl (step load_reached hash) t) ∧
    4 ≤ ((inserts entries).foldl (step load_reached hash) t).table.length ∧
    ((inserts entries).foldl (step load_reached hash) t).current_size <
      ((inserts entries).foldl (step load_reached hash) t).table.length := by
  induction entries generalizing t with
  | nil => exact ⟨rfl, hinv, hnd, h4, hs⟩
  | cons e rest ih =>
    obtain ⟨h1, h2, h3, h5, h6⟩ := insert_only_step hinv hnd h4 hs e.1 e.2
    obtain ⟨i1, i2⟩ := ih (insert load_reached hash t e.1 e.2).1 h2 h3 h5 h6
    refine ⟨?_, i2⟩
    show (returns load_reached hash t (Op.insert e.1 e.2) &&
      all_return load_reached hash (step load_reached hash t (Op.insert e.1 e.2))
        (inserts rest)) = true
    simp only [returns, h1, step, Bool.and_eq_true]
    exact ⟨rfl, i1⟩

theorem new_length_oa (initial_capacity : Nat) :
    (new initial_capacity : HashTableOA K V).table.length =
      if initial_capacity = 0 then 16 else initial_capacity := by
  simp [new]

/-- Insert-only run on a new table of capacity at least 4 (or 0, which the constructor replaces
by 16). -/
theorem insert_only_run (hash : K → Nat) (initial_capacity : Nat) (entries : List (K × V))
    (hcap : 4 ≤ initial_capacity ∨ initial_capacity = 0) :
    all_return load_reached hash (new initial_capacity) (inserts entries) = true ∧
    Inv hash (run load_reached hash initial_capacity (inserts entries)) ∧
    no_deleted (run load_reached hash initial_capacity (inserts entries)) ∧
    4 ≤ (run load_reached hash initial_capacity (inserts entries)).table.length ∧
    (run load_reached hash initial_capacity (inserts entries)).current_size <
      (run load_reached hash initial_capacity (inserts entries)).table.length := by
  have hlen : (new initial_capacity : HashTableOA K V).table.length =
      if initial_capacity = 0 then 16 else initial_capacity := new_length_oa initial_capacity
  have h4 : 4 ≤ (new initial_capacity : HashTableOA K V).table.length := by
    rw [hlen]; split <;> omega
  have hs : (new initial_capacity : HashTableOA K V).current_size <
      (new initial_capacity : HashTableOA K V).table.length := by
    have : (new initial_capacity : HashTableOA K V).current_size = 0 := rfl
    omega
  exact insert_only_foldl hash entries _ (Inv_new hash initial_capacity)
    (no_deleted_new initial_capacity) h4 hs

theorem rehash_loop_place_size_le (hash : K → Nat) (slots : List (Slot K V))
    (t : HashTableOA K V) :
    (rehash_loop (place hash) slots t).1.current_size ≤ t.current_size + slots.length := by
  induction slots generalizing t with
  | nil => simp [rehash_loop_nil]
  | cons s rest ih =>
    simp only [List.length_cons]
    have hp := place_size_le hash t s.key s.value
    by_cases hs : s.state = SlotState.OCCUPIED
    · rcases result_cases (place hash t s.key s.value).2 with hr | ⟨e, hr⟩
      · rw [rehash_loop_ok _ s rest t hs hr]
        have := ih (place hash t s.key s.value).1
        omega
      · rw [rehash_loop_error _ s rest t hs e hr]
        simp only
        omega
    · rw [rehash_loop_skip _ s rest t hs]
      have := ih t
      omega

/-- While `resize_and_rehash` re-inserts the old slots, the load test of `insert` fails before
each of them: after any `m` old slots, `m` less than the old capacity, the new table holds at
most `m` entries in twice as many slots. -/
theorem rehash_prefix_light (over : Nat → Nat → Bool) (hash : K → Nat)
    (hover : half_is_light over) (t : HashTableOA K V) (m : Nat) (hm : m < t.table.length) :
    over
      (rehash_loop (insert_depth over hash 1) (t.table.take m)
        { table := List.replicate (t.table.length * 2) fresh, current_size := 0 }).1.current_size
      (rehash_loop (insert_depth over hash 1) (t.table.take m)
        { table := List.replicate (t.table.length * 2) fresh, current_size := 0 }).1.table.length
      = false := by
  have hlt : (t.table.take m).length ≤ m := by simp
  rw [rehash_loop_eq_place over hash hover 0 t.table.length (t.table.take m) _
    (by simp [Nat.mul_comm]) (by simp only; omega)]
  have hsz := rehash_loop_place_size_le hash (t.table.take m)
    ({ table := List.replicate (t.table.length * 2) fresh, current_size := 0 } : HashTableOA K V)
  have hl := (rehash_loop_place hash (t.table.take m)
    ({ table := List.replicate (t.table.length * 2) fresh, current_size := 0 } : HashTableOA K V)
    (by rw [used_count_fresh]; simp only [List.length_replicate]; omega)).2.1
  rw [hl]
  simp only [List.length_replicate] at hsz ⊢
  exact (congrArg (over _) (Nat.mul_comm t.table.length 2)).trans (hover _ _ (by omega))

end HashTableOA

/-! ## Dynamic array -/

namespace Vector

variable {T : Type} [Inhabited T]

theorem take_succ_getD (l : List T) (n : Nat) (d : T) (h : n < l.length) :
    l.take (n + 1) = l.take n ++ [l.getD n d] := by
  rw [List.take_succ, List.getD_eq_getElem _ _ h, List.getElem?_eq_getElem h]
  rfl

theorem take_set_succ (l : List T) (n : Nat) (x : T) (h : n < l.length) :
    (l.set n x).take (n + 1) = l.take n ++ [x] := by
  induction l generalizing n with
  | nil => simp at h
  | cons a l ih =>
    cases n with
    | zero => simp
    | succ n =>
      have := ih n (by simpa using h)
      simp only [List.set_cons_succ, List.take_succ_cons, List.cons_append]
      rw [this]

theorem copy_loop_length (arr : List T) (steps i : Nat) (new_arr : List T) :
    (copy_loop arr steps i new_arr).length = new_arr.length := by
  induction steps generalizing i new_arr with
  | zero => rfl
  | succ n ih => simp [copy_loop, ih]

theorem copy_loop_take (arr : List T) (steps i : Nat) (new_arr : List T)
    (h1 : i + steps ≤ arr.length) (h2 : i + steps ≤ new_arr.length)
    (h : new_arr.take i = arr.take i) :
    (copy_loop arr steps i new_arr).take (i + steps) = arr.take (i + steps) := by
  induction steps generalizing i new_arr with
  | zero => simpa [copy_loop] using h
  | succ n ih =>
    simp only [copy_loop]
    rw [show i + (n + 1) = (i + 1) + n by omega]
    apply ih (i + 1) _ (by omega) (by simp only [List.length_set]; omega)
    rw [take_set_succ _ _ _ (by omega), h, ← take_succ_getD arr i default (by omega)]

theorem VInv_new : VInv (new : Vector T) := by
  simp [VInv, new]

theorem push_back_size (v : Vector T) (x : T) :
    (push_back v x).current_size = v.current_size + 1 := by
  unfold push_back
  split <;> rfl

theorem VInv.after_push_back {v : Vector T} (h : VInv v) (x : T) : VInv (push_back v x) := by
  obtain ⟨h1, h2, h3⟩ := h
  unfold Vector.push_back VInv
  split
  · rename_i hfull
    simp only [List.length_set, copy_loop_length, List.length_replicate]
    exact ⟨trivial, by omega, by omega⟩
  · rename_i hfull
    simp only [List.length_set]
    exact ⟨h1, h2, by omega⟩

theorem VInv.after_pop_back {v : Vector T} (h : VInv v) : VInv (pop_back v) := by
  obtain ⟨h1, h2, h3⟩ := h
  unfold Vector.pop_back VInv
  split
  · simp only; omega
  · exact ⟨h1, h2, h3⟩

theorem VInv.elements_push_back {v : Vector T} (h : VInv v) (x : T) :
    elements (Vector.push_back v x) = elements v ++ [x] := by
  obtain ⟨h1, h2, h3⟩ := h
  unfold Vector.push_back elements
  split
  · rename_i hfull
    simp only
    rw [take_set_succ _ _ _ (by simp only [copy_loop_length, List.length_replicate]; omega)]
    have := copy_loop_take v.arr v.current_size 0 (List.replicate (2 * v.capacity) default)
      (by omega) (by simp only [List.length_replicate]; omega) (by simp)
    simp only [Nat.zero_add] at this
    rw [this]
  · simp only
    rw [take_set_succ _ _ _ (by omega)]

theorem elements_length {v : Vector T} (h : VInv v) : (elements v).length = v.current_size := by
  unfold elements
  rw [List.length_take]
  have := h.1
  have := h.2.2
  omega

theorem VInv.elements_pop_back {v : Vector T} (h : VInv v) :
    elements (Vector.pop_back v) = (elements v).dropLast := by
  have hl := elements_length h
  unfold Vector.pop_back
  split
  · unfold elements at hl ⊢
    simp only
    rw [List.dropLast_eq_take, hl, List.take_take]
    congr 1
    omega
  · rename_i h0
    have : v.current_size = 0 := by omega
    unfold elements
    simp [this]

theorem VInv.after_step {v : Vector T} (h : VInv v) (op : VectorOp T) : VInv (step v op) := by
  cases op with
  | push_back x => exact h.after_push_back x
  | pop_back => exact h.after_pop_back

theorem VInv.elements_step {v : Vector T} (h : VInv v) (op : VectorOp T) :
    elements (Vector.step v op) = ref_step (elements v) op := by
  cases op with
  | push_back x => exact h.elements_push_back x
  | pop_back => exact h.elements_pop_back

theorem run_foldl (ops : List (VectorOp T)) (v : Vector T) (h : VInv v) :
    VInv (ops.foldl step v) ∧
    elements (ops.foldl step v) = ops.foldl ref_step (elements v) := by
  induction ops generalizing v with
  | nil => exact ⟨h, rfl⟩
  | cons op ops ih =>
    simp only [List.foldl_cons]
    rw [← h.elements_step op]
    exact ih _ (h.after_step op)

theorem VInv_run (ops : List (VectorOp T)) : VInv (run ops) :=
  (run_foldl ops new VInv_new).1

theorem elements_run (ops : List (VectorOp T)) : elements (run ops) = ref_list ops := by
  have := (run_foldl ops (new : Vector T) VInv_new).2
  simpa [elements, new, run, ref_list] using this

theorem at_in_range (v : Vector T) (j : Nat) (h : j < v.current_size) :
    «at» v (j : Int) = .ok ((elements v).getD j default) := by
  unfold «at» elements
  have h1 : ¬ ((j : Int) < 0 ∨ (j : Int) ≥ (v.current_size : Int)) := by omega
  rw [if_neg h1]
  simp only [Int.toNat_ofNat, List.getD_eq_getElem?_getD, List.getElem?_take, h, if_true]

theorem at_out_of_range (v : Vector T) (i : Int) (h : i < 0 ∨ (v.current_size : Int) ≤ i) :
    «at» v i = .error Thrown.out_of_range := by
  unfold «at»
  rw [if_pos h]

theorem le_peak_from (ops : List (VectorOp T)) (v : Vector T) (m : Nat) :
    m ≤ peak_from v m ops := by
  induction ops generalizing v m with
  | nil => exact le_refl _
  | cons op ops ih => exact le_trans (le_max_left _ _) (ih _ _)

theorem int_max_pos : 1 ≤ int_max := by decide

/-- With an argument outside the vector and no `int` overflow, the call is the by-value
`push_back`. -/
theorem push_back_ref_outside (v : Vector T) (x : T)
    (hcap : v.current_size = v.capacity → 2 * v.capacity ≤ int_max)
    (hsize : v.current_size + 1 ≤ int_max) :
    push_back_ref v (DataRef.outside x) = .ok (push_back v x) := by
  unfold push_back_ref push_back
  by_cases hfull : v.current_size = v.capacity
  · have h1 : ¬ (2 * v.capacity > int_max) := by have := hcap hfull; omega
    have h2 : ¬ (v.current_size + 1 > int_max) := by omega
    simp only [if_pos hfull, if_neg h1, if_neg h2]
  · have h2 : ¬ (v.current_size + 1 > int_max) := by omega
    simp only [if_neg hfull, if_neg h2]

theorem call_as_call (v : Vector T) (op : VectorOp T)
    (hsize : 2 * (step v op).current_size ≤ int_max + 1) :
    call v (as_call op) = .ok (step v op) := by
  have hpos := int_max_pos
  cases op with
  | push_back x =>
    have hs : (step v (VectorOp.push_back x)).current_size = v.current_size + 1 :=
      push_back_size v x
    rw [hs] at hsize
    exact push_back_ref_outside v x (fun hfull => by omega) (by omega)
  | pop_back => rfl

theorem step_size_le_peak_from (ops : List (VectorOp T)) (v : Vector T) (m : Nat)
    (op : VectorOp T) : (step v op).current_size ≤ peak_from v m (op :: ops) :=
  le_trans (le_max_right _ _) (le_peak_from ops _ _)

/-- By-value requests during which no size exceeds `2 ^ 30` run without undefined behaviour,
with the result of the by-value model. -/
theorem run_from_as_call (ops : List (VectorOp T)) (v : Vector T) (m : Nat)
    (h : 2 * peak_from v m ops ≤ int_max + 1) :
    run_from v (ops.map as_call) = .ok (ops.foldl step v) := by
  induction ops generalizing v m with
  | nil => rfl
  | cons op ops ih =>
    have hs := step_size_le_peak_from ops v m op
    have hc := call_as_call v op (by omega)
    simp only [List.map_cons, run_from, hc, List.foldl_cons]
    exact ih (step v op) (max m (step v op).current_size) h

theorem run_calls_as_call (ops : List (VectorOp T)) (h : 2 * peak_size ops ≤ int_max + 1) :
    run_calls (ops.map as_call) = .ok (run ops) :=
  run_from_as_call ops new 0 h

/-- The call `v.push_back(v.at(index))` on a full vector reads the freed array. -/
theorem push_back_at_full (v : Vector T) (index : Int) (hfull : v.current_size = v.capacity)
    (hcap : 2 * v.capacity ≤ int_max) (h0 : 0 ≤ index) (h1 : index < (v.current_size : Int)) :
    call v (VectorCall.push_back_at index) = .error VectorFault.use_after_free := by
  have hat : ¬ (index < 0 ∨ index ≥ (v.current_size : Int)) := by omega
  have hov : ¬ (2 * v.capacity > int_max) := by omega
  simp only [call, «at», if_neg hat, push_back_ref, if_pos hfull, if_neg hov]

/-- The call `v.push_back(v.at(index))` with an index out of range throws in `at`. -/
theorem push_back_at_out_of_range (v : Vector T) (index : Int)
    (h : index < 0 ∨ (v.current_size : Int) ≤ index) :
    call v (VectorCall.push_back_at index) = .error VectorFault.out_of_range := by
  have hat : index < 0 ∨ index ≥ (v.current_size : Int) := by omega
  simp only [call, «at», if_pos hat]

/-- The call `v.push_back(v.at(j))` on a vector with room appends a copy of element `j`. -/
theorem push_back_at_room (v : Vector T) (j : Nat) (hv : VInv v)
    (hroom : v.current_size < v.capacity) (hj : j < v.current_size)
    (hsize : v.current_size + 1 ≤ int_max) :
    ∃ v', call v (VectorCall.push_back_at (j : Int)) = .ok v' ∧
      elements v' = elements v ++ [(elements v).getD j default] ∧
      v'.current_size = v.current_size + 1 ∧ v'.capacity = v.capacity := by
  have hat : ¬ ((j : Int) < 0 ∨ (j : Int) ≥ (v.current_size : Int)) := by omega
  have hfull : ¬ (v.current_size = v.capacity) := by omega
  have hov : ¬ (v.current_size + 1 > int_max) := by omega
  refine ⟨{ arr := v.arr.set v.current_size (v.arr.getD j default),
            current_size := v.current_size + 1, capacity := v.capacity },
    by simp only [call, «at», if_neg hat, push_back_ref, if_neg hfull, if_neg hov,
      Int.toNat_ofNat], ?_, rfl, rfl⟩
  unfold elements
  simp only
  rw [take_set_succ _ _ _ (by rw [hv.1]; exact hroom)]
  congr 2
  simp only [List.getD_eq_getElem?_getD, List.getElem?_take, hj, if_true]

end Vector

/-! ## Linked lists -/

section Heap

variable {T N : Type}

theorem valid_of_getD (heap : List (Option N)) (a : Nat) (n : N)
    (h : heap.getD a none = some n) : a < heap.length := by
  by_contra hge
  rw [List.getD_eq_default _ _ (by omega)] at h
  cases h

theorem getD_alloc_old (heap : List (Option N)) (x : Option N) (a : Nat) (h : a < heap.length) :
    (heap ++ [x]).getD a none = heap.getD a none :=
  List.getD_append heap [x] none a h

theorem getD_alloc_new (heap : List (Option N)) (x : Option N) :
    (heap ++ [x]).getD heap.length none = x := by
  rw [List.getD_append_right _ _ _ _ (le_refl _)]
  simp

theorem load_of_getD (heap : List (Option N)) (a : Nat) (n : N)
    (h : heap.getD a none = some n) : load heap (some a) = .ok (a, n) := by
  simp only [load, h]

theorem free_of_getD (heap : List (Option N)) (a : Nat) (n : N)
    (h : heap.getD a none = some n) : free heap (some a) = .ok (heap.set a none) := by
  simp only [free, h]

theorem link_append (stop : Option Nat) (l1 l2 : List (Nat × T)) :
    link stop (l1 ++ l2) = link (link stop l2) l1 := by
  cases l1 <;> rfl

theorem link_ne_nil (stop stop' : Option Nat) (l : List (Nat × T)) (h : l ≠ []) :
    link stop l = link stop' l := by
  cases l with
  | nil => exact absurd rfl h
  | cons c rest => rfl

theorem last_addr_nil (start : Option Nat) : last_addr start ([] : List (Nat × T)) = start := rfl

theorem last_addr_concat (start : Option Nat) (l : List (Nat × T)) (c : Nat × T) :
    last_addr start (l ++ [c]) = some c.1 := by
  simp [last_addr]

theorem last_addr_cons (start : Option Nat) (c : Nat × T) (rest : List (Nat × T)) :
    last_addr start (c :: rest) = last_addr (some c.1) rest := by
  cases rest with
  | nil => simp [last_addr]
  | cons r rs =>
    unfold last_addr
    rw [List.getLast?_cons_cons]
    cases h : (r :: rs).getLast? with
    | none => simp at h
    | some x => rfl

theorem last_addr_ne_nil (start start' : Option Nat) (l : List (Nat × T)) (h : l ≠ []) :
    last_addr start l = last_addr start' l := by
  rcases List.eq_nil_or_concat l with rfl | ⟨init, c, rfl⟩
  · exact absurd rfl h
  · simp only [List.concat_eq_append, last_addr_concat]

theorem last_addr_append (start : Option Nat) (l1 l2 : List (Nat × T)) :
    last_addr start (l1 ++ l2) = last_addr (last_addr start l1) l2 := by
  induction l1 generalizing start with
  | nil => rfl
  | cons c rest ih => rw [List.cons_append, last_addr_cons, last_addr_cons, ih]

theorem link_mem (l : List (Nat × T)) (a : Nat) (h : link none l = some a) :
    a ∈ l.map Prod.fst := by
  cases l with
  | nil => cases h
  | cons c rest =>
    simp only [link, Option.some.injEq] at h
    simp [h]

theorem last_addr_mem (l : List (Nat × T)) (a : Nat) (h : last_addr none l = some a) :
    a ∈ l.map Prod.fst := by
  rcases List.eq_nil_or_concat l with rfl | ⟨init, c, rfl⟩
  · cases h
  · simp only [List.concat_eq_append, last_addr_concat, Option.some.injEq] at h
    simp [h]

/-- In a list of two or more cells at distinct addresses the first and the last address
differ. -/
theorem link_ne_last_addr (c1 c2 : Nat × T) (rest : List (Nat × T))
    (h : ((c1 :: c2 :: rest).map Prod.fst).Nodup) :
    link none (c1 :: c2 :: rest) ≠ last_addr none (c1 :: c2 :: rest) := by
  intro he
  rw [last_addr_cons, last_addr_ne_nil (some c1.1) none (c2 :: rest) (by simp)] at he
  have hm := last_addr_mem (c2 :: rest) c1.1 he.symm
  simp only [List.map_cons, List.nodup_cons] at h
  exact h.1 hm

theorem link_none_eq (l : List (Nat × T)) : link none l = (l.map Prod.fst).head? := by
  cases l <;> rfl

theorem last_addr_none_eq (l : List (Nat × T)) :
    last_addr none l = (l.map Prod.fst).getLast? := by
  unfold last_addr
  rw [List.getLast?_map]
  cases l.getLast? <;> rfl

end Heap

namespace SinglyLinkedList

variable {T : Type}

theorem chain_append (heap : List (Option (SNode T))) (stop : Option Nat)
    (l1 l2 : List (Nat × T)) :
    chain heap stop (l1 ++ l2) ↔ chain heap (link stop l2) l1 ∧ chain heap stop l2 := by
  induction l1 with
  | nil => simp [chain]
  | cons c rest ih =>
    show (heap.getD c.1 none = some { data := c.2, next := link stop (rest ++ l2) } ∧
      chain heap stop (rest ++ l2)) ↔ _
    rw [ih, link_append]
    simp only [chain, and_assoc]

theorem chain_frame (heap heap' : List (Option (SNode T))) (stop : Option Nat)
    (cells : List (Nat × T)) (h : chain heap stop cells)
    (hf : ∀ c ∈ cells, heap'.getD c.1 none = heap.getD c.1 none) : chain heap' stop cells := by
  induction cells with
  | nil => trivial
  | cons c rest ih =>
    refine ⟨?_, ih h.2 (fun c' hc' => hf c' (List.mem_cons_of_mem _ hc'))⟩
    rw [hf c (List.mem_cons_self _ _)]
    exact h.1

theorem chain_valid (heap : List (Option (SNode T))) (stop : Option Nat)
    (cells : List (Nat × T)) (h : chain heap stop cells) :
    ∀ c ∈ cells, c.1 < heap.length := by
  induction cells with
  | nil => intro c hc; cases hc
  | cons c rest ih =>
    intro c' hc'
    rcases List.mem_cons.mp hc' with rfl | hc'
    · exact valid_of_getD heap _ _ h.1
    · exact ih h.2 c' hc'

theorem walk_chain (heap : List (Option (SNode T))) (cells : List (Nat × T)) (steps : Nat)
    (h : chain heap none cells) (hs : cells.length ≤ steps) :
    walk heap steps (link none cells) = .ok (cells.map Prod.snd) := by
  induction cells generalizing steps with
  | nil => cases steps <;> rfl
  | cons c rest ih =>
    obtain ⟨n, rfl⟩ : ∃ n, steps = n + 1 := ⟨steps - 1, by simp at hs; omega⟩
    show walk heap (n + 1) (some c.1) = _
    simp only [walk, load_of_getD _ _ _ h.1, ih n h.2 (by simpa using hs), List.map_cons]

theorem Rep_new : Rep (new : SinglyLinkedList T) [] := by
  simp [Rep, new, chain, link, last_addr]

theorem Rep.contents {s : SinglyLinkedList T} {cells : List (Nat × T)} (h : Rep s cells) :
    contents s = .ok (cells.map Prod.snd) := by
  unfold SinglyLinkedList.contents
  rw [h.2.2.1]
  exact walk_chain s.heap cells _ h.2.1 h.2.2.2.2.2

theorem Rep.empty_iff {s : SinglyLinkedList T} {cells : List (Nat × T)} (h : Rep s cells) :
    empty s = true ↔ cells = [] := by
  simp only [empty, decide_eq_true_eq, h.2.2.2.2.1, List.length_eq_zero]

theorem Rep.push_front {s : SinglyLinkedList T} {cells : List (Nat × T)} (h : Rep s cells)
    (hb : cells.length < int_max) (v : T) :
    ∃ s', SinglyLinkedList.push_front s v = .ok s' ∧ Rep s' ((s.heap.length, v) :: cells) := by
  obtain ⟨hnd, hch, hhead, htail, hcount, hlen⟩ := h
  have hov : ¬ (s.count + 1 > int_max) := by rw [hcount]; omega
  have hvalid := chain_valid s.heap none cells hch
  have hfresh : s.heap.length ∉ cells.map Prod.fst := by
    intro hm
    obtain ⟨c, hc, he⟩ := List.mem_map.mp hm
    have := hvalid c hc
    omega
  unfold SinglyLinkedList.push_front
  by_cases he : s.empty = true
  · have hnil : cells = [] := (Rep.empty_iff ⟨hnd, hch, hhead, htail, hcount, hlen⟩).mp he
    subst hnil
    rw [if_pos he, if_neg hov]
    refine ⟨_, rfl, ?_⟩
    refine ⟨by simp, ?_, rfl, by simp [last_addr], by simp [hcount], by simp⟩
    exact ⟨by simp only [getD_alloc_new]; rfl, trivial⟩
  · rw [if_neg he, if_neg hov]
    refine ⟨_, rfl, ?_⟩
    have hne : cells ≠ [] := fun e =>
      he ((Rep.empty_iff ⟨hnd, hch, hhead, htail, hcount, hlen⟩).mpr e)
    refine ⟨?_, ⟨?_, ?_⟩, rfl, ?_, by simp [hcount], by simp; omega⟩
    · simp only [List.map_cons, List.nodup_cons]
      exact ⟨hfresh, hnd⟩
    · simp only
      rw [getD_set_self _ _ _ _ (by simp), hhead]
    · apply chain_frame s.heap _ none cells hch
      intro c hc
      have := hvalid c hc
      simp only
      rw [getD_set_other _ _ _ _ _ (by omega), getD_alloc_old _ _ _ this]
    · simp only
      rw [htail, last_addr_cons, last_addr_ne_nil (some _) none cells hne]

theorem Rep.push_back {s : SinglyLinkedList T} {cells : List (Nat × T)} (h : Rep s cells)
    (hb : cells.length < int_max) (v : T) :
    ∃ s', SinglyLinkedList.push_back s v = .ok s' ∧ Rep s' (cells ++ [(s.heap.length, v)]) := by
  obtain ⟨hnd, hch, hhead, htail, hcount, hlen⟩ := h
  have hov : ¬ (s.count + 1 > int_max) := by rw [hcount]; omega
  have hvalid := chain_valid s.heap none cells hch
  have hfresh : s.heap.length ∉ cells.map Prod.fst := by
    intro hm
    obtain ⟨c, hc, he⟩ := List.mem_map.mp hm
    have := hvalid c hc
    omega
  unfold SinglyLinkedList.push_back
  by_cases he : s.empty = true
  · have hnil : cells = [] := (Rep.empty_iff ⟨hnd, hch, hhead, htail, hcount, hlen⟩).mp he
    subst hnil
    rw [if_pos he, if_neg hov]
    refine ⟨_, rfl, ?_⟩
    refine ⟨by simp, ?_, rfl, by simp [last_addr], by simp [hcount], by simp⟩
    exact ⟨by simp only [getD_alloc_new]; rfl, trivial⟩
  · rw [if_neg he]
    have hne : cells ≠ [] := fun e =>
      he ((Rep.empty_iff ⟨hnd, hch, hhead, htail, hcount, hlen⟩).mpr e)
    rcases List.eq_nil_or_concat cells with rfl | ⟨init, c, rfl⟩
    · exact absurd rfl hne
    simp only [List.concat_eq_append] at *
    rw [chain_append] at hch
    have hc1 : s.heap.getD c.1 none = some { data := c.2, next := none } := hch.2.1
    have hcv : c.1 < s.heap.length := valid_of_getD _ _ _ hc1
    rw [last_addr_concat] at htail
    rw [htail, load_of_getD _ c.1 { data := c.2, next := none }
      (by rw [getD_alloc_old _ _ _ hcv]; exact hc1)]
    simp only [if_neg hov]
    refine ⟨_, rfl, ?_⟩
    simp only [List.map_append, List.map_cons, List.map_nil] at hnd hfresh
    rw [List.nodup_append] at hnd
    have hdis : ∀ c' ∈ init, c'.1 ≠ c.1 := by
      intro c' hc' e
      exact (List.disjoint_left.mp hnd.2.2) (List.mem_map.mpr ⟨c', hc', rfl⟩) (by simp [e])
    refine ⟨?_, ?_, ?_, ?_, by simp [hcount], by simp at hlen ⊢; omega⟩
    · rw [List.map_append, List.nodup_append]
      refine ⟨by simp only [List.map_append, List.map_cons, List.map_nil]
                 exact List.nodup_append.mpr hnd, by simp, ?_⟩
      rw [List.disjoint_left]
      intro a ha hb
      simp only [List.map_cons, List.map_nil, List.mem_singleton] at hb
      subst hb
      exact hfresh (by simpa using ha)
    · rw [List.append_assoc, chain_append]
      refine ⟨?_, ⟨?_, ?_, trivial⟩⟩
      · apply chain_frame s.heap _ _ init hch.1
        intro c' hc'
        have := chain_valid s.heap _ init hch.1 c' hc'
        simp only
        rw [getD_set_other _ _ _ _ _ (fun e => hdis c' hc' e.symm), getD_alloc_old _ _ _ this]
      · simp only [List.singleton_append, link]
        rw [getD_set_self _ _ _ _ (by simp; omega)]
        rfl
      · simp only [link]
        rw [getD_set_other _ _ _ _ _ (by omega), getD_alloc_new]
    · simp only
      rw [hhead, link_append none (init ++ [c])]
      exact link_ne_nil _ _ _ hne
    · simp only
      rw [last_addr_concat]

theorem Rep.not_empty {s : SinglyLinkedList T} {c : Nat × T} {rest : List (Nat × T)}
    (h : Rep s (c :: rest)) : s.empty = false := by
  simp [empty, h.2.2.2.2.1]

theorem Rep.pop_front_nil {s : SinglyLinkedList T} (h : Rep s []) :
    pop_front s = .error ListFault.out_of_range := by
  have he : s.empty = true := h.empty_iff.mpr rfl
  simp only [pop_front, he, if_true]

theorem Rep.pop_front_cons {s : SinglyLinkedList T} {c : Nat × T} {rest : List (Nat × T)}
    (h : Rep s (c :: rest)) : ∃ s', pop_front s = .ok s' ∧ Rep s' rest := by
  have he := h.not_empty
  obtain ⟨hnd, hch, hhead, htail, hcount, hlen⟩ := h
  have hload : load s.heap s.head = .ok (c.1, { data := c.2, next := link none rest }) := by
    rw [hhead]; exact load_of_getD _ _ _ hch.1
  have hfree := free_of_getD s.heap c.1 _ hch.1
  simp only [pop_front, he, hload, hfree, Bool.false_eq_true, if_false]
  refine ⟨_, rfl, ?_⟩
  simp only [List.map_cons, List.nodup_cons] at hnd
  refine ⟨hnd.2, ?_, rfl, ?_, by simp [hcount], by simp at hlen ⊢; omega⟩
  · apply chain_frame s.heap _ none rest hch.2
    intro c' hc'
    have : c.1 ≠ c'.1 := fun e => hnd.1 (List.mem_map.mpr ⟨c', hc', e.symm⟩)
    simp only
    rw [getD_set_other _ _ _ _ _ this]
  · simp only [hcount, List.length_cons, Nat.add_sub_cancel]
    cases rest with
    | nil => simp [last_addr]
    | cons r rs =>
      rw [if_neg (by simp), htail, last_addr_cons, last_addr_ne_nil (some c.1) none _ (by simp)]

theorem link_stop_ne (p t : Nat) (rest : List (Nat × T)) (hpt : p ≠ t)
    (hnd : t ∉ rest.map Prod.fst) : link (some p) rest ≠ some t := by
  cases rest with
  | nil => simpa [link] using hpt
  | cons r rs =>
    simp only [link, ne_eq, Option.some.injEq]
    intro e
    exact hnd (by simp [e])

theorem find_before_chain (heap : List (Option (SNode T))) (p t : Nat × T)
    (pre : List (Nat × T)) (steps : Nat) (hch : chain heap (some p.1) pre)
    (hp : heap.getD p.1 none = some { data := p.2, next := some t.1 })
    (hnd : t.1 ∉ pre.map Prod.fst) (hpt : p.1 ≠ t.1) (hs : pre.length < steps) :
    find_before heap (some t.1) steps (link (some p.1) pre) = .ok p.1 := by
  induction pre generalizing steps with
  | nil =>
    obtain ⟨n, rfl⟩ : ∃ n, steps = n + 1 := ⟨steps - 1, by omega⟩
    show find_before heap (some t.1) (n + 1) (some p.1) = _
    simp only [find_before, load_of_getD _ _ _ hp, ne_eq, not_true_eq_false, if_false]
  | cons c rest ih =>
    obtain ⟨n, rfl⟩ : ∃ n, steps = n + 1 := ⟨steps - 1, by omega⟩
    show find_before heap (some t.1) (n + 1) (some c.1) = _
    have hne : link (some p.1) rest ≠ some t.1 :=
      link_stop_ne p.1 t.1 rest hpt (fun hm => hnd (by simp [hm]))
    simp only [find_before, load_of_getD _ _ _ hch.1, hne, ne_eq, not_false_eq_true, if_true]
    exact ih n hch.2 (fun hm => hnd (by simp [hm])) (by simpa using hs)

theorem Rep.pop_back_nil {s : SinglyLinkedList T} (h : Rep s []) :
    pop_back s = .error ListFault.out_of_range := by
  have he : s.empty = true := h.empty_iff.mpr rfl
  simp only [pop_back, he, if_true]

theorem Rep.pop_back_single {s : SinglyLinkedList T} {c : Nat × T} (h : Rep s [c]) :
    ∃ s', pop_back s = .ok s' ∧ Rep s' [] := by
  have he := h.not_empty
  obtain ⟨hnd, hch, hhead, htail, hcount, hlen⟩ := h
  have hht : s.head = s.tail := by rw [hhead, htail]; simp [link, last_addr]
  have hfree : free s.heap s.head = .ok (s.heap.set c.1 none) := by
    rw [hhead]; exact free_of_getD _ _ _ hch.1
  simp only [pop_back, he, hht.symm, hfree, Bool.false_eq_true, if_false, if_true]
  refine ⟨_, rfl, ?_⟩
  simp [Rep, chain, link, last_addr, hcount]

theorem Rep.pop_back_many {s : SinglyLinkedList T} {pre : List (Nat × T)} {p t : Nat × T}
    (h : Rep s (pre ++ [p, t])) : ∃ s', pop_back s = .ok s' ∧ Rep s' (pre ++ [p]) := by
  obtain ⟨hnd, hch, hhead, htail, hcount, hlen⟩ := h
  have he : s.empty = false := by simp [empty, hcount]
  have hsplit : pre ++ [p, t] = (pre ++ [p]) ++ [t] := by simp
  rw [hsplit] at hnd htail
  rw [last_addr_concat] at htail
  rw [List.map_append, List.nodup_append] at hnd
  have htn : t.1 ∉ (pre ++ [p]).map Prod.fst := fun hm =>
    (List.disjoint_left.mp hnd.2.2) hm (by simp)
  have hpt : p.1 ≠ t.1 := fun e => htn (by simp [e])
  have htpre : t.1 ∉ pre.map Prod.fst := fun hm => htn (by simp [hm])
  have hppre : p.1 ∉ pre.map Prod.fst := by
    have := hnd.1
    rw [List.map_append, List.nodup_append] at this
    exact fun hm => (List.disjoint_left.mp this.2.2) hm (by simp)
  rw [chain_append] at hch
  obtain ⟨hpre, hp, ht, _⟩ := hch
  have hp' : s.heap.getD p.1 none = some { data := p.2, next := some t.1 } := hp
  have ht' : s.heap.getD t.1 none = some { data := t.2, next := none } := ht
  have hhead' : s.head = link (some p.1) pre := by rw [hhead, link_append]; rfl
  have hht : s.head ≠ s.tail := by
    rw [hhead', htail]
    exact link_stop_ne p.1 t.1 pre hpt htpre
  have hfind : find_before s.heap s.tail (s.heap.length + 1) s.head = .ok p.1 := by
    rw [hhead', htail]
    exact find_before_chain s.heap p t pre _ hpre hp' htpre hpt
      (by simp at hlen; omega)
  have hfree : free s.heap s.tail = .ok (s.heap.set t.1 none) := by
    rw [htail]; exact free_of_getD _ _ _ ht'
  have hload : load (s.heap.set t.1 none) (some p.1) =
      .ok (p.1, { data := p.2, next := some t.1 }) := by
    apply load_of_getD
    rw [getD_set_other _ _ _ _ _ (fun e => hpt e.symm)]
    exact hp'
  simp only [pop_back, he, hht, hfind, hfree, hload, Bool.false_eq_true, if_false]
  refine ⟨_, rfl, ?_⟩
  have hpv : p.1 < s.heap.length := valid_of_getD _ _ _ hp'
  refine ⟨hnd.1, ?_, ?_, by simp only [last_addr_concat], by simp [hcount],
    by simp at hlen ⊢; omega⟩
  · rw [chain_append]
    refine ⟨?_, ?_, trivial⟩
    · apply chain_frame s.heap _ _ pre hpre
      intro c' hc'
      have h1 : p.1 ≠ c'.1 := fun e => hppre (List.mem_map.mpr ⟨c', hc', e.symm⟩)
      have h2 : t.1 ≠ c'.1 := fun e => htpre (List.mem_map.mpr ⟨c', hc', e.symm⟩)
      simp only
      rw [getD_set_other _ _ _ _ _ h1, getD_set_other _ _ _ _ _ h2]
    · simp only
      rw [getD_set_self _ _ _ _ (by simpa using hpv)]
      rfl
  · simp only
    rw [hhead', link_append]
    rfl

theorem Rep.front_nil {s : SinglyLinkedList T} (h : Rep s []) :
    front s = .error ListFault.out_of_range := by
  have he : s.empty = true := h.empty_iff.mpr rfl
  simp only [front, he, if_true]

theorem Rep.front_cons {s : SinglyLinkedList T} {c : Nat × T} {rest : List (Nat × T)}
    (h : Rep s (c :: rest)) : front s = .ok c.2 := by
  have he := h.not_empty
  obtain ⟨hnd, hch, hhead, htail, hcount, hlen⟩ := h
  have hload : load s.heap s.head = .ok (c.1, { data := c.2, next := link none rest }) := by
    rw [hhead]; exact load_of_getD _ _ _ hch.1
  simp only [front, he, hload, Bool.false_eq_true, if_false]

theorem Rep.back_nil {s : SinglyLinkedList T} (h : Rep s []) :
    back s = .error ListFault.out_of_range := by
  have he : s.empty = true := h.empty_iff.mpr rfl
  simp only [back, he, if_true]

theorem Rep.back_concat {s : SinglyLinkedList T} {init : List (Nat × T)} {c : Nat × T}
    (h : Rep s (init ++ [c])) : back s = .ok c.2 := by
  obtain ⟨hnd, hch, hhead, htail, hcount, hlen⟩ := h
  have he : s.empty = false := by simp [empty, hcount]
  rw [chain_append] at hch
  have hload : load s.heap s.tail = .ok (c.1, { data := c.2, next := none }) := by
    rw [htail, last_addr_concat]; exact load_of_getD _ _ _ hch.2.1
  simp only [back, he, hload, Bool.false_eq_true, if_false]

theorem Rep.push_front_overflow {s : SinglyLinkedList T} {cells : List (Nat × T)}
    (h : Rep s cells) (hb : int_max ≤ cells.length) (v : T) :
    SinglyLinkedList.push_front s v = .error ListFault.int_overflow := by
  have hov : s.count + 1 > int_max := by rw [h.2.2.2.2.1]; omega
  unfold SinglyLinkedList.push_front
  by_cases he : s.empty = true
  · rw [if_pos he, if_pos hov]
  · rw [if_neg he, if_pos hov]

theorem Rep.push_back_overflow {s : SinglyLinkedList T} {cells : List (Nat × T)}
    (h : Rep s cells) (hb : int_max ≤ cells.length) (v : T) :
    SinglyLinkedList.push_back s v = .error ListFault.int_overflow := by
  have hemp := h.empty_iff
  obtain ⟨hnd, hch, hhead, htail, hcount, hlen⟩ := h
  have hov : s.count + 1 > int_max := by rw [hcount]; omega
  unfold SinglyLinkedList.push_back
  by_cases he : s.empty = true
  · rw [if_pos he, if_pos hov]
  · rw [if_neg he]
    rcases List.eq_nil_or_concat cells with rfl | ⟨init, c, rfl⟩
    · exact absurd (hemp.mpr rfl) he
    simp only [List.concat_eq_append] at *
    rw [chain_append] at hch
    have hc1 : s.heap.getD c.1 none = some { data := c.2, next := none } := hch.2.1
    have hcv : c.1 < s.heap.length := valid_of_getD _ _ _ hc1
    rw [last_addr_concat] at htail
    rw [htail, load_of_getD _ c.1 { data := c.2, next := none }
      (by rw [getD_alloc_old _ _ _ hcv]; exact hc1)]
    simp only [if_pos hov]

/-- One request on a list that holds `cells`, at most `int_max` of them: it throws
`out_of_range` exactly when the reference list does; otherwise it returns a list that holds the
cells of the reference result, unless that result has more than `int_max` elements, when
`count++` overflows. -/
theorem Rep.apply_spec {s : SinglyLinkedList T} {cells : List (Nat × T)} (h : Rep s cells)
    (hb : cells.length ≤ int_max) (op : ListOp T) :
    (list_ref_throws (cells.map Prod.snd) op = true ∧
      SinglyLinkedList.apply s op = .error ListFault.out_of_range) ∨
    (list_ref_throws (cells.map Prod.snd) op = false ∧
      (list_ref_step (cells.map Prod.snd) op).length ≤ int_max ∧
      ∃ s' cells', SinglyLinkedList.apply s op = .ok s' ∧ Rep s' cells' ∧
        cells'.map Prod.snd = list_ref_step (cells.map Prod.snd) op) ∨
    (list_ref_throws (cells.map Prod.snd) op = false ∧
      int_max < (list_ref_step (cells.map Prod.snd) op).length ∧
      SinglyLinkedList.apply s op = .error ListFault.int_overflow) := by
  cases op with
  | push_front v =>
    by_cases hlt : cells.length < int_max
    · obtain ⟨s', h1, h2⟩ := h.push_front hlt v
      exact Or.inr (Or.inl ⟨rfl, by simp [list_ref_step]; omega, s', _, h1, h2, rfl⟩)
    · exact Or.inr (Or.inr ⟨rfl, by simp [list_ref_step]; omega,
        h.push_front_overflow (by omega) v⟩)
  | push_back v =>
    by_cases hlt : cells.length < int_max
    · obtain ⟨s', h1, h2⟩ := h.push_back hlt v
      exact Or.inr (Or.inl ⟨rfl, by simp [list_ref_step]; omega, s', _, h1, h2,
        by simp [list_ref_step]⟩)
    · exact Or.inr (Or.inr ⟨rfl, by simp [list_ref_step]; omega,
        h.push_back_overflow (by omega) v⟩)
  | pop_front =>
    cases cells with
    | nil => exact Or.inl ⟨rfl, h.pop_front_nil⟩
    | cons c rest =>
      obtain ⟨s', h1, h2⟩ := h.pop_front_cons
      exact Or.inr (Or.inl ⟨rfl, by simp [list_ref_step] at hb ⊢; omega, s', _, h1, h2, rfl⟩)
  | pop_back =>
    rcases List.eq_nil_or_concat cells with rfl | ⟨init, c, rfl⟩
    · exact Or.inl ⟨rfl, h.pop_back_nil⟩
    · simp only [List.concat_eq_append] at h hb ⊢
      have hthrow : list_ref_throws ((init ++ [c]).map Prod.snd) (ListOp.pop_back : ListOp T)
          = false := by simp [list_ref_throws]
      have hdrop : init.map Prod.snd =
          list_ref_step ((init ++ [c]).map Prod.snd) (ListOp.pop_back : ListOp T) := by
        simp [list_ref_step, List.dropLast_concat]
      have hlen : (list_ref_step ((init ++ [c]).map Prod.snd)
          (ListOp.pop_back : ListOp T)).length ≤ int_max := by
        rw [← hdrop]; simp at hb ⊢; omega
      rcases List.eq_nil_or_concat init with rfl | ⟨pre, p, rfl⟩
      · obtain ⟨s', h1, h2⟩ := Rep.pop_back_single (by simpa using h)
        exact Or.inr (Or.inl ⟨hthrow, hlen, s', _, h1, h2, hdrop⟩)
      · simp only [List.concat_eq_append] at h hthrow hdrop hlen ⊢
        obtain ⟨s', h1, h2⟩ := Rep.pop_back_many (by simpa using h)
        exact Or.inr (Or.inl ⟨hthrow, hlen, s', _, h1, h2, hdrop⟩)

theorem ref_step_of_throws (l : List T) (op : ListOp T) (h : list_ref_throws l op = true) :
    list_ref_step l op = l := by
  cases op with
  | push_front v => cases h
  | push_back v => cases h
  | pop_front =>
    simp only [list_ref_throws, List.isEmpty_iff] at h
    subst h; rfl
  | pop_back =>
    simp only [list_ref_throws, List.isEmpty_iff] at h
    subst h; rfl

theorem length_le_list_peak (l : List T) (ops : List (ListOp T)) :
    l.length ≤ list_peak l ops := by
  cases ops with
  | nil => exact le_refl _
  | cons op ops => exact le_max_left _ _

theorem list_peak_replicate_push_back (l : List T) (n : Nat) (x : T) :
    list_peak l (List.replicate n (ListOp.push_back x)) = l.length + n := by
  induction n generalizing l with
  | zero => rfl
  | succ n ih =>
    rw [List.replicate_succ]
    simp only [list_peak, list_ref_step, ih, List.length_append, List.length_singleton]
    omega

theorem list_peak_replicate_push_front (l : List T) (n : Nat) (x : T) :
    list_peak l (List.replicate n (ListOp.push_front x)) = l.length + n := by
  induction n generalizing l with
  | zero => rfl
  | succ n ih =>
    rw [List.replicate_succ]
    simp only [list_peak, list_ref_step, ih, List.length_cons]
    omega

theorem Rep.step_spec {s : SinglyLinkedList T} {cells : List (Nat × T)} (h : Rep s cells)
    (hb : cells.length ≤ int_max) (op : ListOp T) :
    ((list_ref_step (cells.map Prod.snd) op).length ≤ int_max ∧
      ∃ s' cells', SinglyLinkedList.step s op = .ok s' ∧ Rep s' cells' ∧
        cells'.map Prod.snd = list_ref_step (cells.map Prod.snd) op) ∨
    (int_max < (list_ref_step (cells.map Prod.snd) op).length ∧
      SinglyLinkedList.step s op = .error ListFault.int_overflow) := by
  rcases h.apply_spec hb op with ⟨ht, he⟩ | ⟨_, hl, s', cells', he, hr, hm⟩ | ⟨_, hl, he⟩
  · have hsame := ref_step_of_throws _ op ht
    refine Or.inl ⟨by rw [hsame]; simpa using hb, s, cells, ?_, h, hsame.symm⟩
    simp only [SinglyLinkedList.step, he]
  · refine Or.inl ⟨hl, s', cells', ?_, hr, hm⟩
    simp only [SinglyLinkedList.step, he]
  · refine Or.inr ⟨hl, ?_⟩
    simp only [SinglyLinkedList.step, he]

/-- The requests `ops` from a list that holds `cells`: while the reference list never exceeds
`int_max` elements the run ends with a list that holds the reference result; otherwise it ends
in the overflow of `count`. -/
theorem run_from_spec (ops : List (ListOp T)) (s : SinglyLinkedList T) (cells : List (Nat × T))
    (h : Rep s cells) (hb : cells.length ≤ int_max) :
    (list_peak (cells.map Prod.snd) ops ≤ int_max →
      ∃ s' cells', run_from s ops = .ok s' ∧ Rep s' cells' ∧
        cells'.map Prod.snd = ops.foldl list_ref_step (cells.map Prod.snd)) ∧
    (int_max < list_peak (cells.map Prod.snd) ops →
      run_from s ops = .error ListFault.int_overflow) := by
  induction ops generalizing s cells with
  | nil =>
    refine ⟨fun _ => ⟨s, cells, rfl, h, rfl⟩, fun hlt => ?_⟩
    simp only [list_peak, List.length_map] at hlt
    omega
  | cons op ops ih =>
    have hpk := length_le_list_peak (list_ref_step (cells.map Prod.snd) op) ops
    rcases h.step_spec hb op with ⟨hl, s', cells', hs, hr, hm⟩ | ⟨hl, hs⟩
    · have hb' : cells'.length ≤ int_max := by
        rw [← List.length_map cells' Prod.snd, hm]; exact hl
      obtain ⟨i1, i2⟩ := ih s' cells' hr hb'
      rw [hm] at i1 i2
      constructor
      · intro hp
        simp only [list_peak] at hp
        obtain ⟨s2, c2, e1, e2, e3⟩ := i1 (le_trans (le_max_right _ _) hp)
        exact ⟨s2, c2, by simp only [run_from, hs]; exact e1, e2, e3⟩
      · intro hp
        simp only [list_peak] at hp
        have hlen : (cells.map Prod.snd).length ≤ int_max := by simpa using hb
        have hp2 : int_max < list_peak (list_ref_step (cells.map Prod.snd) op) ops := by
          rcases Nat.lt_or_ge int_max
            (list_peak (list_ref_step (cells.map Prod.snd) op) ops) with h1 | h1
          · exact h1
          · exact absurd hp (not_lt.mpr (max_le hlen h1))
        simp only [run_from, hs]
        exact i2 hp2
    · constructor
      · intro hp
        simp only [list_peak] at hp
        have := le_trans (le_max_right _ _) hp
        omega
      · intro _
        simp only [run_from, hs]

theorem run_spec (ops : List (ListOp T)) :
    (list_peak [] ops ≤ int_max →
      ∃ s cells, run ops = .ok s ∧ Rep s cells ∧ cells.map Prod.snd = list_ref ops) ∧
    (int_max < list_peak [] ops → run ops = .error ListFault.int_overflow) :=
  run_from_spec ops new [] Rep_new (Nat.zero_le _)

theorem Rep.front {s : SinglyLinkedList T} {cells : List (Nat × T)} (h : Rep s cells) :
    SinglyLinkedList.front s =
      match cells.map Prod.snd with
      | [] => .error ListFault.out_of_range
      | x :: _ => .ok x := by
  cases cells with
  | nil => exact h.front_nil
  | cons c rest => exact h.front_cons

theorem Rep.back {s : SinglyLinkedList T} {cells : List (Nat × T)} (h : Rep s cells) :
    SinglyLinkedList.back s =
      match (cells.map Prod.snd).getLast? with
      | none => .error ListFault.out_of_range
      | some x => .ok x := by
  rcases List.eq_nil_or_concat cells with rfl | ⟨init, c, rfl⟩
  · exact h.back_nil
  · simp only [List.concat_eq_append] at h ⊢
    rw [h.back_concat]
    simp

theorem Rep.tail_none_iff {s : SinglyLinkedList T} {cells : List (Nat × T)} (h : Rep s cells) :
    s.tail = none ↔ cells = [] := by
  rw [h.2.2.2.1]
  rcases List.eq_nil_or_concat cells with rfl | ⟨init, c, rfl⟩
  · simp [last_addr]
  · simp [last_addr_concat]

theorem Rep.head_none_iff {s : SinglyLinkedList T} {cells : List (Nat × T)} (h : Rep s cells) :
    s.head = none ↔ cells = [] := by
  rw [h.2.2.1]
  cases cells <;> simp [link]

theorem foldl_length_le_list_peak (l : List T) (ops : List (ListOp T)) :
    (ops.foldl list_ref_step l).length ≤ list_peak l ops := by
  induction ops generalizing l with
  | nil => exact le_refl _
  | cons op ops ih => exact le_trans (ih _) (le_max_right _ _)

end SinglyLinkedList

namespace DoublyLinkedList

variable {T : Type}

theorem dchain_append (heap : List (Option (DNode T))) (start stop : Option Nat)
    (l1 l2 : List (Nat × T)) :
    chain heap start stop (l1 ++ l2) ↔
      chain heap start (link stop l2) l1 ∧ chain heap (last_addr start l1) stop l2 := by
  induction l1 generalizing start with
  | nil => simp [chain, last_addr]
  | cons c rest ih =>
    show (heap.getD c.1 none =
        some { data := c.2, next := link stop (rest ++ l2), prev := start } ∧
      chain heap (some c.1) stop (rest ++ l2)) ↔ _
    rw [ih, link_append, last_addr_cons]
    simp only [chain, and_assoc]

theorem dchain_frame (heap heap' : List (Option (DNode T))) (start stop : Option Nat)
    (cells : List (Nat × T)) (h : chain heap start stop cells)
    (hf : ∀ c ∈ cells, heap'.getD c.1 none = heap.getD c.1 none) :
    chain heap' start stop cells := by
  induction cells generalizing start with
  | nil => trivial
  | cons c rest ih =>
    refine ⟨?_, ih _ h.2 (fun c' hc' => hf c' (List.mem_cons_of_mem _ hc'))⟩
    rw [hf c (List.mem_cons_self _ _)]
    exact h.1

theorem dchain_valid (heap : List (Option (DNode T))) (start stop : Option Nat)
    (cells : List (Nat × T)) (h : chain heap start stop cells) :
    ∀ c ∈ cells, c.1 < heap.length := by
  induction cells generalizing start with
  | nil => intro c hc; cases hc
  | cons c rest ih =>
    intro c' hc'
    rcases List.mem_cons.mp hc' with rfl | hc'
    · exact valid_of_getD heap _ _ h.1
    · exact ih _ h.2 c' hc'

theorem dwalk_chain (heap : List (Option (DNode T))) (start : Option Nat)
    (cells : List (Nat × T)) (steps : Nat)
    (h : chain heap start none cells) (hs : cells.length ≤ steps) :
    walk heap steps (link none cells) = .ok (cells.map Prod.snd) := by
  induction cells generalizing steps start with
  | nil => cases steps <;> rfl
  | cons c rest ih =>
    obtain ⟨n, rfl⟩ : ∃ n, steps = n + 1 := ⟨steps - 1, by simp at hs; omega⟩
    show walk heap (n + 1) (some c.1) = _
    simp only [walk, load_of_getD _ _ _ h.1, ih _ n h.2 (by simpa using hs), List.map_cons]

theorem next_walk_chain (heap : List (Option (DNode T))) (start : Option Nat)
    (cells : List (Nat × T)) (steps : Nat)
    (h : chain heap start none cells) (hs : cells.length ≤ steps) :
    next_walk heap steps (link none cells) = .ok (cells.map Prod.fst) := by
  induction cells generalizing steps start with
  | nil => cases steps <;> rfl
  | cons c rest ih =>
    obtain ⟨n, rfl⟩ : ∃ n, steps = n + 1 := ⟨steps - 1, by simp at hs; omega⟩
    show next_walk heap (n + 1) (some c.1) = _
    simp only [next_walk, load_of_getD _ _ _ h.1, ih _ n h.2 (by simpa using hs),
      List.map_cons]

theorem prev_walk_chain (heap : List (Option (DNode T))) (stop : Option Nat)
    (cells : List (Nat × T)) (steps : Nat)
    (h : chain heap none stop cells) (hs : cells.length ≤ steps) :
    prev_walk heap steps (last_addr none cells) = .ok (cells.map Prod.fst).reverse := by
  induction cells using List.reverseRecOn generalizing steps stop with
  | nil => cases steps <;> rfl
  | append_singleton init c ih =>
    obtain ⟨n, rfl⟩ : ∃ n, steps = n + 1 := ⟨steps - 1, by simp at hs; omega⟩
    rw [dchain_append] at h
    have hc : heap.getD c.1 none =
        some { data := c.2, next := stop, prev := last_addr none init } := h.2.1
    rw [last_addr_concat]
    simp only [prev_walk, load_of_getD _ _ _ hc, ih _ n h.1 (by simp at hs; omega),
      List.map_append, List.map_cons, List.map_nil,
      List.reverse_append, List.reverse_cons, List.reverse_nil, List.nil_append,
      List.singleton_append]

theorem dRep_new : Rep (new : DoublyLinkedList T) [] := by
  simp [Rep, new, chain, link, last_addr]

theorem Rep.dcontents {d : DoublyLinkedList T} {cells : List (Nat × T)} (h : Rep d cells) :
    contents d = .ok (cells.map Prod.snd) := by
  unfold DoublyLinkedList.contents
  rw [h.2.2.1]
  exact dwalk_chain d.heap none cells _ h.2.1 h.2.2.2.2.2

theorem Rep.dempty_iff {d : DoublyLinkedList T} {cells : List (Nat × T)} (h : Rep d cells) :
    empty d = true ↔ cells = [] := by
  simp only [empty, decide_eq_true_eq, h.2.2.2.2.1, List.length_eq_zero]

theorem Rep.dnot_empty {d : DoublyLinkedList T} {c : Nat × T} {rest : List (Nat × T)}
    (h : Rep d (c :: rest)) : d.empty = false := by
  simp [empty, h.2.2.2.2.1]

theorem Rep.dpush_front {d : DoublyLinkedList T} {cells : List (Nat × T)} (h : Rep d cells)
    (hb : cells.length < int_max) (v : T) :
    ∃ d', DoublyLinkedList.push_front d v = .ok d' ∧ Rep d' ((d.heap.length, v) :: cells) := by
  have hemp := h.dempty_iff
  obtain ⟨hnd, hch, hhead, htail, hcount, hlen⟩ := h
  have hov : ¬ (d.count + 1 > int_max) := by rw [hcount]; omega
  have hvalid := dchain_valid d.heap none none cells hch
  have hfresh : d.heap.length ∉ cells.map Prod.fst := by
    intro hm
    obtain ⟨c, hc, he⟩ := List.mem_map.mp hm
    have := hvalid c hc
    omega
  unfold DoublyLinkedList.push_front
  cases cells with
  | nil =>
    rw [if_pos (hemp.mpr rfl), if_neg hov]
    refine ⟨_, rfl, ?_⟩
    refine ⟨by simp, ?_, rfl, by simp [last_addr], by simp [hcount], by simp⟩
    exact ⟨by simp only [getD_alloc_new]; rfl, trivial⟩
  | cons c rest =>
    have he : ¬ d.empty = true := fun e => by cases hemp.mp e
    rw [if_neg he]
    have hc1 : d.heap.getD c.1 none = some { data := c.2, next := link none rest, prev := none } :=
      hch.1
    have hcv : c.1 < d.heap.length := valid_of_getD _ _ _ hc1
    have hload : load ((d.heap ++ [some ({ data := v, next := none, prev := none } : DNode T)]).set
        d.heap.length (some { data := v, next := d.head, prev := none })) d.head =
        .ok (c.1, { data := c.2, next := link none rest, prev := none }) := by
      rw [hhead]
      apply load_of_getD
      rw [getD_set_other _ _ _ _ _ (by omega), getD_alloc_old _ _ _ hcv]
      exact hc1
    simp only [hload, if_neg hov]
    refine ⟨_, rfl, ?_⟩
    simp only [List.map_cons, List.nodup_cons] at hnd hfresh
    refine ⟨?_, ⟨?_, ?_, ?_⟩, rfl, ?_, by simp [hcount], by simp at hlen ⊢; omega⟩
    · simp only [List.map_cons, List.nodup_cons]
      exact ⟨hfresh, hnd⟩
    · simp only
      rw [getD_set_other _ _ _ _ _ (by omega), getD_set_self _ _ _ _ (by simp), hhead]
    · simp only
      rw [getD_set_self _ _ _ _ (by simp; omega)]
    · apply dchain_frame d.heap _ _ none rest hch.2
      intro c' hc'
      have hv := hvalid c' (List.mem_cons_of_mem _ hc')
      have hne : c.1 ≠ c'.1 := fun e => hnd.1 (List.mem_map.mpr ⟨c', hc', e.symm⟩)
      simp only
      rw [getD_set_other _ _ _ _ _ hne, getD_set_other _ _ _ _ _ (by omega),
        getD_alloc_old _ _ _ hv]
    · simp only
      rw [htail, last_addr_cons none (d.heap.length, v) (c :: rest),
        last_addr_ne_nil (some _) none (c :: rest) (by simp)]

theorem Rep.dpush_back {d : DoublyLinkedList T} {cells : List (Nat × T)} (h : Rep d cells)
    (hb : cells.length < int_max) (v : T) :
    ∃ d', DoublyLinkedList.push_back d v = .ok d' ∧ Rep d' (cells ++ [(d.heap.length, v)]) := by
  have hemp := h.dempty_iff
  obtain ⟨hnd, hch, hhead, htail, hcount, hlen⟩ := h
  have hov : ¬ (d.count + 1 > int_max) := by rw [hcount]; omega
  have hvalid := dchain_valid d.heap none none cells hch
  have hfresh : d.heap.length ∉ cells.map Prod.fst := by
    intro hm
    obtain ⟨c, hc, he⟩ := List.mem_map.mp hm
    have := hvalid c hc
    omega
  unfold DoublyLinkedList.push_back
  rcases List.eq_nil_or_concat cells with rfl | ⟨init, c, rfl⟩
  · rw [if_pos (hemp.mpr rfl), if_neg hov]
    refine ⟨_, rfl, ?_⟩
    refine ⟨by simp, ?_, rfl, by simp [last_addr], by simp [hcount], by simp⟩
    exact ⟨by simp only [getD_alloc_new]; rfl, trivial⟩
  · simp only [List.concat_eq_append] at *
    have he : ¬ d.empty = true := fun e => by simpa using hemp.mp e
    rw [if_neg he]
    rw [dchain_append] at hch
    have hc1 : d.heap.getD c.1 none =
        some { data := c.2, next := none, prev := last_addr none init } := hch.2.1
    have hcv : c.1 < d.heap.length := valid_of_getD _ _ _ hc1
    rw [last_addr_concat] at htail
    have hload : load (d.heap ++ [some { data := v, next := none, prev := none }]) d.tail =
        .ok (c.1, { data := c.2, next := none, prev := last_addr none init }) := by
      rw [htail]
      apply load_of_getD
      rw [getD_alloc_old _ _ _ hcv]
      exact hc1
    simp only [hload, if_neg hov]
    refine ⟨_, rfl, ?_⟩
    simp only [List.map_append, List.map_cons, List.map_nil] at hnd hfresh
    rw [List.nodup_append] at hnd
    have hdis : ∀ c' ∈ init, c'.1 ≠ c.1 := by
      intro c' hc' e
      exact (List.disjoint_left.mp hnd.2.2) (List.mem_map.mpr ⟨c', hc', rfl⟩) (by simp [e])
    refine ⟨?_, ?_, ?_, ?_, by simp [hcount], by simp at hlen ⊢; omega⟩
    · rw [List.map_append, List.nodup_append]
      refine ⟨by simp only [List.map_append, List.map_cons, List.map_nil]
                 exact List.nodup_append.mpr hnd, by simp, ?_⟩
      rw [List.disjoint_left]
      intro a ha hb
      simp only [List.map_cons, List.map_nil, List.mem_singleton] at hb
      subst hb
      exact hfresh (by simpa using ha)
    · rw [List.append_assoc, dchain_append]
      refine ⟨?_, ⟨?_, ?_, trivial⟩⟩
      · apply dchain_frame d.heap _ _ _ init hch.1
        intro c' hc'
        have := dchain_valid d.heap _ _ init hch.1 c' hc'
        simp only
        rw [getD_set_other _ _ _ _ _ (by omega),
          getD_set_other _ _ _ _ _ (fun e => hdis c' hc' e.symm), getD_alloc_old _ _ _ this]
      · simp only [List.singleton_append, link]
        rw [getD_set_other _ _ _ _ _ (by omega), getD_set_self _ _ _ _ (by simp; omega)]
        rfl
      · simp only [link]
        rw [getD_set_self _ _ _ _ (by simp), htail]
    · simp only
      rw [hhead, link_append none (init ++ [c])]
      exact link_ne_nil _ _ _ (by simp)
    · simp only
      rw [last_addr_concat]

theorem Rep.dpop_front_nil {d : DoublyLinkedList T} (h : Rep d []) :
    pop_front d = .error ListFault.out_of_range := by
  have he : d.empty = true := h.dempty_iff.mpr rfl
  simp only [pop_front, he, if_true]

theorem Rep.dpop_back_nil {d : DoublyLinkedList T} (h : Rep d []) :
    pop_back d = .error ListFault.out_of_range := by
  have he : d.empty = true := h.dempty_iff.mpr rfl
  simp only [pop_back, he, if_true]

theorem Rep.dpop_front_single {d : DoublyLinkedList T} {c : Nat × T} (h : Rep d [c]) :
    ∃ d', pop_front d = .ok d' ∧ Rep d' [] := by
  have he := h.dnot_empty
  obtain ⟨hnd, hch, hhead, htail, hcount, hlen⟩ := h
  have hht : d.head = d.tail := by rw [hhead, htail]; simp [link, last_addr]
  have hfree : free d.heap d.head = .ok (d.heap.set c.1 none) := by
    rw [hhead]; exact free_of_getD _ _ _ hch.1
  simp only [pop_front, he, hht.symm, hfree, Bool.false_eq_true, if_false, if_true]
  refine ⟨_, rfl, ?_⟩
  simp [Rep, chain, link, last_addr, hcount]

theorem Rep.dpop_back_single {d : DoublyLinkedList T} {c : Nat × T} (h : Rep d [c]) :
    ∃ d', pop_back d = .ok d' ∧ Rep d' [] := by
  have he := h.dnot_empty
  obtain ⟨hnd, hch, hhead, htail, hcount, hlen⟩ := h
  have hht : d.head = d.tail := by rw [hhead, htail]; simp [link, last_addr]
  have hfree : free d.heap d.tail = .ok (d.heap.set c.1 none) := by
    rw [← hht, hhead]; exact free_of_getD _ _ _ hch.1
  simp only [pop_back, he, hht, hfree, Bool.false_eq_true, if_false, if_true]
  refine ⟨_, rfl, ?_⟩
  simp [Rep, chain, link, last_addr, hcount]

theorem Rep.dpop_front_many {d : DoublyLinkedList T} {c c2 : Nat × T} {rest : List (Nat × T)}
    (h : Rep d (c :: c2 :: rest)) : ∃ d', pop_front d = .ok d' ∧ Rep d' (c2 :: rest) := by
  have he := h.dnot_empty
  obtain ⟨hnd, hch, hhead, htail, hcount, hlen⟩ := h
  have hht : d.head ≠ d.tail := by
    rw [hhead, htail]; exact link_ne_last_addr c c2 rest hnd
  have hc1 : d.heap.getD c.1 none = some { data := c.2, next := some c2.1, prev := none } :=
    hch.1
  have hc2 : d.heap.getD c2.1 none =
      some { data := c2.2, next := link none rest, prev := some c.1 } := hch.2.1
  simp only [List.map_cons, List.nodup_cons, List.mem_cons, not_or] at hnd
  have hne : c.1 ≠ c2.1 := hnd.1.1
  have hload1 : load d.heap d.head = .ok (c.1, { data := c.2, next := some c2.1, prev := none }) := by
    rw [hhead]; exact load_of_getD _ _ _ hc1
  have hload2 : load d.heap (some c2.1) =
      .ok (c2.1, { data := c2.2, next := link none rest, prev := some c.1 }) :=
    load_of_getD _ _ _ hc2
  have hfree : free (d.heap.set c2.1 (some { data := c2.2, next := link none rest, prev := none }))
      d.head = .ok ((d.heap.set c2.1
        (some { data := c2.2, next := link none rest, prev := none })).set c.1 none) := by
    rw [hhead]
    apply free_of_getD _ _ { data := c.2, next := some c2.1, prev := none }
    rw [getD_set_other _ _ _ _ _ (fun e => hne e.symm)]
    exact hc1
  simp only [pop_front, he, hht, hload1, hload2, hfree, Bool.false_eq_true, if_false]
  refine ⟨_, rfl, ?_⟩
  have hv2 : c2.1 < d.heap.length := valid_of_getD _ _ _ hc2
  refine ⟨by simp only [List.map_cons, List.nodup_cons]; exact hnd.2, ⟨?_, ?_⟩, rfl, ?_,
    by simp [hcount], by simp at hlen ⊢; omega⟩
  · simp only
    rw [getD_set_other _ _ _ _ _ hne, getD_set_self _ _ _ _ hv2]
  · apply dchain_frame d.heap _ _ none rest hch.2.2
    intro c' hc'
    have h1 : c.1 ≠ c'.1 := fun e => hnd.1.2 (List.mem_map.mpr ⟨c', hc', e.symm⟩)
    have h2 : c2.1 ≠ c'.1 := fun e => hnd.2.1 (List.mem_map.mpr ⟨c', hc', e.symm⟩)
    simp only
    rw [getD_set_other _ _ _ _ _ h1, getD_set_other _ _ _ _ _ h2]
  · simp only
    rw [htail, last_addr_cons none c (c2 :: rest),
      last_addr_ne_nil (some _) none (c2 :: rest) (by simp)]

theorem Rep.dpop_back_many {d : DoublyLinkedList T} {pre : List (Nat × T)} {p t : Nat × T}
    (h : Rep d (pre ++ [p, t])) : ∃ d', pop_back d = .ok d' ∧ Rep d' (pre ++ [p]) := by
  obtain ⟨hnd, hch, hhead, htail, hcount, hlen⟩ := h
  have he : d.empty = false := by simp [empty, hcount]
  have hsplit : pre ++ [p, t] = (pre ++ [p]) ++ [t] := by simp
  rw [hsplit] at hnd htail
  rw [last_addr_concat] at htail
  rw [List.map_append, List.nodup_append] at hnd
  have htn : t.1 ∉ (pre ++ [p]).map Prod.fst := fun hm =>
    (List.disjoint_left.mp hnd.2.2) hm (by simp)
  have hpt : p.1 ≠ t.1 := fun e => htn (by simp [e])
  have htpre : t.1 ∉ pre.map Prod.fst := fun hm => htn (by simp [hm])
  have hppre : p.1 ∉ pre.map Prod.fst := by
    have := hnd.1
    rw [List.map_append, List.nodup_append] at this
    exact fun hm => (List.disjoint_left.mp this.2.2) hm (by simp)
  rw [dchain_append] at hch
  obtain ⟨hpre, hp, ht, _⟩ := hch
  have hp' : d.heap.getD p.1 none =
      some { data := p.2, next := some t.1, prev := last_addr none pre } := hp
  have ht' : d.heap.getD t.1 none = some { data := t.2, next := none, prev := some p.1 } := ht
  have hhead' : d.head = link (some p.1) pre := by rw [hhead, link_append]; rfl
  have hht : d.head ≠ d.tail := by
    rw [hhead', htail]
    exact SinglyLinkedList.link_stop_ne p.1 t.1 pre hpt htpre
  have hload1 : load d.heap d.tail =
      .ok (t.1, { data := t.2, next := none, prev := some p.1 }) := by
    rw [htail]; exact load_of_getD _ _ _ ht'
  have hload2 : load d.heap (some p.1) =
      .ok (p.1, { data := p.2, next := some t.1, prev := last_addr none pre }) :=
    load_of_getD _ _ _ hp'
  have hfree : free (d.heap.set p.1
      (some { data := p.2, next := none, prev := last_addr none pre })) d.tail =
      .ok ((d.heap.set p.1
        (some { data := p.2, next := none, prev := last_addr none pre })).set t.1 none) := by
    rw [htail]
    apply free_of_getD _ _ { data := t.2, next := none, prev := some p.1 }
    rw [getD_set_other _ _ _ _ _ hpt]
    exact ht'
  simp only [pop_back, he, hht, hload1, hload2, hfree, Bool.false_eq_true, if_false]
  refine ⟨_, rfl, ?_⟩
  have hpv : p.1 < d.heap.length := valid_of_getD _ _ _ hp'
  refine ⟨hnd.1, ?_, ?_, by simp only [last_addr_concat], by simp [hcount],
    by simp at hlen ⊢; omega⟩
  · rw [dchain_append]
    refine ⟨?_, ?_, trivial⟩
    · apply dchain_frame d.heap _ _ _ pre hpre
      intro c' hc'
      have h1 : p.1 ≠ c'.1 := fun e => hppre (List.mem_map.mpr ⟨c', hc', e.symm⟩)
      have h2 : t.1 ≠ c'.1 := fun e => htpre (List.mem_map.mpr ⟨c', hc', e.symm⟩)
      simp only
      rw [getD_set_other _ _ _ _ _ h2, getD_set_other _ _ _ _ _ h1]
    · simp only
      rw [getD_set_other _ _ _ _ _ (fun e => hpt e.symm), getD_set_self _ _ _ _ hpv]
      rfl
  · simp only
    rw [hhead', link_append]
    rfl

theorem Rep.dfront {d : DoublyLinkedList T} {cells : List (Nat × T)} (h : Rep d cells) :
    DoublyLinkedList.front d =
      match cells.map Prod.snd with
      | [] => .error ListFault.out_of_range
      | x :: _ => .ok x := by
  cases cells with
  | nil =>
    have he : d.empty = true := h.dempty_iff.mpr rfl
    simp only [front, he, if_true, List.map_nil]
  | cons c rest =>
    have he := h.dnot_empty
    obtain ⟨hnd, hch, hhead, htail, hcount, hlen⟩ := h
    have hload : load d.heap d.head =
        .ok (c.1, { data := c.2, next := link none rest, prev := none }) := by
      rw [hhead]; exact load_of_getD _ _ _ hch.1
    simp only [front, he, hload, Bool.false_eq_true, if_false, List.map_cons]

theorem Rep.dback {d : DoublyLinkedList T} {cells : List (Nat × T)} (h : Rep d cells) :
    DoublyLinkedList.back d =
      match (cells.map Prod.snd).getLast? with
      | none => .error ListFault.out_of_range
      | some x => .ok x := by
  rcases List.eq_nil_or_concat cells with rfl | ⟨init, c, rfl⟩
  · have he : d.empty = true := h.dempty_iff.mpr rfl
    simp only [back, he, if_true, List.map_nil, List.getLast?_nil]
  · simp only [List.concat_eq_append] at h ⊢
    obtain ⟨hnd, hch, hhead, htail, hcount, hlen⟩ := h
    have he : d.empty = false := by simp [empty, hcount]
    rw [dchain_append] at hch
    have hload : load d.heap d.tail =
        .ok (c.1, { data := c.2, next := none, prev := last_addr none init }) := by
      rw [htail, last_addr_concat]; exact load_of_getD _ _ _ hch.2.1
    simp only [back, he, hload, Bool.false_eq_true, if_false]
    simp

theorem Rep.dpush_front_overflow {d : DoublyLinkedList T} {cells : List (Nat × T)}
    (h : Rep d cells) (hb : int_max ≤ cells.length) (v : T) :
    DoublyLinkedList.push_front d v = .error ListFault.int_overflow := by
  have hemp := h.dempty_iff
  obtain ⟨hnd, hch, hhead, htail, hcount, hlen⟩ := h
  have hvalid := dchain_valid d.heap none none cells hch
  have hov : d.count + 1 > int_max := by rw [hcount]; omega
  unfold DoublyLinkedList.push_front
  cases cells with
  | nil => rw [if_pos (hemp.mpr rfl), if_pos hov]
  | cons c rest =>
    have he : ¬ d.empty = true := fun e => by cases hemp.mp e
    rw [if_neg he]
    have hc1 : d.heap.getD c.1 none = some { data := c.2, next := link none rest, prev := none } :=
      hch.1
    have hcv : c.1 < d.heap.length := valid_of_getD _ _ _ hc1
    have hload : load ((d.heap ++ [some ({ data := v, next := none, prev := none } : DNode T)]).set
        d.heap.length (some { data := v, next := d.head, prev := none })) d.head =
        .ok (c.1, { data := c.2, next := link none rest, prev := none }) := by
      rw [hhead]
      apply load_of_getD
      rw [getD_set_other _ _ _ _ _ (by omega), getD_alloc_old _ _ _ hcv]
      exact hc1
    simp only [hload, if_pos hov]

theorem Rep.dpush_back_overflow {d : DoublyLinkedList T} {cells : List (Nat × T)}
    (h : Rep d cells) (hb : int_max ≤ cells.length) (v : T) :
    DoublyLinkedList.push_back d v = .error ListFault.int_overflow := by
  have hemp := h.dempty_iff
  obtain ⟨hnd, hch, hhead, htail, hcount, hlen⟩ := h
  have hov : d.count + 1 > int_max := by rw [hcount]; omega
  unfold DoublyLinkedList.push_back
  rcases List.eq_nil_or_concat cells with rfl | ⟨init, c, rfl⟩
  · rw [if_pos (hemp.mpr rfl), if_pos hov]
  · simp only [List.concat_eq_append] at *
    have he : ¬ d.empty = true := fun e => by simpa using hemp.mp e
    rw [if_neg he]
    rw [dchain_append] at hch
    have hc1 : d.heap.getD c.1 none =
        some { data := c.2, next := none, prev := last_addr none init } := hch.2.1
    have hcv : c.1 < d.heap.length := valid_of_getD _ _ _ hc1
    rw [last_addr_concat] at htail
    have hload : load (d.heap ++ [some { data := v, next := none, prev := none }]) d.tail =
        .ok (c.1, { data := c.2, next := none, prev := last_addr none init }) := by
      rw [htail]
      apply load_of_getD
      rw [getD_alloc_old _ _ _ hcv]
      exact hc1
    simp only [hload, if_pos hov]

/-- One request on a doubly linked list that holds `cells`, at most `int_max` of them: it
throws `out_of_range` exactly when the reference list does; otherwise it returns a list that
holds the cells of the reference result, unless that result has more than `int_max` elements,
when `count++` overflows. -/
theorem Rep.dapply {d : DoublyLinkedList T} {cells : List (Nat × T)} (h : Rep d cells)
    (hb : cells.length ≤ int_max) (op : ListOp T) :
    (list_ref_throws (cells.map Prod.snd) op = true ∧
      DoublyLinkedList.apply d op = .error ListFault.out_of_range) ∨
    (list_ref_throws (cells.map Prod.snd) op = false ∧
      (list_ref_step (cells.map Prod.snd) op).length ≤ int_max ∧
      ∃ d' cells', DoublyLinkedList.apply d op = .ok d' ∧ Rep d' cells' ∧
        cells'.map Prod.snd = list_ref_step (cells.map Prod.snd) op) ∨
    (list_ref_throws (cells.map Prod.snd) op = false ∧
      int_max < (list_ref_step (cells.map Prod.snd) op).length ∧
      DoublyLinkedList.apply d op = .error ListFault.int_overflow) := by
  cases op with
  | push_front v =>
    by_cases hlt : cells.length < int_max
    · obtain ⟨d', h1, h2⟩ := h.dpush_front hlt v
      exact Or.inr (Or.inl ⟨rfl, by simp [list_ref_step]; omega, d', _, h1, h2, rfl⟩)
    · exact Or.inr (Or.inr ⟨rfl, by simp [list_ref_step]; omega,
        h.dpush_front_overflow (by omega) v⟩)
  | push_back v =>
    by_cases hlt : cells.length < int_max
    · obtain ⟨d', h1, h2⟩ := h.dpush_back hlt v
      exact Or.inr (Or.inl ⟨rfl, by simp [list_ref_step]; omega, d', _, h1, h2,
        by simp [list_ref_step]⟩)
    · exact Or.inr (Or.inr ⟨rfl, by simp [list_ref_step]; omega,
        h.dpush_back_overflow (by omega) v⟩)
  | pop_front =>
    cases cells with
    | nil => exact Or.inl ⟨rfl, h.dpop_front_nil⟩
    | cons c rest =>
      have hl : (list_ref_step ((c :: rest).map Prod.snd) (ListOp.pop_front : ListOp T)).length
          ≤ int_max := by simp [list_ref_step] at hb ⊢; omega
      cases rest with
      | nil =>
        obtain ⟨d', h1, h2⟩ := h.dpop_front_single
        exact Or.inr (Or.inl ⟨rfl, hl, d', _, h1, h2, rfl⟩)
      | cons c2 rest =>
        obtain ⟨d', h1, h2⟩ := h.dpop_front_many
        exact Or.inr (Or.inl ⟨rfl, hl, d', _, h1, h2, rfl⟩)
  | pop_back =>
    rcases List.eq_nil_or_concat cells with rfl | ⟨init, c, rfl⟩
    · exact Or.inl ⟨rfl, h.dpop_back_nil⟩
    · simp only [List.concat_eq_append] at h hb ⊢
      have hthrow : list_ref_throws ((init ++ [c]).map Prod.snd) (ListOp.pop_back : ListOp T)
          = false := by simp [list_ref_throws]
      have hdrop : init.map Prod.snd =
          list_ref_step ((init ++ [c]).map Prod.snd) (ListOp.pop_back : ListOp T) := by
        simp [list_ref_step, List.dropLast_concat]
      have hlen : (list_ref_step ((init ++ [c]).map Prod.snd)
          (ListOp.pop_back : ListOp T)).length ≤ int_max := by
        rw [← hdrop]; simp at hb ⊢; omega
      rcases List.eq_nil_or_concat init with rfl | ⟨pre, p, rfl⟩
      · obtain ⟨d', h1, h2⟩ := Rep.dpop_back_single (by simpa using h)
        exact Or.inr (Or.inl ⟨hthrow, hlen, d', _, h1, h2, hdrop⟩)
      · simp only [List.concat_eq_append] at h hthrow hdrop hlen ⊢
        obtain ⟨d', h1, h2⟩ := Rep.dpop_back_many (by simpa using h)
        exact Or.inr (Or.inl ⟨hthrow, hlen, d', _, h1, h2, hdrop⟩)

theorem Rep.dstep {d : DoublyLinkedList T} {cells : List (Nat × T)} (h : Rep d cells)
    (hb : cells.length ≤ int_max) (op : ListOp T) :
    ((list_ref_step (cells.map Prod.snd) op).length ≤ int_max ∧
      ∃ d' cells', DoublyLinkedList.step d op = .ok d' ∧ Rep d' cells' ∧
        cells'.map Prod.snd = list_ref_step (cells.map Prod.snd) op) ∨
    (int_max < (list_ref_step (cells.map Prod.snd) op).length ∧
      DoublyLinkedList.step d op = .error ListFault.int_overflow) := by
  rcases h.dapply hb op with ⟨ht, he⟩ | ⟨_, hl, d', cells', he, hr, hm⟩ | ⟨_, hl, he⟩
  · have hsame := SinglyLinkedList.ref_step_of_throws _ op ht
    refine Or.inl ⟨by rw [hsame]; simpa using hb, d, cells, ?_, h, hsame.symm⟩
    simp only [DoublyLinkedList.step, he]
  · refine Or.inl ⟨hl, d', cells', ?_, hr, hm⟩
    simp only [DoublyLinkedList.step, he]
  · refine Or.inr ⟨hl, ?_⟩
    simp only [DoublyLinkedList.step, he]

/-- The requests `ops` from a doubly linked list that holds `cells`: while the reference list
never exceeds `int_max` elements the run ends with a list that holds the reference result;
otherwise it ends in the overflow of `count`. -/
theorem drun_from_spec (ops : List (ListOp T)) (d : DoublyLinkedList T)
    (cells : List (Nat × T)) (h : Rep d cells) (hb : cells.length ≤ int_max) :
    (list_peak (cells.map Prod.snd) ops ≤ int_max →
      ∃ d' cells', run_from d ops = .ok d' ∧ Rep d' cells' ∧
        cells'.map Prod.snd = ops.foldl list_ref_step (cells.map Prod.snd)) ∧
    (int_max < list_peak (cells.map Prod.snd) ops →
      run_from d ops = .error ListFault.int_overflow) := by
  induction ops generalizing d cells with
  | nil =>
    refine ⟨fun _ => ⟨d, cells, rfl, h, rfl⟩, fun hlt => ?_⟩
    simp only [list_peak, List.length_map] at hlt
    omega
  | cons op ops ih =>
    have hpk := SinglyLinkedList.length_le_list_peak
      (list_ref_step (cells.map Prod.snd) op) ops
    rcases h.dstep hb op with ⟨hl, d', cells', hs, hr, hm⟩ | ⟨hl, hs⟩
    · have hb' : cells'.length ≤ int_max := by
        rw [← List.length_map cells' Prod.snd, hm]; exact hl
      obtain ⟨i1, i2⟩ := ih d' cells' hr hb'
      rw [hm] at i1 i2
      constructor
      · intro hp
        simp only [list_peak] at hp
        obtain ⟨s2, c2, e1, e2, e3⟩ := i1 (le_trans (le_max_right _ _) hp)
        exact ⟨s2, c2, by simp only [run_from, hs]; exact e1, e2, e3⟩
      · intro hp
        simp only [list_peak] at hp
        have hlen : (cells.map Prod.snd).length ≤ int_max := by simpa using hb
        have hp2 : int_max < list_peak (list_ref_step (cells.map Prod.snd) op) ops := by
          rcases Nat.lt_or_ge int_max
            (list_peak (list_ref_step (cells.map Prod.snd) op) ops) with h1 | h1
          · exact h1
          · exact absurd hp (not_lt.mpr (max_le hlen h1))
        simp only [run_from, hs]
        exact i2 hp2
    · constructor
      · intro hp
        simp only [list_peak] at hp
        have := le_trans (le_max_right _ _) hp
        omega
      · intro _
        simp only [run_from, hs]

theorem drun_spec (ops : List (ListOp T)) :
    (list_peak [] ops ≤ int_max →
      ∃ d cells, run ops = .ok d ∧ Rep d cells ∧ cells.map Prod.snd = list_ref ops) ∧
    (int_max < list_peak [] ops → run ops = .error ListFault.int_overflow) :=
  drun_from_spec ops new [] dRep_new (Nat.zero_le _)

/-- The traversal along `next` from `head` meets the cells in order, dereferences no deleted
cell and ends at `nullptr`, whatever the number of steps allowed beyond the number of nodes. -/
theorem Rep.next_walk_eq {d : DoublyLinkedList T} {cells : List (Nat × T)} (h : Rep d cells)
    (steps : Nat) (hs : cells.length ≤ steps) :
    next_walk d.heap steps d.head = .ok (cells.map Prod.fst) := by
  rw [h.2.2.1]
  exact next_walk_chain d.heap none cells steps h.2.1 hs

/-- The traversal along `prev` from `tail` meets the cells in reverse order, dereferences no
deleted cell and ends at `nullptr`. -/
theorem Rep.prev_walk_eq {d : DoublyLinkedList T} {cells : List (Nat × T)} (h : Rep d cells)
    (steps : Nat) (hs : cells.length ≤ steps) :
    prev_walk d.heap steps d.tail = .ok (cells.map Prod.fst).reverse := by
  rw [h.2.2.2.1]
  exact prev_walk_chain d.heap none cells steps h.2.1 hs

/-- The links of every node: its `next` is the address that follows it in the list (or
`nullptr`), its `prev` the address before it (or `nullptr`). -/
theorem Rep.links {d : DoublyLinkedList T} {cells : List (Nat × T)} (h : Rep d cells)
    (pre : List Nat) (a : Nat) (post : List Nat)
    (hsplit : cells.map Prod.fst = pre ++ a :: post) :
    ∃ n, load d.heap (some a) = .ok (a, n) ∧ n.next = post.head? ∧ n.prev = pre.getLast? := by
  obtain ⟨cpre, crest, hc, hpre, hrest⟩ := List.map_eq_append_iff.mp hsplit
  obtain ⟨c, cpost, hcr, hca, hpost⟩ := List.map_eq_cons_iff.mp hrest
  subst hc hcr
  have hch := h.2.1
  rw [dchain_append] at hch
  have hnode : d.heap.getD c.1 none =
      some { data := c.2, next := link none cpost, prev := last_addr none cpre } := hch.2.1
  rw [← hca]
  refine ⟨_, load_of_getD _ _ _ hnode, ?_, ?_⟩
  · simp only
    rw [link_none_eq, hpost]
  · simp only
    rw [last_addr_none_eq, hpre]

theorem Rep.dhead_eq {d : DoublyLinkedList T} {cells : List (Nat × T)} (h : Rep d cells) :
    d.head = (cells.map Prod.fst).head? := by
  rw [h.2.2.1, link_none_eq]

theorem Rep.dtail_eq {d : DoublyLinkedList T} {cells : List (Nat × T)} (h : Rep d cells) :
    d.tail = (cells.map Prod.fst).getLast? := by
  rw [h.2.2.2.1, last_addr_none_eq]

end DoublyLinkedList

/-! ## Chained table: results -/

section ChainedResults

variable {K V : Type} [DecidableEq K]

/-- C1 (chained round trip).  For every load test, hash function, initial capacity and request
sequence on a newly constructed `HashTable`, `search k` agrees with the reference finite map:
it returns the value of the last insert of `k` when no later request touched `k`, and reports
"not found" when `k` was never inserted or its last request was a remove. -/
theorem chained_round_trip (over : Nat → Nat → Bool) (hash : K → Nat) (initial_capacity : Nat)
    (ops : List (Op K V)) (k : K) :
    HashTable.search hash (HashTable.run over hash initial_capacity ops) k = ref_map ops k ∧
    (∀ pre post v, ops = pre ++ Op.insert k v :: post → (∀ op ∈ post, op.key ≠ k) →
      HashTable.search hash (HashTable.run over hash initial_capacity ops) k = some v) ∧
    (∀ pre post, ops = pre ++ Op.remove k :: post → (∀ op ∈ post, op.key ≠ k) →
      HashTable.search hash (HashTable.run over hash initial_capacity ops) k = none) ∧
    ((∀ v, Op.insert k v ∉ ops) →
      HashTable.search hash (HashTable.run over hash initial_capacity ops) k = none) := by
  have hs := HashTable.search_run over hash initial_capacity ops k
  refine ⟨hs, ?_, ?_, ?_⟩
  · intro pre post v he hpost
    rw [hs, he]; exact ref_map_last_insert pre post k v hpost
  · intro pre post he hpost
    rw [hs, he]; exact ref_map_last_remove pre post k hpost
  · intro h
    rw [hs]; exact ref_map_never_inserted ops k h

/-- C7 (size accounting, chained).  After any request sequence on a new `HashTable`, `size()` is
the number of chain nodes, the node keys are pairwise distinct and are exactly the keys that
`search` finds (equivalently the keys bound in the reference map); inserting an absent key adds
one, inserting a present key adds nothing, a remove returning `true` subtracts one, a remove
returning `false` changes nothing; `empty()` holds exactly when `size()` is zero. -/
theorem chained_size_accounting (over : Nat → Nat → Bool) (hash : K → Nat)
    (initial_capacity : Nat) (ops : List (Op K V)) :
    HashTable.size (HashTable.run over hash initial_capacity ops) =
      (HashTable.nodes (HashTable.run over hash initial_capacity ops)).length ∧
    HashTable.size (HashTable.run over hash initial_capacity ops) =
      (HashTable.keys (HashTable.run over hash initial_capacity ops)).length ∧
    (HashTable.keys (HashTable.run over hash initial_capacity ops)).Nodup ∧
    (∀ k, k ∈ HashTable.keys (HashTable.run over hash initial_capacity ops) ↔
      (HashTable.search hash (HashTable.run over hash initial_capacity ops) k).isSome = true) ∧
    (∀ k, k ∈ HashTable.keys (HashTable.run over hash initial_capacity ops) ↔
      (ref_map ops k).isSome = true) ∧
    (∀ k v, HashTable.search hash (HashTable.run over hash initial_capacity ops) k = none →
      HashTable.size (HashTable.insert over hash (HashTable.run over hash initial_capacity ops) k v)
        = HashTable.size (HashTable.run over hash initial_capacity ops) + 1) ∧
    (∀ k v, (HashTable.search hash (HashTable.run over hash initial_capacity ops) k).isSome = true →
      HashTable.size (HashTable.insert over hash (HashTable.run over hash initial_capacity ops) k v)
        = HashTable.size (HashTable.run over hash initial_capacity ops)) ∧
    (∀ k, (HashTable.remove hash (HashTable.run over hash initial_capacity ops) k).2 = true →
      HashTable.size (HashTable.remove hash (HashTable.run over hash initial_capacity ops) k).1 + 1
        = HashTable.size (HashTable.run over hash initial_capacity ops)) ∧
    (∀ k, (HashTable.remove hash (HashTable.run over hash initial_capacity ops) k).2 = false →
      HashTable.size (HashTable.remove hash (HashTable.run over hash initial_capacity ops) k).1
        = HashTable.size (HashTable.run over hash initial_capacity ops)) ∧
    (HashTable.empty (HashTable.run over hash initial_capacity ops) = true ↔
      HashTable.size (HashTable.run over hash initial_capacity ops) = 0) := by
  have hwf := HashTable.WF_run over hash initial_capacity ops
  have hrun : ∀ k, HashTable.search hash (HashTable.run over hash initial_capacity ops) k
      = ref_map ops k := HashTable.search_run over hash initial_capacity ops
  generalize HashTable.run over hash initial_capacity ops = t at hwf hrun ⊢
  refine ⟨hwf.2.2.2, ?_, hwf.keys_nodup, hwf.mem_keys_iff, ?_, ?_, ?_, ?_, ?_, ?_⟩
  · have := hwf.2.2.2
    simp only [HashTable.size, HashTable.keys, List.length_map]
    exact this
  · intro k
    rw [hwf.mem_keys_iff, hrun]
  · intro k v hs
    have := hwf.size_insert over k v
    simp only [HashTable.size]
    rw [this, hs]; simp
  · intro k v hs
    have := hwf.size_insert over k v
    simp only [HashTable.size]
    rw [this, if_pos hs]
  · intro k hr
    have := hwf.size_remove k
    rw [hr] at this
    simpa [HashTable.size] using this
  · intro k hr
    have := hwf.size_remove k
    rw [hr] at this
    simpa [HashTable.size] using this
  · simp [HashTable.empty, HashTable.size]

/-- C9 (growth preserves all entries, chained).  For every table whose nodes hold pairwise
distinct keys, `resize_and_rehash` yields a table with exactly twice as many buckets, in which
every node (key, value) of the old table is found by `search` with its value, every pair found
by `search` before is still found, no key without a node is found, `size()` and the number of
nodes are unchanged, and every node lies in bucket `hash(key) mod new_capacity`. -/
theorem chained_growth_preserves_entries (hash : K → Nat) (t : HashTable K V)
    (hnd : (HashTable.keys t).Nodup) :
    (HashTable.resize_and_rehash hash t).table.length = 2 * t.table.length ∧
    (∀ k v, ({ key := k, value := v } : Node K V) ∈ HashTable.nodes t →
      HashTable.search hash (HashTable.resize_and_rehash hash t) k = some v) ∧
    (∀ k v, HashTable.search hash t k = some v →
      HashTable.search hash (HashTable.resize_and_rehash hash t) k = some v) ∧
    (∀ k, k ∉ HashTable.keys t →
      HashTable.search hash (HashTable.resize_and_rehash hash t) k = none) ∧
    HashTable.size (HashTable.resize_and_rehash hash t) = HashTable.size t ∧
    (HashTable.nodes (HashTable.resize_and_rehash hash t)).length = (HashTable.nodes t).length ∧
    (∀ i, i < (HashTable.resize_and_rehash hash t).table.length →
      ∀ n ∈ (HashTable.resize_and_rehash hash t).table.getD i [],
        hash n.key % (HashTable.resize_and_rehash hash t).table.length = i) := by
  obtain ⟨h1, h2, h3⟩ := HashTable.resize_search_of_nodup hash t hnd
  refine ⟨HashTable.resize_length hash t, h1, ?_, h2, rfl, HashTable.resize_nodes_length hash t, h3⟩
  intro k v hs
  exact h1 k v (HashTable.search_mem_nodes hash t k v hs)

/-- Instance of `chained_round_trip`: capacity 4, identity hash, exact load test; key 1 is
inserted, overwritten, and untouched by the later requests, so `search 1` returns the second
value. -/
theorem chained_round_trip_witness :
    HashTable.search id_hash (HashTable.run load_exceeded id_hash 4
      ([.insert 1 10] ++ Op.insert 1 11 :: [.insert 5 50, .remove 5])) 1 = some 11 :=
  (chained_round_trip load_exceeded id_hash 4
    ([.insert 1 10] ++ Op.insert 1 11 :: [.insert 5 50, .remove 5] : List (Op Nat Nat)) 1).2.1
    [.insert 1 10] [.insert 5 50, .remove 5] 11 rfl (by decide)

/-- Instance of `chained_size_accounting`: capacity 4, identity hash, exact load test, after
insert 1 and insert 5; key 9 is not found, so inserting it adds one to the size. -/
theorem chained_size_accounting_witness :
    HashTable.size (HashTable.insert load_exceeded id_hash
        (HashTable.run load_exceeded id_hash 4 [.insert 1 10, .insert 5 50]) 9 90) =
      HashTable.size (HashTable.run load_exceeded id_hash 4 [.insert 1 10, .insert 5 50]) + 1 :=
  (chained_size_accounting load_exceeded id_hash 4
    ([.insert 1 10, .insert 5 50] : List (Op Nat Nat))).2.2.2.2.2.1 9 90 (by decide)

/-- Instance of `chained_growth_preserves_entries`: two buckets, keys 0 and 2 chained in bucket
0 and key 1 in bucket 1; after growth there are four buckets and key 2 is found. -/
theorem chained_growth_preserves_entries_witness :
    (HashTable.keys ({ table := [[{ key := 0, value := 10 }, { key := 2, value := 30 }],
        [{ key := 1, value := 20 }]], current_size := 3 } : HashTable Nat Nat)).Nodup ∧
    (HashTable.resize_and_rehash id_hash
      ({ table := [[{ key := 0, value := 10 }, { key := 2, value := 30 }],
        [{ key := 1, value := 20 }]], current_size := 3 } : HashTable Nat Nat)).table.length
      = 2 * 2 ∧
    HashTable.search id_hash (HashTable.resize_and_rehash id_hash
      ({ table := [[{ key := 0, value := 10 }, { key := 2, value := 30 }],
        [{ key := 1, value := 20 }]], current_size := 3 } : HashTable Nat Nat)) 2 = some 30 :=
  ⟨by decide,
   (chained_growth_preserves_entries id_hash
      ({ table := [[{ key := 0, value := 10 }, { key := 2, value := 30 }],
        [{ key := 1, value := 20 }]], current_size := 3 } : HashTable Nat Nat) (by decide)).1,
   (chained_growth_preserves_entries id_hash
      ({ table := [[{ key := 0, value := 10 }, { key := 2, value := 30 }],
        [{ key := 1, value := 20 }]], current_size := 3 } : HashTable Nat Nat) (by decide)).2.1
      2 30 (by decide)⟩

/-- C11 (load-factor bound, chained), evaluated at failing inputs.  With the exact load test
and the identity hash: on capacity 4 the inserts of keys 0, 1, 2, 3 never grow the table (the
test runs before the entry is placed and sees at most 3/4), so afterwards `size()` is 4 on 4
buckets and `4 * size <= 3 * capacity` fails; on capacity 1 a single insert already gives
size 1 on 1 bucket. -/
theorem chained_load_bound_exceeded :
    (HashTable.run load_exceeded id_hash 4
      [.insert 0 10, .insert 1 11, .insert 2 12, .insert 3 13]).table.length = 4 ∧
    HashTable.size (HashTable.run load_exceeded id_hash 4
      [.insert 0 10, .insert 1 11, .insert 2 12, .insert 3 13]) = 4 ∧
    ¬ (4 * HashTable.size (HashTable.run load_exceeded id_hash 4
        [.insert 0 10, .insert 1 11, .insert 2 12, .insert 3 13]) ≤
      3 * (HashTable.run load_exceeded id_hash 4
        [.insert 0 10, .insert 1 11, .insert 2 12, .insert 3 13]).table.length) ∧
    (HashTable.run load_exceeded id_hash 1 [.insert 0 10]).table.length = 1 ∧
    HashTable.size (HashTable.run load_exceeded id_hash 1 [.insert 0 10]) = 1 := by
  refine ⟨by decide, by decide, by decide, by decide, by decide⟩

/-- C13 (capacity invariant, chained).  With the exact load test `size / capacity > 3/4`, after
any request sequence on a new `HashTable` of any initial capacity, `size()` is at most the
number of buckets; more precisely `4 * size <= 3 * capacity + 4`. -/
theorem chained_capacity_invariant (hash : K → Nat) (initial_capacity : Nat)
    (ops : List (Op K V)) :
    HashTable.size (HashTable.run load_exceeded hash initial_capacity ops) ≤
      (HashTable.run load_exceeded hash initial_capacity ops).table.length ∧
    4 * HashTable.size (HashTable.run load_exceeded hash initial_capacity ops) ≤
      3 * (HashTable.run load_exceeded hash initial_capacity ops).table.length + 4 := by
  have hb := HashTable.load_bound_run hash initial_capacity ops
  have hpos := (HashTable.WF_run load_exceeded hash initial_capacity ops).1
  simp only [HashTable.size]
  constructor <;> omega

/-- C14 (chained example scenario), evaluated for every hash function.  On a table constructed
with capacity 4 the inserts of "Alice", "Bob" and "Charlie" do not grow the table: the load
test of the third insert sees 2/4.  Afterwards the table still has 4 buckets (not 8);
`size()` is 3 and all three keys are found. -/
theorem chained_example_no_growth (hash : String → Nat) :
    (HashTable.run load_exceeded hash 4
      [.insert "Alice" 88, .insert "Bob" 92, .insert "Charlie" 75]).table.length = 4 ∧
    (HashTable.run load_exceeded hash 4
      [.insert "Alice" 88, .insert "Bob" 92, .insert "Charlie" 75]).table.length ≠ 8 ∧
    HashTable.size (HashTable.run load_exceeded hash 4
      [.insert "Alice" 88, .insert "Bob" 92, .insert "Charlie" 75]) = 3 ∧
    HashTable.search hash (HashTable.run load_exceeded hash 4
      [.insert "Alice" 88, .insert "Bob" 92, .insert "Charlie" 75]) "Alice" = some 88 ∧
    HashTable.search hash (HashTable.run load_exceeded hash 4
      [.insert "Alice" 88, .insert "Bob" 92, .insert "Charlie" 75]) "Bob" = some 92 ∧
    HashTable.search hash (HashTable.run load_exceeded hash 4
      [.insert "Alice" 88, .insert "Bob" 92, .insert "Charlie" 75]) "Charlie" = some 75 := by
  obtain ⟨h1, h2, h3, h4, h5⟩ := HashTable.three_inserts_capacity_four hash
    "Alice" "Bob" "Charlie" (88 : Nat) 92 75 (by decide) (by decide) (by decide)
  exact ⟨h1, by rw [h1]; decide, h2, h3, h4, h5⟩

/-- C16 (chained remove contract).  For every table reached from a new `HashTable` and every
key `k`: `remove k` returns `true` exactly when `k` is found by `search` (equivalently bound in
the reference map); when it returns `true`, `k` is no longer found, the size is one less, the
number of buckets is the same and every other key keeps its `search` result; when it returns
`false` the table (chains, size, capacity) is unchanged. -/
theorem chained_remove_contract (over : Nat → Nat → Bool) (hash : K → Nat)
    (initial_capacity : Nat) (ops : List (Op K V)) (k : K) :
    ((HashTable.remove hash (HashTable.run over hash initial_capacity ops) k).2 = true ↔
      (HashTable.search hash (HashTable.run over hash initial_capacity ops) k).isSome = true) ∧
    ((HashTable.remove hash (HashTable.run over hash initial_capacity ops) k).2 = true ↔
      (ref_map ops k).isSome = true) ∧
    ((HashTable.remove hash (HashTable.run over hash initial_capacity ops) k).2 = true →
      HashTable.search hash
        (HashTable.remove hash (HashTable.run over hash initial_capacity ops) k).1 k = none ∧
      HashTable.size (HashTable.remove hash (HashTable.run over hash initial_capacity ops) k).1
        + 1 = HashTable.size (HashTable.run over hash initial_capacity ops) ∧
      (HashTable.remove hash (HashTable.run over hash initial_capacity ops) k).1.table.length =
        (HashTable.run over hash initial_capacity ops).table.length ∧
      ∀ k', k' ≠ k →
        HashTable.search hash
          (HashTable.remove hash (HashTable.run over hash initial_capacity ops) k).1 k' =
        HashTable.search hash (HashTable.run over hash initial_capacity ops) k') ∧
    ((HashTable.remove hash (HashTable.run over hash initial_capacity ops) k).2 = false →
      (HashTable.remove hash (HashTable.run over hash initial_capacity ops) k).1 =
        HashTable.run over hash initial_capacity ops) := by
  have hwf := HashTable.WF_run over hash initial_capacity ops
  have hrun := HashTable.search_run over hash initial_capacity ops k
  generalize HashTable.run over hash initial_capacity ops = t at hwf hrun ⊢
  have hsnd := HashTable.remove_snd hash t k
  refine ⟨by rw [hsnd], by rw [hsnd, hrun], ?_, HashTable.remove_false hash t k⟩
  intro hr
  refine ⟨hwf.search_remove_self k, ?_, HashTable.remove_table_length hash t k,
    fun k' hk' => hwf.search_remove_frame k k' hk'⟩
  have := hwf.size_remove k
  rw [hr] at this
  simpa [HashTable.size] using this

/-- Instance of `chained_remove_contract`: capacity 4, keys 1 and 5 (same bucket under the
identity hash) inserted; `remove 1` returns `true` and key 5 keeps its value. -/
theorem chained_remove_contract_witness :
    HashTable.search id_hash (HashTable.remove id_hash
      (HashTable.run load_exceeded id_hash 4 [.insert 1 10, .insert 5 50]) 1).1 5 =
    HashTable.search id_hash (HashTable.run load_exceeded id_hash 4 [.insert 1 10, .insert 5 50]) 5 :=
  ((chained_remove_contract load_exceeded id_hash 4
    ([.insert 1 10, .insert 5 50] : List (Op Nat Nat)) 1).2.2.1 (by decide)).2.2.2 5 (by decide)

/-- C25 (bucket-placement invariant, chained).  In every table reached from a new `HashTable`
by `insert` and `remove`: every node stored in bucket `i` has `hash key % capacity = i`, no key
occurs in two nodes, and `current_size` is the number of nodes.  The invariant `WF` (these
facts, with at least one bucket) is preserved from any table by `insert` (growing or not), by
`remove` and by `resize_and_rehash`. -/
theorem chained_bucket_invariant (over : Nat → Nat → Bool) (hash : K → Nat)
    (initial_capacity : Nat) (ops : List (Op K V)) :
    (∀ i, i < (HashTable.run over hash initial_capacity ops).table.length →
      ∀ n ∈ (HashTable.run over hash initial_capacity ops).table.getD i [],
        hash n.key % (HashTable.run over hash initial_capacity ops).table.length = i) ∧
    (HashTable.keys (HashTable.run over hash initial_capacity ops)).Nodup ∧
    (HashTable.run over hash initial_capacity ops).current_size =
      (HashTable.nodes (HashTable.run over hash initial_capacity ops)).length ∧
    HashTable.WF hash (HashTable.run over hash initial_capacity ops) ∧
    (∀ t : HashTable K V, HashTable.WF hash t →
      (∀ k v, HashTable.WF hash (HashTable.insert over hash t k v)) ∧
      (∀ k, HashTable.WF hash (HashTable.remove hash t k).1) ∧
      HashTable.WF hash (HashTable.resize_and_rehash hash t) ∧
      (HashTable.keys t).Nodup) := by
  have h := HashTable.WF_run over hash initial_capacity ops
  exact ⟨h.2.1, h.keys_nodup, h.2.2.2, h,
    fun t ht => ⟨fun k v => ht.wf_insert over k v, fun k => ht.wf_remove k, ht.wf_resize,
      ht.keys_nodup⟩⟩

/-- Instance of `chained_bucket_invariant`: a table of two buckets with the keys 0 and 2 in
bucket 0 and key 1 in bucket 1 satisfies the invariant, and so does the table after growth. -/
theorem chained_bucket_invariant_witness :
    HashTable.WF id_hash ({ table := [[{ key := 0, value := 10 }, { key := 2, value := 30 }],
        [{ key := 1, value := 20 }]], current_size := 3 } : HashTable Nat Nat) ∧
    HashTable.WF id_hash (HashTable.resize_and_rehash id_hash
      ({ table := [[{ key := 0, value := 10 }, { key := 2, value := 30 }],
        [{ key := 1, value := 20 }]], current_size := 3 } : HashTable Nat Nat)) :=
  have hwf : HashTable.WF id_hash
      ({ table := [[{ key := 0, value := 10 }, { key := 2, value := 30 }],
        [{ key := 1, value := 20 }]], current_size := 3 } : HashTable Nat Nat) := by
    refine ⟨by decide, ?_, ?_, by decide⟩
    · intro i hi
      have hi2 : i < 2 := hi
      interval_cases i <;> decide
    · intro i hi
      have hi2 : i < 2 := hi
      interval_cases i <;> decide
  ⟨hwf, ((chained_bucket_invariant load_exceeded id_hash 2 ([] : List (Op Nat Nat))).2.2.2.2
    _ hwf).2.2.1⟩

end ChainedResults

/-! ## Probing table: results -/

section ProbingResults

variable {K V : Type} [DecidableEq K] [Inhabited K] [Inhabited V]

/-- C2 (probing round trip), evaluated at a failing input.  On a table of capacity 4 with the
identity hash, after inserting and removing the keys 1, 2, 3, 4 (every request returns
normally), key 9 was never inserted, yet `search 9` throws "Hash table is full" instead of
returning "not found". -/
theorem probing_round_trip_raises :
    HashTableOA.all_return load_reached id_hash (HashTableOA.new 4) tombstone_requests = true ∧
    ref_map tombstone_requests 9 = none ∧
    HashTableOA.search id_hash (HashTableOA.run load_reached id_hash 4 tombstone_requests) 9
      = .error Fault.table_full := by
  refine ⟨by decide, by decide, by rfl⟩

/-- C3 (tombstone transparency).  In every table reached from a new `HashTableOA`, a key `c`
that `search` finds keeps its value after `remove a` for any other key `a`; in particular after
inserting `a`, `b`, `c` in that order (whatever their hashes, so also when all three hash to the
same slot), `remove a` succeeds and `search c` still returns the value of `c`. -/
theorem tombstone_transparency (over : Nat → Nat → Bool) (hash : K → Nat)
    (initial_capacity : Nat) (ops : List (Op K V)) :
    (∀ a c v, a ≠ c →
      HashTableOA.search hash (HashTableOA.run over hash initial_capacity ops) c = .ok (some v) →
      HashTableOA.search hash
        (HashTableOA.remove hash (HashTableOA.run over hash initial_capacity ops) a).1 c
        = .ok (some v)) ∧
    (∀ a b c va vb vc, a ≠ b → a ≠ c → b ≠ c →
      HashTableOA.all_return over hash (HashTableOA.run over hash initial_capacity ops)
        [.insert a va, .insert b vb, .insert c vc] = true →
      (HashTableOA.remove hash (HashTableOA.run over hash initial_capacity
          (ops ++ [.insert a va, .insert b vb, .insert c vc])) a).2 = .ok true ∧
      HashTableOA.search hash (HashTableOA.remove hash (HashTableOA.run over hash initial_capacity
          (ops ++ [.insert a va, .insert b vb, .insert c vc])) a).1 c = .ok (some vc)) := by
  have hinv := HashTableOA.Inv_run over hash initial_capacity ops
  constructor
  · intro a c v hac hs
    exact HashTableOA.search_remove_other hash _ a c v hinv.1 hac hs
  · intro a b c va vb vc hab hac hbc hret
    have hrun : HashTableOA.run over hash initial_capacity
        (ops ++ [.insert a va, .insert b vb, .insert c vc]) =
        (HashTableOA.insert over hash (HashTableOA.insert over hash (HashTableOA.insert over hash
          (HashTableOA.run over hash initial_capacity ops) a va).1 b vb).1 c vc).1 := by
      simp [HashTableOA.run, List.foldl_append, HashTableOA.step]
    rw [hrun]
    generalize HashTableOA.run over hash initial_capacity ops = t at hinv hret ⊢
    simp only [HashTableOA.all_return, HashTableOA.returns, HashTableOA.step, Bool.and_true,
      Bool.and_eq_true] at hret
    obtain ⟨h1, h2, h3⟩ := hret
    have h1 := HashTableOA.isOk_unit _ h1
    have h2 := HashTableOA.isOk_unit _ h2
    have h3 := HashTableOA.isOk_unit _ h3
    have i1 := hinv.inv_insert over a va
    have i2 := i1.inv_insert over b vb
    have i3 := i2.inv_insert over c vc
    have ha : HashTableOA.holds (HashTableOA.insert over hash (HashTableOA.insert over hash
        (HashTableOA.insert over hash t a va).1 b vb).1 c vc).1 a va := by
      rw [i2.holds_insert over c vc h3, i1.holds_insert over b vb h2,
        hinv.holds_insert over a va h1]
      exact Or.inr ⟨hac, Or.inr ⟨hab, Or.inl ⟨rfl, rfl⟩⟩⟩
    have hc : HashTableOA.holds (HashTableOA.insert over hash (HashTableOA.insert over hash
        (HashTableOA.insert over hash t a va).1 b vb).1 c vc).1 c vc := by
      rw [i2.holds_insert over c vc h3]
      exact Or.inl ⟨rfl, rfl⟩
    refine ⟨i3.remove_of_holds a va ha, ?_⟩
    exact HashTableOA.search_remove_other hash _ a c vc i3.1 hac (i3.search_of_holds c vc hc)

/-- Instance of `tombstone_transparency`: capacity 5, every key hashed to slot 0, keys 1, 2, 3
inserted in that order; after `remove 1` the key 3 is still found with its value. -/
theorem tombstone_transparency_witness :
    HashTableOA.search zero_hash (HashTableOA.remove zero_hash
      (HashTableOA.run load_reached zero_hash 5
        ([] ++ [.insert 1 10, .insert 2 20, .insert 3 30])) 1).1 3 = .ok (some 30) :=
  ((tombstone_transparency load_reached zero_hash 5 ([] : List (Op Nat Nat))).2
    1 2 3 10 20 30 (by decide) (by decide) (by decide) (by decide)).2

/-- C4 (slot reuse), evaluated at a failing input.  Capacity 5, identity hash: key 0 is
inserted and removed, which leaves slot 0 `DELETED`; key 5 also starts its probe walk at slot 0,
but `find_slot` passes over the `DELETED` slot and returns the `EMPTY` slot 1, so `insert 5`
stores the entry in slot 1 and slot 0 stays `DELETED` (the size does go from 0 to 1). -/
theorem probing_deleted_slot_not_reused :
    HashTableOA.run load_reached id_hash 5 [.insert 0 10, .remove 0] =
      { table := [{ key := 0, value := 10, state := SlotState.DELETED },
                  { key := 0, value := 0, state := SlotState.EMPTY },
                  { key := 0, value := 0, state := SlotState.EMPTY },
                  { key := 0, value := 0, state := SlotState.EMPTY },
                  { key := 0, value := 0, state := SlotState.EMPTY }],
        current_size := 0 } ∧
    id_hash 5 % 5 = 0 ∧
    HashTableOA.find_slot id_hash
      (HashTableOA.run load_reached id_hash 5 [.insert 0 10, .remove 0]) 5 = .ok 1 ∧
    HashTableOA.insert load_reached id_hash
      (HashTableOA.run load_reached id_hash 5 [.insert 0 10, .remove 0]) 5 50 =
      ({ table := [{ key := 0, value := 10, state := SlotState.DELETED },
                   { key := 5, value := 50, state := SlotState.OCCUPIED },
                   { key := 0, value := 0, state := SlotState.EMPTY },
                   { key := 0, value := 0, state := SlotState.EMPTY },
                   { key := 0, value := 0, state := SlotState.EMPTY }],
         current_size := 1 }, .ok ()) := by
  refine ⟨by decide, by decide, by rfl, by rfl⟩

/-- C5 (not-found is never thrown), evaluated at two failing inputs.  After the tombstone
requests on capacity 4, and after two inserts on capacity 2, the table has no `EMPTY` slot; for
a key that is not present `search` and `remove` both throw "Hash table is full". -/
theorem probing_miss_raises :
    HashTableOA.lookup (HashTableOA.run load_reached id_hash 4 tombstone_requests) 9 = none ∧
    HashTableOA.search id_hash (HashTableOA.run load_reached id_hash 4 tombstone_requests) 9
      = .error Fault.table_full ∧
    (HashTableOA.remove id_hash (HashTableOA.run load_reached id_hash 4 tombstone_requests) 9).2
      = .error Fault.table_full ∧
    HashTableOA.lookup (HashTableOA.run load_reached id_hash 2 filling_requests) 2 = none ∧
    HashTableOA.search id_hash (HashTableOA.run load_reached id_hash 2 filling_requests) 2
      = .error Fault.table_full ∧
    (HashTableOA.remove id_hash (HashTableOA.run load_reached id_hash 2 filling_requests) 2).2
      = .error Fault.table_full := by
  refine ⟨by decide, by rfl, by rfl, by decide, by rfl, by rfl⟩

/-- C6 (full-table fault unreachable), evaluated at a failing input.  After the tombstone
requests on capacity 4 (all of which return normally) the size is 0, so the load test never
asks for growth, but no slot is `EMPTY`: all four are `DELETED`.  `insert`, `search` and
`remove` of a new key then throw "Hash table is full". -/
theorem probing_table_fills :
    HashTableOA.all_return load_reached id_hash (HashTableOA.new 4) tombstone_requests = true ∧
    HashTableOA.run load_reached id_hash 4 tombstone_requests =
      { table := [{ key := 4, value := 40, state := SlotState.DELETED },
                  { key := 1, value := 10, state := SlotState.DELETED },
                  { key := 2, value := 20, state := SlotState.DELETED },
                  { key := 3, value := 30, state := SlotState.DELETED }],
        current_size := 0 } ∧
    HashTableOA.has_empty (HashTableOA.run load_reached id_hash 4 tombstone_requests) = false ∧
    (HashTableOA.insert load_reached id_hash
      (HashTableOA.run load_reached id_hash 4 tombstone_requests) 9 90).2
      = .error Fault.table_full ∧
    HashTableOA.search id_hash (HashTableOA.run load_reached id_hash 4 tombstone_requests) 9
      = .error Fault.table_full ∧
    (HashTableOA.remove id_hash (HashTableOA.run load_reached id_hash 4 tombstone_requests) 9).2
      = .error Fault.table_full := by
  refine ⟨by decide, by decide, by decide, by rfl, by rfl, by rfl⟩

/-- C8 (size accounting, probing).  In every table reached from a new `HashTableOA`, `size()`
is the number of `OCCUPIED` slots and the `OCCUPIED` slots hold pairwise distinct keys; when
no request threw, the keys in `OCCUPIED` slots are exactly the keys bound in the reference map.
An `insert` that returns adds one to the size for a key not present and nothing for a key
present; a `remove` returning `true` subtracts one; any other `remove` leaves the table, and so
the size, unchanged.  For a key present `remove` returns `true`, and `insert` returns normally
when the load test does not fire below half load. -/
theorem probing_size_accounting (over : Nat → Nat → Bool) (hash : K → Nat)
    (initial_capacity : Nat) (ops : List (Op K V)) :
    HashTableOA.size (HashTableOA.run over hash initial_capacity ops) =
      HashTableOA.occupied_count (HashTableOA.run over hash initial_capacity ops) ∧
    (HashTableOA.occupied_keys (HashTableOA.run over hash initial_capacity ops)).Nodup ∧
    (HashTableOA.all_return over hash (HashTableOA.new initial_capacity) ops = true →
      ∀ k, k ∈ HashTableOA.occupied_keys (HashTableOA.run over hash initial_capacity ops) ↔
        (ref_map ops k).isSome = true) ∧
    (∀ k v, k ∉ HashTableOA.occupied_keys (HashTableOA.run over hash initial_capacity ops) →
      (HashTableOA.insert over hash (HashTableOA.run over hash initial_capacity ops) k v).2
        = .ok () →
      HashTableOA.size
        (HashTableOA.insert over hash (HashTableOA.run over hash initial_capacity ops) k v).1 =
        HashTableOA.size (HashTableOA.run over hash initial_capacity ops) + 1) ∧
    (∀ k v, k ∈ HashTableOA.occupied_keys (HashTableOA.run over hash initial_capacity ops) →
      (HashTableOA.insert over hash (HashTableOA.run over hash initial_capacity ops) k v).2
        = .ok () →
      HashTableOA.size
        (HashTableOA.insert over hash (HashTableOA.run over hash initial_capacity ops) k v).1 =
        HashTableOA.size (HashTableOA.run over hash initial_capacity ops)) ∧
    (∀ k, (HashTableOA.remove hash (HashTableOA.run over hash initial_capacity ops) k).2
        = .ok true →
      HashTableOA.size
        (HashTableOA.remove hash (HashTableOA.run over hash initial_capacity ops) k).1 + 1 =
        HashTableOA.size (HashTableOA.run over hash initial_capacity ops)) ∧
    (∀ k, (HashTableOA.remove hash (HashTableOA.run over hash initial_capacity ops) k).2
        ≠ .ok true →
      (HashTableOA.remove hash (HashTableOA.run over hash initial_capacity ops) k).1 =
        HashTableOA.run over hash initial_capacity ops) ∧
    (∀ k, k ∈ HashTableOA.occupied_keys (HashTableOA.run over hash initial_capacity ops) →
      (HashTableOA.remove hash (HashTableOA.run over hash initial_capacity ops) k).2
        = .ok true) ∧
    (HashTableOA.half_is_light over →
      ∀ k v, k ∈ HashTableOA.occupied_keys (HashTableOA.run over hash initial_capacity ops) →
        (HashTableOA.insert over hash (HashTableOA.run over hash initial_capacity ops) k v).2
          = .ok ()) := by
  have hinv := HashTableOA.Inv_run over hash initial_capacity ops
  refine ⟨hinv.2.1, hinv.occupied_keys_nodup, ?_, ?_, ?_, ?_, ?_, ?_, ?_⟩
  · intro hret k
    rw [HashTableOA.mem_occupied_keys_iff_lookup,
      HashTableOA.lookup_run over hash initial_capacity ops hret]
  · intro k v hk hok
    exact hinv.size_insert_new over k v hk hok
  · intro k v hk hok
    exact hinv.size_insert_old over k v hk hok
  · intro k hok
    exact hinv.size_remove_true k hok
  · intro k hne
    exact HashTableOA.remove_unchanged hash _ k hne
  · intro k hk
    obtain ⟨v, hv⟩ := (HashTableOA.mem_occupied_keys_iff _ k).mp hk
    exact hinv.remove_of_holds k v hv
  · intro hover k v hk
    obtain ⟨w, j, hj, hjo, hjk, _⟩ := (HashTableOA.mem_occupied_keys_iff _ k).mp hk
    rcases HashTableOA.result_cases
      (HashTableOA.insert over hash (HashTableOA.run over hash initial_capacity ops) k v).2
      with hr | ⟨e, hr⟩
    · exact hr
    · exact absurd (Or.inr ⟨hjo, hjk⟩)
        ((HashTableOA.insert_error_spec over hash hover _ k v e hinv.1 hr).2.2.2 j hj)

/-- Instance of `probing_size_accounting`: capacity 5, identity hash, requests insert 1,
insert 2, remove 1, all returning normally; key 2 is in an `OCCUPIED` slot exactly when the
reference map binds it. -/
theorem probing_size_accounting_witness :
    2 ∈ HashTableOA.occupied_keys
        (HashTableOA.run load_reached id_hash 5 [.insert 1 10, .insert 2 20, .remove 1]) ↔
      (ref_map [Op.insert 1 10, Op.insert 2 20, Op.remove 1] 2).isSome = true :=
  (probing_size_accounting load_reached id_hash 5
    ([.insert 1 10, .insert 2 20, .remove 1] : List (Op Nat Nat))).2.2.1 (by decide) 2

/-- C10 (growth preserves all entries, probing).  For a load test under which a table filled
to less than half is not over the threshold, and every table reached from a new `HashTableOA`:
`resize_and_rehash` returns normally, doubles the number of slots, every (key, value) pair held
in an `OCCUPIED` slot before is returned by `search` afterwards, every key not held in an
`OCCUPIED` slot before is reported "not found", and `size()` afterwards is the number of slots
re-inserted (the `OCCUPIED` slots of the old array), which is `size()` before. -/
theorem probing_growth_preserves_entries (over : Nat → Nat → Bool) (hash : K → Nat)
    (hover : HashTableOA.half_is_light over) (initial_capacity : Nat) (ops : List (Op K V)) :
    (HashTableOA.resize_and_rehash over hash
      (HashTableOA.run over hash initial_capacity ops)).2 = .ok () ∧
    (HashTableOA.resize_and_rehash over hash
      (HashTableOA.run over hash initial_capacity ops)).1.table.length =
      2 * (HashTableOA.run over hash initial_capacity ops).table.length ∧
    (∀ j, j < (HashTableOA.run over hash initial_capacity ops).table.length →
      ((HashTableOA.run over hash initial_capacity ops).table.getD j HashTableOA.fresh).state
        = SlotState.OCCUPIED →
      HashTableOA.search hash (HashTableOA.resize_and_rehash over hash
          (HashTableOA.run over hash initial_capacity ops)).1
        ((HashTableOA.run over hash initial_capacity ops).table.getD j HashTableOA.fresh).key =
        .ok (some
          ((HashTableOA.run over hash initial_capacity ops).table.getD j HashTableOA.fresh).value)) ∧
    (∀ k, k ∉ HashTableOA.occupied_keys (HashTableOA.run over hash initial_capacity ops) →
      HashTableOA.search hash (HashTableOA.resize_and_rehash over hash
          (HashTableOA.run over hash initial_capacity ops)).1 k = .ok none) ∧
    HashTableOA.size (HashTableOA.resize_and_rehash over hash
        (HashTableOA.run over hash initial_capacity ops)).1 =
      HashTableOA.occupied_count (HashTableOA.run over hash initial_capacity ops) ∧
    HashTableOA.size (HashTableOA.resize_and_rehash over hash
        (HashTableOA.run over hash initial_capacity ops)).1 =
      HashTableOA.size (HashTableOA.run over hash initial_capacity ops) := by
  have hinv := HashTableOA.Inv_run over hash initial_capacity ops
  generalize HashTableOA.run over hash initial_capacity ops = t at hinv ⊢
  obtain ⟨h1, h2, h3, h4, h5, h6⟩ := hinv.inv_resize over hover
  refine ⟨h1, h3, ?_, ?_, ?_, h6⟩
  · intro j hj ho
    exact h2.search_of_holds _ _ ((h5 _ _).mpr ⟨j, hj, ho, rfl, rfl⟩)
  · intro k hk
    apply HashTableOA.search_absent hash _ k h4
    intro v hv
    exact hk ((HashTableOA.mem_occupied_keys_iff t k).mpr ⟨v, (h5 k v).mp hv⟩)
  · simp only [HashTableOA.size]
    rw [h6]
    exact hinv.2.1

/-- Instance of `probing_growth_preserves_entries`: the exact load test, capacity 5, identity
hash, after insert 1, insert 6, remove 1; growth returns normally and keeps key 6. -/
theorem probing_growth_preserves_entries_witness :
    HashTableOA.half_is_light load_reached ∧
    (HashTableOA.resize_and_rehash load_reached id_hash
      (HashTableOA.run load_reached id_hash 5 [.insert 1 10, .insert 6 60, .remove 1])).2
      = .ok () ∧
    HashTableOA.size (HashTableOA.resize_and_rehash load_reached id_hash
      (HashTableOA.run load_reached id_hash 5 [.insert 1 10, .insert 6 60, .remove 1])).1 =
      HashTableOA.size
        (HashTableOA.run load_reached id_hash 5 [.insert 1 10, .insert 6 60, .remove 1]) :=
  ⟨HashTableOA.load_reached_half_is_light,
   (probing_growth_preserves_entries load_reached id_hash HashTableOA.load_reached_half_is_light 5
      ([.insert 1 10, .insert 6 60, .remove 1] : List (Op Nat Nat))).1,
   (probing_growth_preserves_entries load_reached id_hash HashTableOA.load_reached_half_is_light 5
      ([.insert 1 10, .insert 6 60, .remove 1] : List (Op Nat Nat))).2.2.2.2.2⟩

/-- C12 (strict capacity invariant, probing), evaluated at failing inputs.  With the exact load
test and the identity hash: a new table of capacity 1 holds one entry after one insert, a new
table of capacity 3 holds three entries after three inserts, and a table of capacity 1 grows
to 2 slots at the second insert and is full again; in each case every request returns normally
and `size()` equals the number of slots. -/
theorem probing_table_full_after_insert :
    HashTableOA.all_return load_reached id_hash (HashTableOA.new 1) [.insert 1 10] = true ∧
    HashTableOA.size (HashTableOA.run load_reached id_hash 1 [.insert 1 10]) = 1 ∧
    (HashTableOA.run load_reached id_hash 1 [.insert 1 10]).table.length = 1 ∧
    HashTableOA.all_return load_reached id_hash (HashTableOA.new 3)
      [.insert 1 10, .insert 2 20, .insert 3 30] = true ∧
    HashTableOA.size (HashTableOA.run load_reached id_hash 3
      [.insert 1 10, .insert 2 20, .insert 3 30]) = 3 ∧
    (HashTableOA.run load_reached id_hash 3
      [.insert 1 10, .insert 2 20, .insert 3 30]).table.length = 3 ∧
    HashTableOA.all_return load_reached id_hash (HashTableOA.new 1)
      [.insert 1 10, .insert 2 20] = true ∧
    HashTableOA.size (HashTableOA.run load_reached id_hash 1 [.insert 1 10, .insert 2 20]) = 2 ∧
    (HashTableOA.run load_reached id_hash 1 [.insert 1 10, .insert 2 20]).table.length = 2 := by
  refine ⟨by decide, by decide, by decide, by decide, by decide, by decide, by decide,
    by decide, by decide⟩

/-- C15 (probing example scenario), evaluated for every hash function.  On a table constructed
with capacity 5 the inserts of "Alice", "Bob", "Charlie" and "David" all return normally and
none grows the table: the load test of the fourth insert sees 3/5.  Afterwards the table still
has 5 slots (not 10) and `size()` is 4. -/
theorem probing_example_no_growth (hash : String → Nat) :
    HashTableOA.all_return load_reached hash (HashTableOA.new 5)
      [.insert "Alice" 88, .insert "Bob" 92, .insert "Charlie" 75, .insert "David" 100] = true ∧
    (HashTableOA.run load_reached hash 5
      [.insert "Alice" 88, .insert "Bob" 92, .insert "Charlie" 75]).table.length = 5 ∧
    (HashTableOA.run load_reached hash 5
      [.insert "Alice" 88, .insert "Bob" 92, .insert "Charlie" 75, .insert "David" 100]
      ).table.length = 5 ∧
    (HashTableOA.run load_reached hash 5
      [.insert "Alice" 88, .insert "Bob" 92, .insert "Charlie" 75, .insert "David" 100]
      ).table.length ≠ 10 ∧
    HashTableOA.size (HashTableOA.run load_reached hash 5
      [.insert "Alice" 88, .insert "Bob" 92, .insert "Charlie" 75, .insert "David" 100]) = 4 := by
  obtain ⟨h1, h2, _, h4, h5⟩ := HashTableOA.four_inserts_capacity_five hash
    "Alice" "Bob" "Charlie" "David" (88 : Nat) 92 75 100
    (by decide) (by decide) (by decide) (by decide) (by decide) (by decide)
  exact ⟨h1, h2, h4, by rw [h4]; decide, h5⟩

/-- C21 (postcondition of `find_slot`).  For every table with at least one slot and every key,
with `start = hash key % capacity`: either `find_slot` returns the index `(start + d) %
capacity` of the first slot on the walk from `start` that is `EMPTY` or `OCCUPIED` with an
equal key, every slot visited before it being neither, or it throws "table is full"; it throws
exactly when no slot of the whole array is `EMPTY` or `OCCUPIED` with that key; an index it
returns is inside the array and never that of a `DELETED` slot. -/
theorem find_slot_postcondition (hash : K → Nat) (t : HashTableOA K V) (key : K)
    (hcap : 1 ≤ t.table.length) :
    ((∃ d, d < t.table.length ∧
        HashTableOA.find_slot hash t key =
          .ok ((hash key % t.table.length + d) % t.table.length) ∧
        ((t.table.getD ((hash key % t.table.length + d) % t.table.length)
            HashTableOA.fresh).state = SlotState.EMPTY ∨
          ((t.table.getD ((hash key % t.table.length + d) % t.table.length)
              HashTableOA.fresh).state = SlotState.OCCUPIED ∧
            (t.table.getD ((hash key % t.table.length + d) % t.table.length)
              HashTableOA.fresh).key = key)) ∧
        ∀ e, e < d →
          (t.table.getD ((hash key % t.table.length + e) % t.table.length)
            HashTableOA.fresh).state ≠ SlotState.EMPTY ∧
          ¬ ((t.table.getD ((hash key % t.table.length + e) % t.table.length)
              HashTableOA.fresh).state = SlotState.OCCUPIED ∧
            (t.table.getD ((hash key % t.table.length + e) % t.table.length)
              HashTableOA.fresh).key = key)) ∨
      HashTableOA.find_slot hash t key = .error Fault.table_full) ∧
    (HashTableOA.find_slot hash t key = .error Fault.table_full ↔
      ∀ j, j < t.table.length →
        (t.table.getD j HashTableOA.fresh).state ≠ SlotState.EMPTY ∧
        ¬ ((t.table.getD j HashTableOA.fresh).state = SlotState.OCCUPIED ∧
          (t.table.getD j HashTableOA.fresh).key = key)) ∧
    (∀ i, HashTableOA.find_slot hash t key = .ok i →
      i < t.table.length ∧ (t.table.getD i HashTableOA.fresh).state ≠ SlotState.DELETED) := by
  have hpos : 0 < t.table.length := hcap
  have hns : ∀ s : Slot K V, ¬ HashTableOA.stops key s ↔
      (s.state ≠ SlotState.EMPTY ∧ ¬ (s.state = SlotState.OCCUPIED ∧ s.key = key)) := by
    intro s
    simp only [HashTableOA.stops, not_or]
  refine ⟨?_, ⟨?_, ?_⟩, ?_⟩
  · rcases HashTableOA.find_slot_cases hash t key hpos with ⟨d, hd, hf, hstop, hbefore⟩ | ⟨hf, _⟩
    · exact Or.inl ⟨d, hd, hf, hstop, fun e he => (hns _).mp (hbefore e he)⟩
    · exact Or.inr hf
  · intro hf j hj
    exact (hns _).mp ((HashTableOA.find_slot_error_spec hash t key _ hpos hf).2 j hj)
  · intro hall
    apply HashTableOA.find_slot_of_none hash t key hpos
    intro e he
    exact (hns _).mpr (hall _ (HashTableOA.probe_lt _ _ _ hpos))
  · intro i hf
    exact ⟨HashTableOA.find_slot_ok_lt hash t key i hpos hf,
      HashTableOA.find_slot_not_deleted hash t key i hpos hf⟩

/-- Instance of `find_slot_postcondition`: in the table of three slots `OCCUPIED` (key 3),
`DELETED`, `EMPTY` with the identity hash, `find_slot 6` starts at slot 0 and does not throw,
since slot 2 is `EMPTY`. -/
theorem find_slot_postcondition_witness :
    1 ≤ mixed_table.table.length ∧
    ¬ (HashTableOA.find_slot id_hash mixed_table 6 = .error Fault.table_full) :=
  ⟨by decide, fun h => absurd
    (((find_slot_postcondition id_hash mixed_table 6 (by decide)).2.1.mp h) 2 (by decide)).1
    (by decide)⟩

/-- C22 (tombstone compaction).  For a load test under which a table filled to less than half
is not over the threshold (as the program's test is), growth of any table reached from a new
`HashTableOA` returns normally, doubles the number of slots, leaves no slot `DELETED`, and keeps
the number of `OCCUPIED` slots; so the slots of the new array that are not `EMPTY` are exactly
the `OCCUPIED` ones, as many as before: the tombstones are not carried over. -/
theorem tombstone_compaction (over : Nat → Nat → Bool) (hash : K → Nat)
    (hover : HashTableOA.half_is_light over) (initial_capacity : Nat) (ops : List (Op K V)) :
    (HashTableOA.resize_and_rehash over hash
      (HashTableOA.run over hash initial_capacity ops)).2 = .ok () ∧
    (HashTableOA.resize_and_rehash over hash
      (HashTableOA.run over hash initial_capacity ops)).1.table.length =
      2 * (HashTableOA.run over hash initial_capacity ops).table.length ∧
    (∀ j, j < (HashTableOA.resize_and_rehash over hash
        (HashTableOA.run over hash initial_capacity ops)).1.table.length →
      ((HashTableOA.resize_and_rehash over hash
        (HashTableOA.run over hash initial_capacity ops)).1.table.getD j
          HashTableOA.fresh).state ≠ SlotState.DELETED) ∧
    HashTableOA.occupied_count (HashTableOA.resize_and_rehash over hash
        (HashTableOA.run over hash initial_capacity ops)).1 =
      HashTableOA.occupied_count (HashTableOA.run over hash initial_capacity ops) ∧
    HashTableOA.used_count (HashTableOA.resize_and_rehash over hash
        (HashTableOA.run over hash initial_capacity ops)).1 =
      HashTableOA.occupied_count (HashTableOA.run over hash initial_capacity ops) := by
  have hinv := HashTableOA.Inv_run over hash initial_capacity ops
  obtain ⟨hok, hinv1, hlen1, _, _, hsize1⟩ := hinv.inv_resize over hover
  have hnd : HashTableOA.no_deleted (HashTableOA.resize_and_rehash over hash
      (HashTableOA.run over hash initial_capacity ops)).1 := by
    rw [HashTableOA.resize_eq_place over hash hover]
    exact HashTableOA.resize_with_place_no_deleted hash _
  have hocc : HashTableOA.occupied_count (HashTableOA.resize_and_rehash over hash
        (HashTableOA.run over hash initial_capacity ops)).1 =
      HashTableOA.occupied_count (HashTableOA.run over hash initial_capacity ops) := by
    rw [← hinv1.2.1, ← hinv.2.1, hsize1]
  refine ⟨hok, hlen1, hnd, hocc, ?_⟩
  rw [HashTableOA.used_eq_occupied_of_no_deleted _ hnd, hocc]

/-- Instance of `tombstone_compaction` with the exact load test: the table of four slots in
which the keys 1 to 4 were inserted and removed holds four tombstones; after growth no slot of
it is used. -/
theorem tombstone_compaction_witness :
    HashTableOA.half_is_light load_reached ∧
    HashTableOA.used_count (HashTableOA.run load_reached id_hash 4 tombstone_requests) = 4 ∧
    HashTableOA.used_count (HashTableOA.resize_and_rehash load_reached id_hash
        (HashTableOA.run load_reached id_hash 4 tombstone_requests)).1 =
      HashTableOA.occupied_count (HashTableOA.run load_reached id_hash 4 tombstone_requests) :=
  ⟨HashTableOA.load_reached_half_is_light, by decide,
   (tombstone_compaction load_reached id_hash HashTableOA.load_reached_half_is_light 4
      tombstone_requests).2.2.2.2⟩

/-- C23 (growth doubles, without nesting).  For a load test under which a table filled to less
than half is not over the threshold (as the program's test is) and every table reached from a
new `HashTableOA`: the re-insertions of `resize_and_rehash` are placements that pass no growth
test, whatever nesting depth is allowed (before each old slot is re-inserted the load test of
`insert` is false), so `insert` is the same with any depth of at least two and never uses up
the depth; `insert` leaves the number of slots doubled when its load test
holds and unchanged otherwise; `remove` leaves it unchanged (`search` is `const`); and the
number of slots is positive. -/
theorem growth_doubles_without_nesting (over : Nat → Nat → Bool) (hash : K → Nat)
    (hover : HashTableOA.half_is_light over) (initial_capacity : Nat) (ops : List (Op K V)) :
    (∀ n, HashTableOA.resize_and_rehash_with (HashTableOA.insert_depth over hash (n + 1))
        (HashTableOA.run over hash initial_capacity ops) =
      HashTableOA.resize_and_rehash_with (HashTableOA.place hash)
        (HashTableOA.run over hash initial_capacity ops)) ∧
    (∀ m, m < (HashTableOA.run over hash initial_capacity ops).table.length →
      over
        (HashTableOA.rehash_loop (HashTableOA.insert_depth over hash 1)
          ((HashTableOA.run over hash initial_capacity ops).table.take m)
          { table := List.replicate
              ((HashTableOA.run over hash initial_capacity ops).table.length * 2)
              HashTableOA.fresh,
            current_size := 0 }).1.current_size
        (HashTableOA.rehash_loop (HashTableOA.insert_depth over hash 1)
          ((HashTableOA.run over hash initial_capacity ops).table.take m)
          { table := List.replicate
              ((HashTableOA.run over hash initial_capacity ops).table.length * 2)
              HashTableOA.fresh,
            current_size := 0 }).1.table.length = false) ∧
    (∀ n k v, HashTableOA.insert_depth over hash (n + 2)
        (HashTableOA.run over hash initial_capacity ops) k v =
      HashTableOA.insert over hash (HashTableOA.run over hash initial_capacity ops) k v) ∧
    (∀ k v, (HashTableOA.insert over hash
        (HashTableOA.run over hash initial_capacity ops) k v).2 ≠ .error Fault.bound) ∧
    (∀ k v, (HashTableOA.insert over hash
        (HashTableOA.run over hash initial_capacity ops) k v).1.table.length =
      if over (HashTableOA.run over hash initial_capacity ops).current_size
          (HashTableOA.run over hash initial_capacity ops).table.length
      then 2 * (HashTableOA.run over hash initial_capacity ops).table.length
      else (HashTableOA.run over hash initial_capacity ops).table.length) ∧
    (∀ k, (HashTableOA.remove hash
        (HashTableOA.run over hash initial_capacity ops) k).1.table.length =
      (HashTableOA.run over hash initial_capacity ops).table.length) ∧
    0 < (HashTableOA.run over hash initial_capacity ops).table.length := by
  have hinv := HashTableOA.Inv_run over hash initial_capacity ops
  exact ⟨fun n => HashTableOA.resize_with_eq_place over hash hover n _,
    fun m hm => HashTableOA.rehash_prefix_light over hash hover _ m hm,
    fun n k v => HashTableOA.insert_depth_irrelevant over hash hover n _ k v,
    fun k v => HashTableOA.insert_ne_bound over hash hover _ k v hinv.1,
    fun k v => HashTableOA.insert_capacity over hash hover _ k v,
    fun k => HashTableOA.remove_length hash _ k, hinv.1⟩

/-- Instance of `growth_doubles_without_nesting` with the exact load test: on the table of five
slots that holds the keys 1, 2, 3, 4 the insert of key 5 grows the table to ten slots. -/
theorem growth_doubles_without_nesting_witness :
    HashTableOA.half_is_light load_reached ∧
    (HashTableOA.insert load_reached id_hash (HashTableOA.run load_reached id_hash 5
      [.insert 1 10, .insert 2 20, .insert 3 30, .insert 4 40]) 5 50).1.table.length = 10 :=
  ⟨HashTableOA.load_reached_half_is_light,
   ((growth_doubles_without_nesting load_reached id_hash
      HashTableOA.load_reached_half_is_light 5
      ([.insert 1 10, .insert 2 20, .insert 3 30, .insert 4 40] : List (Op Nat Nat))).2.2.2.2.1
      5 50).trans (by decide)⟩

/-- C24 (probe-chain invariant).  In every table reached from a new `HashTableOA` by `insert`
and `remove` (for any load test): whenever the slot visited at step `d` of the walk from
`hash k % capacity` is `OCCUPIED` with key `k`, no slot visited before it is `EMPTY`; and two
`OCCUPIED` slots with equal keys are the same slot.  The invariant `Inv` (these facts, with at
least one slot and `current_size` counting the `OCCUPIED` slots) is preserved from any table by
`insert` (growing or not), by `remove` and by `resize_and_rehash`.  A slot that is not `EMPTY`
is not `EMPTY` after `remove`, nor after an `insert` whose load test fails (no growth). -/
theorem probe_chain_invariant (over : Nat → Nat → Bool) (hash : K → Nat)
    (initial_capacity : Nat) (ops : List (Op K V)) :
    (∀ k d, d < (HashTableOA.run over hash initial_capacity ops).table.length →
      ((HashTableOA.run over hash initial_capacity ops).table.getD
        ((hash k % (HashTableOA.run over hash initial_capacity ops).table.length + d) %
          (HashTableOA.run over hash initial_capacity ops).table.length)
        HashTableOA.fresh).state = SlotState.OCCUPIED →
      ((HashTableOA.run over hash initial_capacity ops).table.getD
        ((hash k % (HashTableOA.run over hash initial_capacity ops).table.length + d) %
          (HashTableOA.run over hash initial_capacity ops).table.length)
        HashTableOA.fresh).key = k →
      ∀ e, e < d →
        ((HashTableOA.run over hash initial_capacity ops).table.getD
          ((hash k % (HashTableOA.run over hash initial_capacity ops).table.length + e) %
            (HashTableOA.run over hash initial_capacity ops).table.length)
          HashTableOA.fresh).state ≠ SlotState.EMPTY) ∧
    (∀ i j, i < (HashTableOA.run over hash initial_capacity ops).table.length →
      j < (HashTableOA.run over hash initial_capacity ops).table.length →
      ((HashTableOA.run over hash initial_capacity ops).table.getD i
        HashTableOA.fresh).state = SlotState.OCCUPIED →
      ((HashTableOA.run over hash initial_capacity ops).table.getD j
        HashTableOA.fresh).state = SlotState.OCCUPIED →
      ((HashTableOA.run over hash initial_capacity ops).table.getD i HashTableOA.fresh).key =
        ((HashTableOA.run over hash initial_capacity ops).table.getD j HashTableOA.fresh).key →
      i = j) ∧
    HashTableOA.Inv hash (HashTableOA.run over hash initial_capacity ops) ∧
    (∀ t : HashTableOA K V, HashTableOA.Inv hash t →
      (∀ k v, HashTableOA.Inv hash (HashTableOA.insert over hash t k v).1) ∧
      (∀ k, HashTableOA.Inv hash (HashTableOA.remove hash t k).1) ∧
      HashTableOA.Inv hash (HashTableOA.resize_and_rehash over hash t).1) ∧
    (∀ (t : HashTableOA K V) (j : Nat), j < t.table.length →
      (t.table.getD j HashTableOA.fresh).state ≠ SlotState.EMPTY →
      (∀ k, ((HashTableOA.remove hash t k).1.table.getD j HashTableOA.fresh).state ≠
        SlotState.EMPTY) ∧
      (∀ k v, over t.current_size t.table.length = false →
        ((HashTableOA.insert over hash t k v).1.table.getD j HashTableOA.fresh).state ≠
          SlotState.EMPTY)) := by
  have hinv := HashTableOA.Inv_run over hash initial_capacity ops
  refine ⟨hinv.2.2.2, hinv.2.2.1, hinv, ?_, ?_⟩
  · intro t ht
    exact ⟨fun k v => ht.inv_insert over k v, fun k => ht.inv_remove k,
      HashTableOA.resize_with_Inv _
        (fun t' k v ht' => HashTableOA.insert_depth_Inv over 1 t' k v ht') t ht⟩
  · intro t j hj hu
    refine ⟨fun k => HashTableOA.remove_keeps_used hash t k j hj hu, fun k v ho => ?_⟩
    have he : HashTableOA.insert over hash t k v = HashTableOA.place hash t k v :=
      HashTableOA.insert_depth_light over hash 1 t k v ho
    rw [he]
    exact HashTableOA.place_keeps_used hash t k v j hj hu

/-- Instance of `probe_chain_invariant`: in the table of four slots after insert 1, insert 5
(which collides with 1 and moves on to slot 2) and remove 1, key 5 sits in slot 2, one step
after its home slot 1, and slot 1 is not `EMPTY` (it is a tombstone). -/
theorem probe_chain_invariant_witness :
    ((HashTableOA.run load_reached id_hash 4
        [.insert 1 10, .insert 5 50, .remove 1]).table.getD 2 HashTableOA.fresh).state =
      SlotState.OCCUPIED ∧
    ((HashTableOA.run load_reached id_hash 4
        [.insert 1 10, .insert 5 50, .remove 1]).table.getD 1 HashTableOA.fresh).state ≠
      SlotState.EMPTY :=
  ⟨by decide,
   (probe_chain_invariant load_reached id_hash 4
      ([.insert 1 10, .insert 5 50, .remove 1] : List (Op Nat Nat))).1 5 1 (by decide)
      (by decide) (by decide) 0 (by decide)⟩

/-- C26 (conditional map refinement).  For a load test under which a table filled to less than
half is not over the threshold (as the program's test is): after a request sequence on a new
`HashTableOA` in which no request threw, `search k` returns the latest value of a key bound in
the reference map, and for an unbound key returns `nullopt` or throws "table is full" (it never
returns a value); `remove k` returns `true` exactly when `k` is bound.  After any request
sequence, a request that throws leaves the whole table (slots and size) as it was. -/
theorem probing_conditional_refinement (over : Nat → Nat → Bool) (hash : K → Nat)
    (hover : HashTableOA.half_is_light over) (initial_capacity : Nat) (ops : List (Op K V))
    (hret : HashTableOA.all_return over hash (HashTableOA.new initial_capacity) ops = true) :
    (∀ k v, ref_map ops k = some v →
      HashTableOA.search hash (HashTableOA.run over hash initial_capacity ops) k =
        .ok (some v)) ∧
    (∀ k, ref_map ops k = none →
      HashTableOA.search hash (HashTableOA.run over hash initial_capacity ops) k = .ok none ∨
      HashTableOA.search hash (HashTableOA.run over hash initial_capacity ops) k =
        .error Fault.table_full) ∧
    (∀ k, (HashTableOA.remove hash (HashTableOA.run over hash initial_capacity ops) k).2 =
        .ok true ↔ ∃ v, ref_map ops k = some v) ∧
    (∀ (ops2 : List (Op K V)) (op : Op K V),
      HashTableOA.returns over hash (HashTableOA.run over hash initial_capacity ops2) op = false →
      HashTableOA.step over hash (HashTableOA.run over hash initial_capacity ops2) op =
        HashTableOA.run over hash initial_capacity ops2) := by
  have hinv := HashTableOA.Inv_run over hash initial_capacity ops
  have hlook := HashTableOA.lookup_run over hash initial_capacity ops hret
  refine ⟨?_, ?_, ?_, ?_⟩
  · intro k v hk
    apply hinv.search_of_holds k v
    rw [hinv.holds_iff_lookup, hlook, hk]
  · intro k hk
    cases hs : HashTableOA.search hash (HashTableOA.run over hash initial_capacity ops) k with
    | error e =>
      rw [(HashTableOA.search_error_spec hash _ k e hinv.1 hs).1]
      exact Or.inr rfl
    | ok r =>
      cases r with
      | none => exact Or.inl rfl
      | some v =>
        have hh := HashTableOA.search_some_holds hash _ k v hinv.1 hs
        rw [hinv.holds_iff_lookup, hlook, hk] at hh
        cases hh
  · intro k
    constructor
    · intro hr
      obtain ⟨v, hv⟩ := HashTableOA.remove_true_holds hash _ k hinv.1 hr
      rw [hinv.holds_iff_lookup, hlook] at hv
      exact ⟨v, hv⟩
    · rintro ⟨v, hv⟩
      apply hinv.remove_of_holds k v
      rw [hinv.holds_iff_lookup, hlook, hv]
  · intro ops2 op hop
    have hinv2 := HashTableOA.Inv_run over hash initial_capacity ops2
    cases op with
    | insert k v =>
      simp only [HashTableOA.returns] at hop
      simp only [HashTableOA.step]
      cases hr : (HashTableOA.insert over hash
          (HashTableOA.run over hash initial_capacity ops2) k v).2 with
      | ok u => rw [hr] at hop; cases hop
      | error e => exact (HashTableOA.insert_error_spec over hash hover _ k v e hinv2.1 hr).2.1
    | remove k =>
      simp only [HashTableOA.returns] at hop
      simp only [HashTableOA.step]
      apply HashTableOA.remove_unchanged
      intro hr
      rw [hr] at hop
      cases hop

/-- Instance of `probing_conditional_refinement` with the exact load test: after the tombstone
requests on capacity 4, all of which return, key 9 is unbound and `search 9` returns `nullopt`
or throws. -/
theorem probing_conditional_refinement_witness :
    HashTableOA.half_is_light load_reached ∧
    HashTableOA.all_return load_reached id_hash (HashTableOA.new 4) tombstone_requests = true ∧
    ref_map tombstone_requests 9 = none ∧
    (HashTableOA.search id_hash (HashTableOA.run load_reached id_hash 4 tombstone_requests) 9 =
        .ok none ∨
      HashTableOA.search id_hash (HashTableOA.run load_reached id_hash 4 tombstone_requests) 9 =
        .error Fault.table_full) :=
  ⟨HashTableOA.load_reached_half_is_light, by decide, by decide,
   (probing_conditional_refinement load_reached id_hash HashTableOA.load_reached_half_is_light 4
      tombstone_requests (by decide)).2.1 9 (by decide)⟩

/-- C27 (insert-only safety).  With the exact load test `size / capacity >= 7/10`, for every
initial capacity of at least 4 (or 0, which the constructor replaces by 16) and every sequence
of inserts on a new `HashTableOA`: every insert returns normally; afterwards `size()` is less
than the number of slots, some slot is `EMPTY`, no slot is `DELETED`, and `search` of any key
returns normally, with the binding of the reference map (`search` is `const`, so searches
between the inserts change nothing). -/
theorem insert_only_safety (hash : K → Nat) (initial_capacity : Nat) (entries : List (K × V))
    (hcap : 4 ≤ initial_capacity ∨ initial_capacity = 0) :
    HashTableOA.all_return load_reached hash (HashTableOA.new initial_capacity)
      (inserts entries) = true ∧
    HashTableOA.size (HashTableOA.run load_reached hash initial_capacity (inserts entries)) <
      (HashTableOA.run load_reached hash initial_capacity (inserts entries)).table.length ∧
    (∃ j, j < (HashTableOA.run load_reached hash initial_capacity (inserts entries)).table.length ∧
      ((HashTableOA.run load_reached hash initial_capacity (inserts entries)).table.getD j
        HashTableOA.fresh).state = SlotState.EMPTY) ∧
    (∀ j, j < (HashTableOA.run load_reached hash initial_capacity (inserts entries)).table.length →
      ((HashTableOA.run load_reached hash initial_capacity (inserts entries)).table.getD j
        HashTableOA.fresh).state ≠ SlotState.DELETED) ∧
    (∀ k, HashTableOA.search hash
        (HashTableOA.run load_reached hash initial_capacity (inserts entries)) k =
      .ok (ref_map (inserts entries) k)) := by
  obtain ⟨hret, hinv, hnd, h4, hs⟩ :=
    HashTableOA.insert_only_run hash initial_capacity entries hcap
  have hused : HashTableOA.used_count
      (HashTableOA.run load_reached hash initial_capacity (inserts entries)) <
      (HashTableOA.run load_reached hash initial_capacity (inserts entries)).table.length := by
    rw [HashTableOA.used_eq_occupied_of_no_deleted _ hnd, ← hinv.2.1]; exact hs
  refine ⟨hret, hs, HashTableOA.exists_empty_of_used_lt _ hused, hnd, ?_⟩
  intro k
  have hlook := HashTableOA.lookup_run load_reached hash initial_capacity (inserts entries) hret k
  cases hm : ref_map (inserts entries) k with
  | none =>
    apply HashTableOA.search_absent hash _ k hused
    intro v hv
    rw [hinv.holds_iff_lookup, hlook, hm] at hv
    cases hv
  | some v =>
    apply hinv.search_of_holds k v
    rw [hinv.holds_iff_lookup, hlook, hm]

/-- Instance of `insert_only_safety`: capacity 4 with the identity hash and the five entries
with keys 1 to 5; the table grows at the fourth insert and never fills. -/
theorem insert_only_safety_witness :
    (4 ≤ 4 ∨ 4 = 0) ∧
    HashTableOA.size (HashTableOA.run load_reached id_hash 4
        (inserts [(1, 10), (2, 20), (3, 30), (4, 40), (5, 50)])) = 5 ∧
    HashTableOA.size (HashTableOA.run load_reached id_hash 4
        (inserts [(1, 10), (2, 20), (3, 30), (4, 40), (5, 50)])) <
      (HashTableOA.run load_reached id_hash 4
        (inserts [(1, 10), (2, 20), (3, 30), (4, 40), (5, 50)])).table.length :=
  ⟨Or.inl (le_refl 4), by decide,
   (insert_only_safety id_hash 4 ([(1, 10), (2, 20), (3, 30), (4, 40), (5, 50)] : List (Nat × Nat))
      (Or.inl (le_refl 4))).2.1⟩

end ProbingResults

/-! ## Dynamic array: results -/

section ContainerResults

variable {T : Type} [Inhabited T]

/-- C17 (vector behaves as a sequence), evaluated at a failing input.  `push_back` takes its
argument by reference and reads it after `delete[] arr`: on a new vector, `push_back(7)` and
then `push_back(at(0))` (the vector is full, so the array is reallocated) reads the freed
array, where the reference sequence is [7, 7].  In general `push_back(at(index))` on a full
vector is a use after free, and on a vector with room it appends a copy of the element;
`2 * capacity` overflows `int` when a vector of more than `INT_MAX / 2` elements is full.  What
the code keeps: for requests with arguments outside the vector, while no size exceeds
`2 ^ 30`, no call faults, `size()` and the elements are those of the reference list, and
`at(i)` returns element `i` for `0 <= i < size()` and throws `out_of_range` otherwise. -/
theorem vector_push_back_alias_fault (ops : List (VectorOp T)) :
    (Vector.run_calls [VectorCall.push_back (7 : Nat), VectorCall.push_back_at 0] =
        .error VectorFault.use_after_free ∧
      Vector.call_ref [VectorCall.push_back (7 : Nat), VectorCall.push_back_at 0] = [7, 7]) ∧
    (∀ (v : Vector T) (index : Int), v.current_size = v.capacity → 2 * v.capacity ≤ int_max →
      0 ≤ index → index < (v.current_size : Int) →
      Vector.call v (VectorCall.push_back_at index) = .error VectorFault.use_after_free) ∧
    (∀ (v : Vector T) (j : Nat), Vector.VInv v → v.current_size < v.capacity →
      j < v.current_size → v.current_size + 1 ≤ int_max →
      ∃ v', Vector.call v (VectorCall.push_back_at (j : Int)) = .ok v' ∧
        Vector.elements v' = Vector.elements v ++ [(Vector.elements v).getD j default]) ∧
    (∀ (v : Vector T) (x : T), v.current_size = v.capacity → int_max < 2 * v.capacity →
      Vector.call v (VectorCall.push_back x) = .error VectorFault.int_overflow) ∧
    (2 * Vector.peak_size ops ≤ int_max + 1 →
      Vector.run_calls (ops.map Vector.as_call) = .ok (Vector.run ops) ∧
      Vector.size (Vector.run ops) = (Vector.ref_list ops).length ∧
      Vector.elements (Vector.run ops) = Vector.ref_list ops ∧
      (∀ j, j < (Vector.ref_list ops).length →
        Vector.«at» (Vector.run ops) (j : Int) = .ok ((Vector.ref_list ops).getD j default)) ∧
      (∀ i : Int, i < 0 ∨ ((Vector.ref_list ops).length : Int) ≤ i →
        Vector.«at» (Vector.run ops) i = .error Thrown.out_of_range)) := by
  have hinv := Vector.VInv_run ops
  have hel := Vector.elements_run ops
  have hlen : (Vector.run ops).current_size = (Vector.ref_list ops).length := by
    rw [← hel, Vector.elements_length hinv]
  refine ⟨⟨by rfl, by rfl⟩, Vector.push_back_at_full, ?_, ?_, ?_⟩
  · intro v j hv hroom hj hsize
    obtain ⟨v', h1, h2, _⟩ := Vector.push_back_at_room v j hv hroom hj hsize
    exact ⟨v', h1, h2⟩
  · intro v x hfull hov
    simp only [Vector.call, Vector.push_back_ref, if_pos hfull]
    rw [if_pos (by omega)]
  · intro hpeak
    refine ⟨Vector.run_calls_as_call ops hpeak, hlen, hel, ?_, ?_⟩
    · intro j hj
      rw [← hel]
      exact Vector.at_in_range _ j (by omega)
    · intro i hi
      exact Vector.at_out_of_range _ i (by omega)

/-- Instance of `vector_push_back_alias_fault`: the demo of `main.cpp` (push 10 to 50, then
`pop_back`) stays below `2 ^ 30` elements; no call faults and `at(2)` returns 30. -/
theorem vector_push_back_alias_fault_witness :
    2 * Vector.peak_size ([.push_back 10, .push_back 20, .push_back 30, .push_back 40,
      .push_back 50, VectorOp.pop_back] : List (VectorOp Nat)) ≤ int_max + 1 ∧
    Vector.«at» (Vector.run [.push_back 10, .push_back 20, .push_back 30, .push_back 40,
      .push_back 50, VectorOp.pop_back]) ((2 : Nat) : Int) =
      .ok ((Vector.ref_list [.push_back 10, .push_back 20, .push_back 30, .push_back 40,
        .push_back 50, VectorOp.pop_back]).getD 2 (default : Nat)) :=
  ⟨by decide,
   ((vector_push_back_alias_fault ([.push_back 10, .push_back 20, .push_back 30, .push_back 40,
      .push_back 50, VectorOp.pop_back] : List (VectorOp Nat))).2.2.2.2 (by decide)).2.2.2.1 2
      (by decide)⟩

end ContainerResults

/-! ## Linked lists: results -/

section LinkedListResults

variable {T : Type}

/-- C19 (singly linked list behaves as a sequence), with the bound of `int count`.  For every
sequence of `push_front`, `push_back`, `pop_front` and `pop_back` on a new list during which
the reference list never holds more than `INT_MAX` elements, the run has no undefined
behaviour and ends in a list `s` such that: the traversal from `head` along `next`
dereferences only live nodes, ends at `nullptr` and reads the reference list; `size()`,
`front()` and `back()` are those of the reference list; `empty()`, a null `head`, a null
`tail`, and an `out_of_range` from `pop_front`, `pop_back`, `front` or `back` each hold exactly
when the list is empty; a further request throws `out_of_range` exactly when the reference
list does, and fails otherwise only by the overflow of `count` at `INT_MAX` elements.  A
sequence during which the reference list exceeds `INT_MAX` elements ends in that overflow.
Demo of `main.cpp`: after push_back 10, 20, 30 and push_front 5 the size is 4, the front 5,
the back 30, and `pop_back` then `pop_front` leave [10, 20]. -/
theorem singly_linked_list_sequence (ops : List (ListOp T)) :
    (list_peak [] ops ≤ int_max →
      ∃ s, SinglyLinkedList.run ops = .ok s ∧
        SinglyLinkedList.contents s = .ok (list_ref ops) ∧
        SinglyLinkedList.size s = (list_ref ops).length ∧
        SinglyLinkedList.front s =
          (match list_ref ops with
           | [] => .error ListFault.out_of_range
           | x :: _ => .ok x) ∧
        SinglyLinkedList.back s =
          (match (list_ref ops).getLast? with
           | none => .error ListFault.out_of_range
           | some x => .ok x) ∧
        (SinglyLinkedList.empty s = true ↔ list_ref ops = []) ∧
        (s.head = none ↔ list_ref ops = []) ∧
        (s.tail = none ↔ list_ref ops = []) ∧
        (SinglyLinkedList.pop_front s = .error ListFault.out_of_range ↔ list_ref ops = []) ∧
        (SinglyLinkedList.pop_back s = .error ListFault.out_of_range ↔ list_ref ops = []) ∧
        (SinglyLinkedList.front s = .error ListFault.out_of_range ↔ list_ref ops = []) ∧
        (SinglyLinkedList.back s = .error ListFault.out_of_range ↔ list_ref ops = []) ∧
        (∀ op, SinglyLinkedList.apply s op = .error ListFault.out_of_range ↔
          list_ref_throws (list_ref ops) op = true) ∧
        (∀ op e, SinglyLinkedList.apply s op = .error e →
          e = ListFault.out_of_range ∨
          (e = ListFault.int_overflow ∧ (list_ref ops).length = int_max))) ∧
    (int_max < list_peak [] ops →
      SinglyLinkedList.run ops = .error ListFault.int_overflow) ∧
    ((SinglyLinkedList.run
        [.push_back 10, .push_back 20, .push_back 30, ListOp.push_front (5 : Nat)]).map
        SinglyLinkedList.size = .ok 4 ∧
      (SinglyLinkedList.run
        [.push_back 10, .push_back 20, .push_back 30, ListOp.push_front (5 : Nat)]).bind
        SinglyLinkedList.front = .ok 5 ∧
      (SinglyLinkedList.run
        [.push_back 10, .push_back 20, .push_back 30, ListOp.push_front (5 : Nat)]).bind
        SinglyLinkedList.back = .ok 30 ∧
      (SinglyLinkedList.run
        [.push_back 10, .push_back 20, .push_back 30, ListOp.push_front (5 : Nat),
         .pop_back, .pop_front]).bind SinglyLinkedList.contents = .ok [10, 20]) := by
  refine ⟨?_, (SinglyLinkedList.run_spec ops).2, by rfl, by rfl, by rfl, by rfl⟩
  intro hpeak
  obtain ⟨s, cells, hrun, hrep, hmap⟩ := (SinglyLinkedList.run_spec ops).1 hpeak
  have hb : cells.length ≤ int_max := by
    have h1 := SinglyLinkedList.length_le_list_peak (list_ref ops) ([] : List (ListOp T))
    have h2 : (list_ref ops).length ≤ list_peak [] ops := by
      clear h1 hpeak hrun hrep hmap
      unfold list_ref
      generalize ([] : List T) = l
      induction ops generalizing l with
      | nil => exact le_refl _
      | cons op ops ih => exact le_trans (ih _) (le_max_right _ _)
    rw [← List.length_map cells Prod.snd, hmap]
    omega
  have hnil : cells = [] ↔ list_ref ops = [] := by
    rw [← hmap]; simp
  have hspec := hrep.apply_spec hb
  rw [hmap] at hspec
  have happly : ∀ op, SinglyLinkedList.apply s op
      = .error ListFault.out_of_range ↔ list_ref_throws (list_ref ops) op = true := by
    intro op
    rcases hspec op with ⟨ht, he⟩ | ⟨ht, _, s', cells', he, _, _⟩ | ⟨ht, _, he⟩
    · simp [ht, he]
    · simp [ht, he]
    · simp [ht, he]
  have hfront := hrep.front
  have hback := hrep.back
  rw [hmap] at hfront hback
  refine ⟨s, hrun, by rw [hrep.contents, hmap], ?_, hfront, hback, ?_, ?_, ?_, ?_, ?_, ?_, ?_,
    happly, ?_⟩
  · simp only [SinglyLinkedList.size, hrep.2.2.2.2.1, ← hmap, List.length_map]
  · rw [hrep.empty_iff, hnil]
  · rw [hrep.head_none_iff, hnil]
  · rw [hrep.tail_none_iff, hnil]
  · have := happly ListOp.pop_front
    simp only [SinglyLinkedList.apply, list_ref_throws, List.isEmpty_iff] at this
    exact this
  · have := happly ListOp.pop_back
    simp only [SinglyLinkedList.apply, list_ref_throws, List.isEmpty_iff] at this
    exact this
  · rw [hfront]
    cases list_ref ops <;> simp
  · rw [hback]
    rcases List.eq_nil_or_concat (list_ref ops) with h | ⟨init, c, h⟩
    · rw [h]; simp
    · rw [h]; simp
  · intro op e he
    rcases hspec op with ⟨_, h1⟩ | ⟨_, _, s', _, h1, _, _⟩ | ⟨_, hl, h1⟩
    · rw [h1] at he
      exact Or.inl (by injection he with he; exact he.symm)
    · rw [h1] at he; cases he
    · rw [h1] at he
      refine Or.inr ⟨by injection he with he; exact he.symm, ?_⟩
      have hlen : (list_ref ops).length ≤ int_max := by
        rw [← hmap, List.length_map]; exact hb
      cases op with
      | push_front v => simp only [list_ref_step, List.length_cons] at hl; omega
      | push_back v =>
        simp only [list_ref_step, List.length_append, List.length_singleton] at hl; omega
      | pop_front => simp only [list_ref_step, List.length_tail] at hl; omega
      | pop_back => simp only [list_ref_step, List.length_dropLast] at hl; omega

/-- Instance of `singly_linked_list_sequence`: the demo of `main.cpp` stays within `INT_MAX`
elements; its run ends in a list whose traversal reads [10, 20]. -/
theorem singly_linked_list_sequence_witness :
    list_peak [] ([.push_back 10, .push_back 20, .push_back 30, .push_front 5,
      .pop_back, .pop_front] : List (ListOp Nat)) ≤ int_max ∧
    ∃ s, SinglyLinkedList.run ([.push_back 10, .push_back 20, .push_back 30, .push_front 5,
        .pop_back, .pop_front] : List (ListOp Nat)) = .ok s ∧
      SinglyLinkedList.contents s = .ok [10, 20] :=
  ⟨by decide,
   match (singly_linked_list_sequence ([.push_back 10, .push_back 20, .push_back 30,
      .push_front 5, .pop_back, .pop_front] : List (ListOp Nat))).1 (by decide) with
   | ⟨s, h1, h2, _⟩ => ⟨s, h1, h2⟩⟩

/-- Counterexample to C19 as stated for every sequence: `INT_MAX + 1` calls of `push_back` on
a new list.  The first `INT_MAX` calls bring `count` to `INT_MAX`; the last call executes
`count++` there, a signed overflow, so the program has no defined result where the reference
list has `INT_MAX + 1` elements. -/
theorem singly_linked_list_count_overflow :
    SinglyLinkedList.run (List.replicate (int_max + 1) (ListOp.push_back (0 : Nat))) =
      .error ListFault.int_overflow :=
  (SinglyLinkedList.run_spec _).2
    (by
      rw [SinglyLinkedList.list_peak_replicate_push_back]
      show int_max < 0 + (int_max + 1)
      omega)

/-- C20 (doubly linked list is observationally equivalent to the singly linked list), with
the bound of `int count`.  For every sequence of `push_front`, `push_back`, `pop_front` and
`pop_back` during which the reference list never holds more than `INT_MAX` elements (every
prefix of such a sequence is one, so this holds after every step), both kinds of list run
without undefined behaviour and end in lists `s` and `d` such that: a further request fails on
one exactly when it fails on the other, with the same fault; `size()`, `empty()`, `front()`,
`back()` and the head-to-tail contents are equal, the contents being the reference list.  In
`d` the traversal from `head` along `next` and the traversal from `tail` along `prev`
dereference only live nodes and end at `nullptr`, with any number of steps allowed; the second
meets the reverse of the addresses of the first; these are `size()` distinct addresses, and
each node's `next` is the address after it and its `prev` the address before it (or
`nullptr`).  A sequence during which the reference list exceeds `INT_MAX` elements ends, for
both kinds of list, in the overflow of `count`. -/
theorem doubly_linked_list_equivalent (ops : List (ListOp T)) :
    (list_peak [] ops ≤ int_max →
      ∃ s d, SinglyLinkedList.run ops = .ok s ∧ DoublyLinkedList.run ops = .ok d ∧
        (∀ op e, DoublyLinkedList.apply d op = .error e ↔
          SinglyLinkedList.apply s op = .error e) ∧
        (∀ op, (DoublyLinkedList.apply d op).isOk = (SinglyLinkedList.apply s op).isOk) ∧
        DoublyLinkedList.size d = SinglyLinkedList.size s ∧
        DoublyLinkedList.empty d = SinglyLinkedList.empty s ∧
        DoublyLinkedList.front d = SinglyLinkedList.front s ∧
        DoublyLinkedList.back d = SinglyLinkedList.back s ∧
        DoublyLinkedList.contents d = SinglyLinkedList.contents s ∧
        DoublyLinkedList.contents d = .ok (list_ref ops) ∧
        ∃ addrs : List Nat,
          DoublyLinkedList.forward d = .ok addrs ∧
          DoublyLinkedList.backward d = .ok addrs.reverse ∧
          addrs.length = DoublyLinkedList.size d ∧
          addrs.Nodup ∧
          d.head = addrs.head? ∧
          d.tail = addrs.getLast? ∧
          (∀ steps, d.heap.length ≤ steps →
            DoublyLinkedList.next_walk d.heap steps d.head = .ok addrs ∧
            DoublyLinkedList.prev_walk d.heap steps d.tail = .ok addrs.reverse) ∧
          (∀ pre a post, addrs = pre ++ a :: post →
            ∃ n, load d.heap (some a) = .ok (a, n) ∧ n.next = post.head? ∧
              n.prev = pre.getLast?)) ∧
    (int_max < list_peak [] ops →
      SinglyLinkedList.run ops = .error ListFault.int_overflow ∧
      DoublyLinkedList.run ops = .error ListFault.int_overflow) := by
  refine ⟨?_, fun h => ⟨(SinglyLinkedList.run_spec ops).2 h,
    (DoublyLinkedList.drun_spec ops).2 h⟩⟩
  intro hpeak
  obtain ⟨s, cs, hsrun, hs, ms⟩ := (SinglyLinkedList.run_spec ops).1 hpeak
  obtain ⟨d, cd, hdrun, hd, md⟩ := (DoublyLinkedList.drun_spec ops).1 hpeak
  have hlen : (list_ref ops).length ≤ int_max :=
    le_trans (SinglyLinkedList.foldl_length_le_list_peak [] ops) hpeak
  have hbs : cs.length ≤ int_max := by rw [← List.length_map cs Prod.snd, ms]; exact hlen
  have hbd : cd.length ≤ int_max := by rw [← List.length_map cd Prod.snd, md]; exact hlen
  have hcount : d.count = s.count := by
    rw [hd.2.2.2.2.1, hs.2.2.2.2.1, ← List.length_map cd Prod.snd, ← List.length_map cs Prod.snd,
      md, ms]
  have hcases : ∀ op,
      (∃ e, DoublyLinkedList.apply d op = .error e ∧ SinglyLinkedList.apply s op = .error e) ∨
      ((∃ d', DoublyLinkedList.apply d op = .ok d') ∧
        ∃ s', SinglyLinkedList.apply s op = .ok s') := by
    intro op
    have h1 := hd.dapply hbd op
    have h2 := hs.apply_spec hbs op
    rw [md] at h1
    rw [ms] at h2
    rcases h1 with ⟨t1, e1⟩ | ⟨t1, l1, d', _, e1, _, _⟩ | ⟨t1, l1, e1⟩
    · rcases h2 with ⟨t2, e2⟩ | ⟨t2, _⟩ | ⟨t2, _⟩
      · exact Or.inl ⟨_, e1, e2⟩
      · rw [t1] at t2; cases t2
      · rw [t1] at t2; cases t2
    · rcases h2 with ⟨t2, e2⟩ | ⟨t2, _, s', _, e2, _, _⟩ | ⟨t2, l2, e2⟩
      · rw [t1] at t2; cases t2
      · exact Or.inr ⟨⟨d', e1⟩, ⟨s', e2⟩⟩
      · omega
    · rcases h2 with ⟨t2, e2⟩ | ⟨t2, l2, _⟩ | ⟨t2, l2, e2⟩
      · rw [t1] at t2; cases t2
      · omega
      · exact Or.inl ⟨_, e1, e2⟩
  refine ⟨s, d, hsrun, hdrun, ?_, ?_, hcount, ?_, ?_, ?_, ?_, ?_, cd.map Prod.fst, ?_, ?_, ?_,
    hd.1, hd.dhead_eq, hd.dtail_eq, ?_, ?_⟩
  · intro op e
    rcases hcases op with ⟨e', e1, e2⟩ | ⟨⟨d', e1⟩, ⟨s', e2⟩⟩
    · rw [e1, e2]; simp
    · rw [e1, e2]; simp
  · intro op
    rcases hcases op with ⟨e', e1, e2⟩ | ⟨⟨d', e1⟩, ⟨s', e2⟩⟩
    · rw [e1, e2]; rfl
    · rw [e1, e2]; rfl
  · simp only [DoublyLinkedList.empty, SinglyLinkedList.empty, hcount]
  · rw [hd.dfront, hs.front, md, ms]
  · rw [hd.dback, hs.back, md, ms]
  · rw [hd.dcontents, hs.contents, md, ms]
  · rw [hd.dcontents, md]
  · exact hd.next_walk_eq _ hd.2.2.2.2.2
  · exact hd.prev_walk_eq _ hd.2.2.2.2.2
  · rw [List.length_map]
    exact hd.2.2.2.2.1.symm
  · intro steps hsteps
    have hle : cd.length ≤ steps := le_trans hd.2.2.2.2.2 hsteps
    exact ⟨hd.next_walk_eq steps hle, hd.prev_walk_eq steps hle⟩
  · intro pre a post hsplit
    exact hd.links pre a post hsplit

/-- Instance of `doubly_linked_list_equivalent`: the demo of `main.cpp` (push_back 10, 20, 30,
push_front 5, pop_back, pop_front) stays within `INT_MAX` elements; both runs end in lists
with the contents [10, 20]. -/
theorem doubly_linked_list_equivalent_witness :
    list_peak [] ([.push_back 10, .push_back 20, .push_back 30, .push_front 5,
      .pop_back, .pop_front] : List (ListOp Nat)) ≤ int_max ∧
    ∃ s d, SinglyLinkedList.run ([.push_back 10, .push_back 20, .push_back 30, .push_front 5,
        .pop_back, .pop_front] : List (ListOp Nat)) = .ok s ∧
      DoublyLinkedList.run ([.push_back 10, .push_back 20, .push_back 30, .push_front 5,
        .pop_back, .pop_front] : List (ListOp Nat)) = .ok d ∧
      DoublyLinkedList.contents d = SinglyLinkedList.contents s ∧
      DoublyLinkedList.contents d = .ok [10, 20] :=
  ⟨by decide,
   match (doubly_linked_list_equivalent ([.push_back 10, .push_back 20, .push_back 30,
      .push_front 5, .pop_back, .pop_front] : List (ListOp Nat))).1 (by decide) with
   | ⟨s, d, h1, h2, _, _, _, _, _, _, h3, h4, _⟩ => ⟨s, d, h1, h2, h3, h4⟩⟩

/-- Counterexample to C20 as stated for every sequence: `INT_MAX + 1` calls of `push_front` on
a new doubly linked list.  The first `INT_MAX` calls bring `count` to `INT_MAX`; the last call
executes `count++` there, a signed overflow, so after it the list has no defined `size()` or
links to compare. -/
theorem doubly_linked_list_count_overflow :
    DoublyLinkedList.run (List.replicate (int_max + 1) (ListOp.push_front (0 : Nat))) =
      .error ListFault.int_overflow :=
  (DoublyLinkedList.drun_spec _).2
    (by
      rw [SinglyLinkedList.list_peak_replicate_push_front]
      show int_max < 0 + (int_max + 1)
      omega)

end LinkedListResults

end CustomDataStructures

